import Mathlib

/-!
The testcafe-phoenix orchestration core: the TestController execution chain, the
compiler process, the test file compiler, the command line and the utilities.

A shallow embedding of `src/api/test-controller/index.js`,
`src/compiler/process/index.js`, `src/compiler/test-file/api-based.js`,
`src/utils/re-executable-promise.js`, `src/cli/cli.js` and `src/live/bootstrapper.js`.

The controller chains work with promises (`pinkie`).  The promise library is an
external dependency; it is embedded here by its Promises/A+ contract: a store of
promise cells, reactions registered by `then`, and a FIFO queue of reaction jobs.
The JavaScript heap is explicit: promises are addressed by their index in the store,
callsite objects by the order in which `getCallsiteForMethod` creates them.
-/

namespace TestCafe

/-! ## Values crossing the API -/

/-- The API method whose callsite is captured (the `apiMethodName` argument). -/
inductive ApiMethod
  | click
  | typeText
  | takeScreenshot
  | takeElementScreenshot
  | other (name : Nat)
  deriving DecidableEq, Repr

/-- A callsite object returned by `getCallsiteForMethod`.  Every call creates a new
object; `id` is its identity, `methodName` the API method it was captured for. -/
structure Callsite where
  methodName : ApiMethod
  id : Nat
  deriving DecidableEq, Repr

/-- An error object; `callsite` is its `callsite` property (absent until assigned). -/
structure Err where
  code : Nat
  callsite : Option Callsite
  deriving DecidableEq, Repr

/-- A JavaScript value as far as the API argument handling distinguishes them. -/
inductive JsVal
  | undefined
  | null
  | bool (b : Bool)
  | num (n : Int)
  | str (s : String)
  | obj (ref : Nat)
  deriving DecidableEq, Repr

/-- The `cmdArgs` object literal handed to a command constructor. -/
abbrev CmdArgs := List (String × JsVal)

/-- A constructed (validated) command. -/
structure Command where
  type : ApiMethod
  args : CmdArgs
  deriving DecidableEq, Repr

/-- The external test run, seen through the calls the controller makes on it. -/
structure TestRun where
  executeCommandCalls : List (Command × Callsite)
  executeCommandSyncCalls : List (Command × Callsite)
  deriving DecidableEq, Repr

/-- A command class: `new CmdCtor(cmdArgs, testRun)` returns a command or throws. -/
abbrev CmdCtor := CmdArgs → TestRun → Except Err Command

/-! ## Promises -/

/-- The state a promise settles to. -/
inductive Settled
  | fulfilled (value : Nat)
  | rejected (reason : Err)
  deriving DecidableEq, Repr

/-- The function an executor closure is: a call of `testRun.executeCommand(command,
callsite)` for executors made by `_enqueueCommand`, any other function otherwise. -/
structure Executor where
  call : Option (Command × Callsite)
  deriving DecidableEq, Repr

/-- The `onFulfilled` argument of a `then` call.  No `then` call of the controller
passes an `onRejected` argument. -/
inductive Handler
  | executor (task : Nat) (fn : Executor)
  | identity
  | resume
  deriving DecidableEq, Repr

/-- A reaction registered by `then`: the handler and the promise `then` returned. -/
structure Reaction where
  handler : Handler
  derived : Nat
  deriving DecidableEq, Repr

/-- A queued reaction job: the reaction and the state its source promise settled to. -/
structure Job where
  reaction : Reaction
  outcome : Settled
  deriving DecidableEq, Repr

/-- Where a promise comes from. -/
inductive Origin
  | resolved
  | chained (task : Nat)
  | extended (task : Nat)
  | execution (task : Nat)
  | derived
  deriving DecidableEq, Repr

/-- A promise object.  `state = none` is pending.  `callsite` is the callsite closed
over by the delegated API of an extended promise; `customThen` tells whether its own
`then` property is still the wrapper installed by `_createExtendedPromise`. -/
structure Cell where
  state : Option Settled
  reactions : List Reaction
  origin : Origin
  callsite : Option Callsite
  customThen : Bool
  deriving DecidableEq, Repr

/-- An executor event of the run: the executor of a task is invoked, or the execution
it started has settled. -/
inductive Event
  | invoked (task : Nat)
  | settled (task : Nat) (outcome : Settled)
  deriving DecidableEq, Repr

/-- The heap: the promise store and job queue, the fields of one `TestController`
(`testRun`, `executionChain`, `callsitesWithoutAwait`), and the counters of callsite
objects and of executors created so far, with the trace of executor events. -/
structure World where
  cells : Nat → Cell
  size : Nat
  jobs : List Job
  testRun : TestRun
  executionChain : Nat
  callsitesWithoutAwait : List Callsite
  callsiteCount : Nat
  taskCount : Nat
  trace : List Event

/-- What an invoked executor does: return a plain value, throw, or return a promise
that settles later. -/
inductive Behaviour
  | returns (value : Nat)
  | throws (reason : Err)
  | promise
  deriving DecidableEq, Repr

/-- What a call returns to user code: the controller itself or a promise. -/
inductive Ret
  | controller
  | handle (p : Nat)
  deriving DecidableEq, Repr

/-- The method `Set.prototype.add`. -/
def setAdd (c : Callsite) (s : List Callsite) : List Callsite :=
  if c ∈ s then s else s ++ [c]

/-- The method `Set.prototype.delete`. -/
def setDelete (c : Callsite) (s : List Callsite) : List Callsite :=
  s.filter (fun x => x ≠ c)

/-- Store update at one address. -/
def setCell (cells : Nat → Cell) (p : Nat) (c : Cell) : Nat → Cell :=
  fun x => if x = p then c else cells x

/-- A new pending promise. -/
def newCell (o : Origin) : Cell :=
  { state := none, reactions := [], origin := o, callsite := none, customThen := false }

/-- The `originalThen` of the promise library: `p.then(handler)`.  Allocates the
derived promise; the reaction is stored on a pending `p`, queued as a job on a settled
one. -/
def originalThen (w : World) (p : Nat) (h : Handler) (o : Origin) : World × Nat :=
  let q := w.size
  let w1 : World := { w with cells := setCell w.cells q (newCell o), size := q + 1 }
  match (w1.cells p).state with
  | none =>
    let c : Cell := { w1.cells p with reactions := (w1.cells p).reactions ++ [⟨h, q⟩] }
    ({ w1 with cells := setCell w1.cells p c }, q)
  | some s => ({ w1 with jobs := w1.jobs ++ [⟨⟨h, q⟩, s⟩] }, q)

/-- Settling a pending promise queues its reactions; a settled promise stays as is. -/
def settleCell (w : World) (q : Nat) (s : Settled) : World :=
  match (w.cells q).state with
  | some _ => w
  | none =>
    let c : Cell := { w.cells q with state := some s, reactions := [] }
    { w with cells := setCell w.cells q c
             jobs := w.jobs ++ (w.cells q).reactions.map (fun r => ⟨r, s⟩) }

/-- The call an executor makes on the test run when invoked. -/
def invokeExecutor (t : TestRun) (fn : Executor) : TestRun :=
  match fn.call with
  | some c => { t with executeCommandCalls := t.executeCommandCalls ++ [c] }
  | none => t

/-- Run the first queued reaction job.  An executor handler runs only on fulfilment
(there is no `onRejected`, so a rejection passes to the derived promise); the derived
promise is resolved with what the handler returns, and follows a returned promise. -/
def runJob (w : World) (b : Behaviour) : World :=
  match w.jobs with
  | [] => w
  | ⟨⟨h, q⟩, s⟩ :: rest =>
    let w1 : World := { w with jobs := rest }
    match h, s with
    | .executor i fn, .fulfilled _ =>
      let w2 : World := { w1 with trace := w1.trace ++ [.invoked i]
                                  testRun := invokeExecutor w1.testRun fn }
      match b with
      | .returns v =>
        settleCell { w2 with trace := w2.trace ++ [.settled i (.fulfilled v)] } q (.fulfilled v)
      | .throws e =>
        settleCell { w2 with trace := w2.trace ++ [.settled i (.rejected e)] } q (.rejected e)
      | .promise =>
        let c : Cell := { newCell (.execution i) with reactions := [⟨.identity, q⟩] }
        { w2 with cells := setCell w2.cells w2.size c, size := w2.size + 1 }
    | _, _ => settleCell w1 q s

/-- The environment settles the promise an executor returned. -/
def settleExecution (w : World) (r : Nat) (s : Settled) : World :=
  if r < w.size then
    match (w.cells r).origin, (w.cells r).state with
    | .execution i, none => settleCell { w with trace := w.trace ++ [.settled i s] } r s
    | _, _ => w
  else w

end TestCafe

namespace TestCafe.TestController

open TestCafe

/-- The constructor `new TestController(testRun)`: `executionChain = Promise.resolve()` and an empty
`callsitesWithoutAwait`. -/
def create (testRun : TestRun) : World :=
  { cells := fun _ => { state := some (.fulfilled 0), reactions := [], origin := .resolved,
                        callsite := none, customThen := false }
    size := 1
    jobs := []
    testRun := testRun
    executionChain := 0
    callsitesWithoutAwait := []
    callsiteCount := 0
    taskCount := 0
    trace := [] }

/-- The call `getCallsiteForMethod(apiMethodName)`: a new callsite object. -/
def getCallsiteForMethod (w : World) (m : ApiMethod) : Callsite × World :=
  (⟨m, w.callsiteCount⟩, { w with callsiteCount := w.callsiteCount + 1 })

/-- The closure `markCallsiteAwaited` of an extended promise: delete its callsite from
the set. -/
def markCallsiteAwaited (w : World) (callsite : Callsite) : World :=
  { w with callsitesWithoutAwait := setDelete callsite w.callsitesWithoutAwait }

/-- The method `_createExtendedPromise(promise, callsite)`; `task` is the index of the
task the promise is created for. -/
def _createExtendedPromise (w : World) (promise : Nat) (callsite : Callsite) (task : Nat) :
    World × Nat :=
  let (w1, ext) := originalThen w promise .identity (.extended task)
  let c : Cell := { w1.cells ext with callsite := some callsite, customThen := true }
  ({ w1 with cells := setCell w1.cells ext c }, ext)

/-- The method `_enqueueTask(apiMethodName, createTaskExecutor)`. -/
def _enqueueTask (w : World) (apiMethodName : ApiMethod)
    (createTaskExecutor : Callsite → Except Err Executor) : Except Err Ret × World :=
  let (callsite, w0) := getCallsiteForMethod w apiMethodName
  match createTaskExecutor callsite with
  | .error err => (.error err, w0)
  | .ok executor =>
    let chain := w0.executionChain
    let c : Cell := { w0.cells chain with customThen := false }
    let w1 : World := { w0 with cells := setCell w0.cells chain c }
    let (w2, next) := originalThen w1 chain (.executor w1.taskCount executor) (.chained w1.taskCount)
    let w3 : World := { w2 with executionChain := next }
    let w4 : World := { w3 with callsitesWithoutAwait := setAdd callsite w3.callsitesWithoutAwait }
    let (w5, ext) := _createExtendedPromise w4 w4.executionChain callsite w4.taskCount
    let w6 : World := { w5 with executionChain := ext, taskCount := w5.taskCount + 1 }
    (.ok (.handle w6.executionChain), w6)

/-- The `createTaskExecutor` closure of `_enqueueCommand`. -/
def commandTaskExecutor (testRun : TestRun) (ctor : CmdCtor) (cmdArgs : CmdArgs)
    (callsite : Callsite) : Except Err Executor :=
  match ctor cmdArgs testRun with
  | .error err => .error { err with callsite := some callsite }
  | .ok command => .ok ⟨some (command, callsite)⟩

/-- The method `_enqueueCommand(apiMethodName, CmdCtor, cmdArgs)`. -/
def _enqueueCommand (w : World) (apiMethodName : ApiMethod) (ctor : CmdCtor)
    (cmdArgs : CmdArgs) : Except Err Ret × World :=
  _enqueueTask w apiMethodName (commandTaskExecutor w.testRun ctor cmdArgs)

/-- The call `testRun.executeCommandSync(command, callsite)`: the call is made; `outcome` is
what the external test run does with it (`none`: it returns, `some err`: it throws). -/
def executeCommandSync (t : TestRun) (command : Command) (callsite : Callsite)
    (outcome : Option Err) : Except Err Unit × TestRun :=
  let t1 := { t with executeCommandSyncCalls := t.executeCommandSyncCalls ++ [(command, callsite)] }
  match outcome with
  | none => (.ok (), t1)
  | some err => (.error err, t1)

/-- The method `_enqueueCommandSync(apiMethodName, CmdCtor, cmdArgs)`; `outcome` is what
`testRun.executeCommandSync` does when called. -/
def _enqueueCommandSync (w : World) (apiMethodName : ApiMethod) (ctor : CmdCtor)
    (cmdArgs : CmdArgs) (outcome : Option Err) : Except Err Ret × World :=
  let (callsite, w0) := getCallsiteForMethod w apiMethodName
  match ctor cmdArgs w0.testRun with
  | .error err => (.error { err with callsite := some callsite }, w0)
  | .ok command =>
    match executeCommandSync w0.testRun command callsite outcome with
    | (.error err, t) => (.error err, { w0 with testRun := t })
    | (.ok _, t) => (.ok .controller, { w0 with testRun := t })

/-- The API method `_click$(selector, options)`. -/
def _click (w : World) (ClickCommand : CmdCtor) (selector options : JsVal)
    (outcome : Option Err) : Except Err Ret × World :=
  _enqueueCommandSync w .click ClickCommand [("selector", selector), ("options", options)] outcome

/-- The API method `_typeText$(selector, text, options)`. -/
def _typeText (w : World) (TypeTextCommand : CmdCtor) (selector text options : JsVal)
    (outcome : Option Err) : Except Err Ret × World :=
  _enqueueCommandSync w .typeText TypeTextCommand
    [("selector", selector), ("text", text), ("options", options)] outcome

/-- The API method `_takeScreenshot$(path)`. -/
def _takeScreenshot (w : World) (TakeScreenshotCommand : CmdCtor) (path : JsVal)
    (outcome : Option Err) : Except Err Ret × World :=
  _enqueueCommandSync w .takeScreenshot TakeScreenshotCommand [("path", path)] outcome

/-- The `then` property of a promise as user code finds it: on an extended promise
whose wrapper is in place, `markCallsiteAwaited()` and then `originalThen`; on any
other promise `originalThen` alone. -/
def promiseThen (w : World) (p : Nat) : World :=
  if p < w.size then
    let w1 := match (w.cells p).customThen, (w.cells p).callsite with
      | true, some callsite => markCallsiteAwaited w callsite
      | _, _ => w
    (originalThen w1 p .resume .derived).1
  else w

/-- The expression `await x`: a promise has its `then` invoked; the controller is not
thenable. -/
def await (w : World) (x : Ret) : World :=
  match x with
  | .controller => w
  | .handle p => promiseThen w p

end TestCafe.TestController

namespace TestCafe

open TestController

/-- What the implementation of a controller API method does on the controller. -/
inductive ApiCall
  | enqueueTask (apiMethodName : ApiMethod) (createTaskExecutor : Callsite → Except Err Executor)
  | enqueueCommand (apiMethodName : ApiMethod) (ctor : CmdCtor) (cmdArgs : CmdArgs)
  | enqueueCommandSync (apiMethodName : ApiMethod) (ctor : CmdCtor) (cmdArgs : CmdArgs)
      (outcome : Option Err)

/-- Perform an API call on the controller. -/
def callApi (w : World) : ApiCall → Except Err Ret × World
  | .enqueueTask m create => _enqueueTask w m create
  | .enqueueCommand m ctor args => _enqueueCommand w m ctor args
  | .enqueueCommandSync m ctor args outcome => _enqueueCommandSync w m ctor args outcome

/-- An API method called on a promise `p`.  `delegateAPI(extendedPromise, API_LIST,
{ handler: this, proxyMethod: markCallsiteAwaited })` gives an extended promise the
controller API: the proxy calls `markCallsiteAwaited()` and then the controller method.
A promise without the delegated API has no such method and the call throws. -/
def delegated (w : World) (p : Nat) (call : ApiCall) : Except Err Ret × World :=
  if p < w.size then
    match (w.cells p).callsite with
    | some callsite => callApi (markCallsiteAwaited w callsite) call
    | none => (.error ⟨0, none⟩, w)
  else (.error ⟨0, none⟩, w)

/-- One step of a test run: user code calls the API on the controller or on a promise
it holds, or awaits a value; the event loop runs a queued job; the environment settles
a running execution. -/
inductive Action
  | call (c : ApiCall)
  | chain (p : Nat) (c : ApiCall)
  | await (x : Ret)
  | runJob (b : Behaviour)
  | settle (r : Nat) (s : Settled)

/-- The heap after one step. -/
def step (w : World) : Action → World
  | .call c => (callApi w c).2
  | .chain p c => (delegated w p c).2
  | .await x => TestController.await w x
  | .runJob b => runJob w b
  | .settle r s => settleExecution w r s

/-- The heap after a sequence of steps. -/
def run (w : World) (actions : List Action) : World :=
  actions.foldl step w

end TestCafe

namespace TestCafe

/-! ## The sequencing monitor

`Monitor` reads the trace of executor events and accepts exactly the traces in which
executors run one at a time, in enqueue order, each after the previous execution has
settled, and none after a failed execution. -/

/-- Monitor state: the next task to run, whether an execution is in flight, and the
first failure seen (task and error). -/
structure Monitor where
  next : Nat
  inFlight : Bool
  failed : Option (Nat × Err)
  deriving DecidableEq, Repr

/-- The failure an outcome records. -/
def failureOf (i : Nat) : Settled → Option (Nat × Err)
  | .fulfilled _ => none
  | .rejected e => some (i, e)

/-- One event read by the monitor; `none` when the event breaks the discipline. -/
def Monitor.step (m : Monitor) : Event → Option Monitor
  | .invoked i =>
    if i = m.next ∧ m.inFlight = false ∧ m.failed = none then
      some { m with inFlight := true }
    else none
  | .settled i s =>
    if i = m.next ∧ m.inFlight = true then
      some { next := m.next + 1, inFlight := false, failed := failureOf i s }
    else none

/-- The monitor run over a whole trace. -/
def monitor (tr : List Event) : Option Monitor :=
  tr.foldlM Monitor.step ⟨0, false, none⟩

/-- A reaction of the controller chain (anything but the continuation of an `await`). -/
def Reaction.isChain (r : Reaction) : Bool :=
  match r.handler with
  | .resume => false
  | _ => true

/-- Number of chain reactions in a list. -/
def chainCount (rs : List Reaction) : Nat :=
  rs.countP Reaction.isChain

end TestCafe

namespace TestCafe

/-- Whether a step of user code observes the promise `p`: awaits it, or calls an API
method on it. -/
def Action.observes (p : Nat) : Action → Bool
  | .await (.handle q) => q == p
  | .chain q _ => q == p
  | _ => false

end TestCafe

/-! ## Further definitions: invariants of the execution chain, the compiler process,
the command line and the utilities -/

namespace TestCafe

open TestController

/-- What the position `t` of the settlement front says about one promise. -/
def CellOK (n t : Nat) (c : Cell) : Prop :=
  match c.origin with
  | .resolved => c.state ≠ none
  | .chained i => i < n ∧ (c.state = none ↔ t < 4 * i + 3) ∧
      (c.state = none → chainCount c.reactions = 1)
  | .extended i => i < n ∧ (c.state = none ↔ t < 4 * i + 4) ∧
      (c.state = none → chainCount c.reactions = if i + 1 < n then 1 else 0)
  | .execution i => i < n ∧ 4 * i + 1 ≤ t ∧ (c.state = none ↔ t < 4 * i + 2) ∧
      (c.state = none → chainCount c.reactions = 1)
  | .derived => chainCount c.reactions = 0

/-- A reaction with handler `h` stored on a promise of origin `o` derives a promise of
origin `o2`. -/
def ReactOK (o : Origin) (h : Handler) (o2 : Origin) : Prop :=
  match h with
  | .resume => o2 = .derived
  | .identity => (∃ i, o = .chained i ∧ o2 = .extended i) ∨
      (∃ i, o = .execution i ∧ o2 = .chained i)
  | .executor j _ => o2 = .chained j ∧ ∃ i, o = .extended i ∧ j = i + 1

/-- A queued job with handler `h`, outcome `s` and a derived promise of origin `o2` is
the job the front position `t` with token `tok` allows. -/
def JobOK (t : Nat) (tok : Settled) (h : Handler) (s : Settled) (o2 : Origin) : Prop :=
  match h with
  | .resume => o2 = .derived
  | .identity => s = tok ∧ ((t % 4 = 2 ∧ o2 = .chained (t / 4)) ∨
      (t % 4 = 3 ∧ o2 = .extended (t / 4)))
  | .executor j _ => s = tok ∧ t % 4 = 0 ∧ j = t / 4 ∧ o2 = .chained j

/-- The origin of the promise `executionChain` points to after `n` enqueues. -/
def tailOrigin : Nat → Origin
  | 0 => .resolved
  | n + 1 => .extended n

/-- The invariant of the execution chain.  `t` is the position of the settlement
front (`4 * i`: the executor job of task `i` is queued; `4 * i + 1`: its execution is
in flight; `4 * i + 2`: the execution has settled; `4 * i + 3`: the chained promise
has settled; `4 * taskCount`: the whole chain has settled), `tok` the outcome the front
carries, `m` the monitor state after the trace. -/
structure ChainInv (w : World) (t : Nat) (tok : Settled) (m : Monitor) : Prop where
  bound : t ≤ 4 * w.taskCount
  cell : ∀ p, p < w.size → CellOK w.taskCount t (w.cells p)
  react : ∀ p, p < w.size → ∀ r ∈ (w.cells p).reactions,
    r.derived < w.size ∧ ReactOK (w.cells p).origin r.handler (w.cells r.derived).origin
  job : ∀ j ∈ w.jobs, j.reaction.derived < w.size ∧
    JobOK t tok j.reaction.handler j.outcome (w.cells j.reaction.derived).origin
  jobCount : chainCount (w.jobs.map Job.reaction) =
    if t < 4 * w.taskCount ∧ t % 4 ≠ 1 then 1 else 0
  uniq : ∀ p q, p < w.size → q < w.size → (w.cells p).origin = (w.cells q).origin →
    (w.cells p).origin ≠ .derived → p = q
  tailLt : w.executionChain < w.size
  tail : (w.cells w.executionChain).origin = tailOrigin w.taskCount
  rest : t = 4 * w.taskCount → (w.cells w.executionChain).state = some tok
  mon : monitor w.trace = some m
  flight : m.inFlight = decide (t % 4 = 1)
  healthy : m.failed = none → (∃ v, tok = .fulfilled v) ∧ m.next = (t + 2) / 4
  broken : ∀ i e, m.failed = some (i, e) → tok = .rejected e ∧ 4 * i + 2 ≤ t
  value : ∀ p, p < w.size → ∀ i e j s, m.failed = some (i, e) → i ≤ j →
    ((w.cells p).origin = .chained j ∨ (w.cells p).origin = .extended j) →
    (w.cells p).state = some s → s = .rejected e

/-- Two heaps that differ at most in fields the invariant does not read. -/
structure CoreEq (w w2 : World) : Prop where
  state : ∀ p, (w2.cells p).state = (w.cells p).state
  reactions : ∀ p, (w2.cells p).reactions = (w.cells p).reactions
  origin : ∀ p, (w2.cells p).origin = (w.cells p).origin
  size : w2.size = w.size
  jobs : w2.jobs = w.jobs
  taskCount : w2.taskCount = w.taskCount
  executionChain : w2.executionChain = w.executionChain
  trace : w2.trace = w.trace

/-- What `p.then(h)` does to the heap, for an allocated promise `p`. -/
structure ThenEffect (w w2 : World) (p : Nat) (h : Handler) (o : Origin) : Prop where
  size : w2.size = w.size + 1
  new : w2.cells w.size = newCell o
  other : ∀ x, x ≠ w.size → x ≠ p → w2.cells x = w.cells x
  state : (w2.cells p).state = (w.cells p).state
  origin : (w2.cells p).origin = (w.cells p).origin
  callsite : (w2.cells p).callsite = (w.cells p).callsite
  customThen : (w2.cells p).customThen = (w.cells p).customThen
  pending : (w.cells p).state = none →
    (w2.cells p).reactions = (w.cells p).reactions ++ [⟨h, w.size⟩] ∧ w2.jobs = w.jobs
  settled : ∀ s, (w.cells p).state = some s →
    (w2.cells p).reactions = (w.cells p).reactions ∧ w2.jobs = w.jobs ++ [⟨⟨h, w.size⟩, s⟩]
  taskCount : w2.taskCount = w.taskCount
  executionChain : w2.executionChain = w.executionChain
  trace : w2.trace = w.trace
  testRun : w2.testRun = w.testRun
  callsitesWithoutAwait : w2.callsitesWithoutAwait = w.callsitesWithoutAwait
  callsiteCount : w2.callsiteCount = w.callsiteCount

/-- What a successful `_enqueueTask` does to the heap. -/
structure EnqueueEffect (w w2 : World) (m : ApiMethod) (fn : Executor) : Prop where
  size : w2.size = w.size + 2
  taskCount : w2.taskCount = w.taskCount + 1
  executionChain : w2.executionChain = w.size + 1
  trace : w2.trace = w.trace
  testRun : w2.testRun = w.testRun
  callsiteCount : w2.callsiteCount = w.callsiteCount + 1
  callsitesWithoutAwait :
    w2.callsitesWithoutAwait = setAdd ⟨m, w.callsiteCount⟩ w.callsitesWithoutAwait
  other : ∀ x, x < w.size → x ≠ w.executionChain → w2.cells x = w.cells x
  state : (w2.cells w.executionChain).state = (w.cells w.executionChain).state
  origin : (w2.cells w.executionChain).origin = (w.cells w.executionChain).origin
  callsite : (w2.cells w.executionChain).callsite = (w.cells w.executionChain).callsite
  customThen : (w2.cells w.executionChain).customThen = false
  pending : (w.cells w.executionChain).state = none →
    (w2.cells w.executionChain).reactions =
      (w.cells w.executionChain).reactions ++ [⟨.executor w.taskCount fn, w.size⟩] ∧
    w2.jobs = w.jobs
  settled : ∀ s, (w.cells w.executionChain).state = some s →
    (w2.cells w.executionChain).reactions = (w.cells w.executionChain).reactions ∧
    w2.jobs = w.jobs ++ [⟨⟨.executor w.taskCount fn, w.size⟩, s⟩]
  inner : w2.cells w.size =
    { newCell (.chained w.taskCount) with reactions := [⟨.identity, w.size + 1⟩] }
  handle : w2.cells (w.size + 1) =
    { newCell (.extended w.taskCount) with
      callsite := some ⟨m, w.callsiteCount⟩, customThen := true }

/-- The reachable heaps satisfy the chain invariant at some front position. -/
def Sound (w : World) : Prop := ∃ t tok m, ChainInv w t tok m

/-- What an accepted trace contains, read off the monitor state. -/
structure MonitorFacts (tr : List Event) (m : Monitor) : Prop where
  invoked : ∀ j, Event.invoked j ∈ tr ↔ j < m.next + (if m.inFlight then 1 else 0)
  settled : ∀ j, (∃ s, Event.settled j s ∈ tr) ↔ j < m.next
  failed : ∀ j e, Event.settled j (.rejected e) ∈ tr →
    m.failed = some (j, e) ∧ m.next = j + 1 ∧ m.inFlight = false

/-- The callsite `c` of the extended promise `p` is still recorded as missing its
`await`, and no other promise carries it. -/
structure Tracked (w : World) (p : Nat) (c : Callsite) : Prop where
  lt : p < w.size
  mem : c ∈ w.callsitesWithoutAwait
  fresh : c.id < w.callsiteCount
  only : ∀ x, x < w.size → (w.cells x).callsite = some c → x = p

/-- A step that leaves callsites alone: old promises keep theirs, new promises have
none, and the set and the callsite counter are unchanged. -/
structure CsFrame (w w2 : World) : Prop where
  size : w.size ≤ w2.size
  old : ∀ x, x < w.size → (w2.cells x).callsite = (w.cells x).callsite
  new : ∀ x, w.size ≤ x → x < w2.size → (w2.cells x).callsite = none
  set : w2.callsitesWithoutAwait = w.callsitesWithoutAwait
  count : w2.callsiteCount = w.callsiteCount

/-- Every callsite carried by a promise was captured before now. -/
def CsBound (w : World) : Prop :=
  ∀ x, x < w.size → ∀ c, (w.cells x).callsite = some c → c.id < w.callsiteCount

/-- Reactions still stored on promises. -/
def reactionTotal (w : World) : Nat :=
  Finset.sum (Finset.range w.size) (fun p => (w.cells p).reactions.length)

/-- Jobs queued plus reactions stored: the work running jobs can still do without
invoking an executor. -/
def pendingWork (w : World) : Nat :=
  w.jobs.length + reactionTotal w

/-- A reachable heap in which the execution of task `i` has failed with `e`. -/
def Broken (i : Nat) (e : Err) (w : World) : Prop :=
  ∃ t tok m, ChainInv w t tok m ∧ m.failed = some (i, e)

/-- A task whose executor returns a pending promise. -/
def sampleTask : ApiCall := .enqueueTask .click (fun _ => .ok ⟨none⟩)

/-- Two tasks enqueued, the first runs to completion, the second starts. -/
def sampleRun : List Action :=
  [.call sampleTask, .call sampleTask, .runJob .promise, .settle 5 (.fulfilled 1),
   .runJob .promise, .runJob .promise, .runJob .promise]

/-- Two tasks enqueued; the execution of the first is rejected; every job is run. -/
def failingRun : List Action :=
  [.call sampleTask, .call sampleTask, .runJob .promise, .settle 5 (.rejected ⟨7, none⟩),
   .runJob .promise, .runJob .promise, .runJob .promise, .runJob .promise]

/-- A command class that accepts every argument object. -/
def sampleCommand (type : ApiMethod) : CmdCtor := fun args _ => .ok ⟨type, args⟩

/-- A command class that validates `path` like `TakeScreenshotCommand`: a non-empty
string or nothing. -/
def samplePathCommand : CmdCtor := fun args _ =>
  match args with
  | [(_, .str s)] => if s.isEmpty then .error ⟨1, none⟩ else .ok ⟨.takeScreenshot, args⟩
  | [(_, .undefined)] => .ok ⟨.takeScreenshot, args⟩
  | _ => .error ⟨1, none⟩

/-- Two tasks are enqueued and the promise of the first one is awaited afterwards; then
both tasks run to completion and every queued job is run. -/
def supersededAwaitRun : List Action :=
  [.call sampleTask, .call sampleTask, .await (.handle 2), .runJob .promise,
   .settle 6 (.fulfilled 1), .runJob .promise, .runJob .promise, .runJob .promise,
   .runJob .promise, .settle 7 (.fulfilled 2), .runJob .promise, .runJob .promise]

/-- The call `click(A)` enqueued through `_enqueueCommand`. -/
def clickTask : ApiCall :=
  .enqueueCommand .click (sampleCommand .click) [("selector", .str "A"), ("options", .undefined)]

/-- The call `typeText(B, text)` enqueued through `_enqueueCommand`. -/
def typeTextTask : ApiCall :=
  .enqueueCommand .typeText (sampleCommand .typeText)
    [("selector", .str "B"), ("text", .str "text"), ("options", .undefined)]

end TestCafe

namespace TestCafe.CompilerProcess

/-- The `actor` argument of `runTest`. -/
inductive Actor
  | tests
  | fixtures
  | roles
  deriving DecidableEq, Repr

/-- The `func` argument of `runTest`: the name of the phase to run. -/
inductive Func
  | fn
  | beforeFn
  | afterFn
  | beforeEachFn
  | afterEachFn
  | initFn
  deriving DecidableEq, Repr

/-- The value of a phase property of a descriptor: absent (falsy), the truthy value
the worker sent, or the thunk `getTests` installs:
`testRun => this.runTest(idx, actor, testRun.id, func)` when `passesRunId`, and
`() => this.runTest(idx, actor, null, func)` otherwise. -/
inductive Phase
  | absent
  | declared
  | remote (idx : String) (actor : Actor) (func : Func) (passesRunId : Bool)
  deriving DecidableEq, Repr

/-- JavaScript truthiness of a phase property. -/
def Phase.truthy : Phase → Bool
  | .absent => false
  | _ => true

/-- A fixture descriptor object. -/
structure Fixture where
  id : String
  beforeEachFn : Phase
  afterEachFn : Phase
  beforeFn : Phase
  afterFn : Phase
  deriving DecidableEq, Repr

/-- An element of `test.requestHooks`: the descriptor the worker sent, or the
`RequestHookProxy` built from it. -/
inductive RequestHook
  | descriptor (hook : Nat)
  | proxy (hook : Nat)
  deriving DecidableEq, Repr

/-- A test descriptor object; `fixture` is the address of the fixture object its
`fixture` property refers to. -/
structure Test where
  id : String
  fixture : Nat
  fn : Phase
  beforeFn : Phase
  afterFn : Phase
  requestHooks : List RequestHook
  deriving DecidableEq, Repr

/-- The fixture objects, by address. -/
abbrev FixtureHeap := List Fixture

/-- The fixture object at an address. -/
def FixtureHeap.at (heap : FixtureHeap) (a : Nat) : Fixture :=
  heap.getD a ⟨"", .absent, .absent, .absent, .absent⟩

/-- The construction `new RequestHookProxy(this.transmitter, hook)`. -/
def toProxy : RequestHook → RequestHook
  | .descriptor h => .proxy h
  | .proxy h => .proxy h

/-- The body of `tests.forEach` in `getTests`, on the test object. -/
def rebindTest (test : Test) : Test :=
  { test with
    fn := .remote test.id .tests .fn true
    beforeFn := if test.beforeFn.truthy then .remote test.id .tests .beforeFn true
      else test.beforeFn
    afterFn := if test.afterFn.truthy then .remote test.id .tests .afterFn true
      else test.afterFn
    requestHooks := test.requestHooks.map toProxy }

/-- The body of `fixtures.forEach` in `getTests`. -/
def rebindFixture (fixture : Fixture) : Fixture :=
  { fixture with
    beforeEachFn := if fixture.beforeEachFn.truthy then
        .remote fixture.id .fixtures .beforeEachFn true
      else fixture.beforeEachFn
    afterEachFn := if fixture.afterEachFn.truthy then
        .remote fixture.id .fixtures .afterEachFn true
      else fixture.afterEachFn
    beforeFn := if fixture.beforeFn.truthy then .remote fixture.id .fixtures .beforeFn false
      else fixture.beforeFn
    afterFn := if fixture.afterFn.truthy then .remote fixture.id .fixtures .afterFn false
      else fixture.afterFn }

/-- The first loop of `getTests`: `fixtures` collects the fixture object of a test
unless an object with the same `id` is already in it; every test is rebound. -/
def forEachTest (heap : FixtureHeap) (tests : List Test) : List Nat × List Test :=
  tests.foldl (fun acc test =>
    (if acc.1.any (fun fixture => (heap.at fixture).id == (heap.at test.fixture).id) then acc.1
      else acc.1 ++ [test.fixture],
     acc.2 ++ [rebindTest test])) ([], [])

/-- The second loop of `getTests`: the collected fixture objects are rebound in place. -/
def forEachFixture (heap : FixtureHeap) (fixtures : List Nat) : FixtureHeap :=
  fixtures.foldl (fun h fixture => h.set fixture (rebindFixture (h.at fixture))) heap

/-- The method `getTests(sources)`, from the answer of the worker (`tests` and the fixture objects they
refer to) on: returns `tests`. -/
def getTests (heap : FixtureHeap) (tests : List Test) : FixtureHeap × List Test :=
  let (fixtures, tests) := forEachTest heap tests
  (forEachFixture heap fixtures, tests)

/-- The fixture descriptor objects the consumer of `getTests` reaches through the
`fixture` property of the returned tests, each object once. -/
def fixtureDescriptors (tests : List Test) : List Nat :=
  (tests.map Test.fixture).dedup

/-- Two test descriptors as the answer of a worker carries them: each with its own copy of
the fixture object, both copies with id `F1`. -/
def sharedIdTests : List Test :=
  [⟨"T1", 0, .declared, .absent, .absent, []⟩, ⟨"T2", 1, .declared, .absent, .absent, []⟩]

/-- The two fixture objects of `sharedIdTests`. -/
def sharedIdHeap : FixtureHeap :=
  [⟨"F1", .declared, .absent, .absent, .absent⟩, ⟨"F1", .declared, .absent, .absent, .absent⟩]

end TestCafe.CompilerProcess

namespace TestCafe.CompilerProcess

open TestCafe

/-- The payload of a `run-test` request: `{ idx, actor, func, testRunId }`; a `null`
`testRunId` is `none`. -/
structure RunTestPayload where
  idx : String
  actor : Actor
  func : Func
  testRunId : Option String
  deriving DecidableEq, Repr

/-- A request sent with `transmitter.send(method, payload)`. -/
inductive Request
  | getTests (sources : List String)
  | runTest (payload : RunTestPayload)
  | cleanUp
  | exit
  deriving DecidableEq, Repr

/-- The transmitter as the compiler process uses it: the requests sent so far.  What
a request is answered with is decided by the worker. -/
structure Transmitter where
  sent : List Request
  deriving DecidableEq, Repr

/-- The call `transmitter.send(method, payload)`, awaited: the request is sent and the
call yields the `response` of the worker to it. -/
def Transmitter.send (t : Transmitter) (request : Request) (response : Except Err Nat) :
    Except Err Nat × Transmitter :=
  (response, { t with sent := t.sent ++ [request] })

/-- The method `runTest(idx, actor, testRunId, func)`. -/
def runTest (t : Transmitter) (idx : String) (actor : Actor) (testRunId : Option String)
    (func : Func) (response : Except Err Nat) : Except Err Nat × Transmitter :=
  t.send (.runTest ⟨idx, actor, func, testRunId⟩) response

/-- Calling a phase property with a test run whose `id` is `testRunId`.  Only the thunks
installed by the compiler process are functions of this model. -/
def Phase.call (p : Phase) (t : Transmitter) (testRunId : String)
    (response : Except Err Nat) : Option (Except Err Nat × Transmitter) :=
  match p with
  | .remote idx actor func passesRunId =>
    some (runTest t idx actor (if passesRunId then some testRunId else none) func response)
  | _ => none

/-- The role payload of a `use-role` notification, and the record of the arguments
`createRole(id, loginPage, initFn, options)` is called with. -/
structure Role where
  id : String
  loginPage : JsVal
  initFn : Phase
  options : JsVal
  deriving DecidableEq, Repr

/-- A command handed to `testRun.executeCommand` by the compiler process. -/
inductive RunCommand
  | remote (command : Nat)
  | useRole (role : Role)
  | debug
  deriving DecidableEq, Repr

/-- A test run registered in `testRunTracker.activeTestRuns`, with the record of the
calls made on it. -/
structure ActiveRun where
  id : String
  debugging : Bool
  requestHooks : List (Nat × RequestHook)
  executeCommandCalls : List RunCommand
  addRequestHookCalls : List RequestHook
  removeRequestHookCalls : List (Option RequestHook)
  deriving DecidableEq, Repr

/-- The methods of a registered test run that the compiler process calls: what each
call does to the run is decided by the test run class. -/
structure RunMethods where
  executeCommand : ActiveRun → RunCommand → ActiveRun
  addRequestHook : ActiveRun → RequestHook → ActiveRun
  removeRequestHook : ActiveRun → Option RequestHook → ActiveRun

/-- Modelled from the spec: the methods of a test run (the `TestRun` class is outside
this source set).  Every method records its call; `executeCommand` of a debug command
marks the run debugging: a pause injects a debug command into a run and marks it
debugging. -/
def recording : RunMethods where
  executeCommand := fun r c =>
    { r with
      debugging := if c = .debug then true else r.debugging
      executeCommandCalls := r.executeCommandCalls ++ [c] }
  addRequestHook := fun r h => { r with addRequestHookCalls := r.addRequestHookCalls ++ [h] }
  removeRequestHook := fun r h =>
    { r with removeRequestHookCalls := r.removeRequestHookCalls ++ [h] }

/-- The object `testRunTracker.activeTestRuns`, in the order of `Object.values`. -/
abbrev ActiveTestRuns := List ActiveRun

/-- The lookup `activeTestRuns[id]`. -/
def ActiveTestRuns.lookup (runs : ActiveTestRuns) (id : String) : Option ActiveRun :=
  runs.find? (fun r => r.id == id)

/-- A method call on the run `activeTestRuns[id]`. -/
def ActiveTestRuns.update (runs : ActiveTestRuns) (id : String) (f : ActiveRun → ActiveRun) :
    ActiveTestRuns :=
  match runs with
  | [] => []
  | r :: rest => if r.id == id then f r :: rest else r :: ActiveTestRuns.update rest id f

/-- What a route handler returns: `undefined`, or the promise of the `executeCommand`
call it made. -/
inductive Returned
  | undefined
  | promise
  deriving DecidableEq, Repr

/-- The `execute-command` route. -/
def onExecuteCommand (m : RunMethods) (runs : ActiveTestRuns) (id : String) (command : Nat) :
    Returned × ActiveTestRuns :=
  match runs.lookup id with
  | none => (.undefined, runs)
  | some _ => (.promise, runs.update id (fun r => m.executeCommand r (.remote command)))

/-- The expression `data.role.initFn && (run => this.runTest(data.role.id, 'roles',
run.id, 'initFn'))`. -/
def roleInitFn (role : Role) : Phase :=
  if role.initFn.truthy then .remote role.id .roles .initFn true else role.initFn

/-- The `use-role` route. -/
def onUseRole (m : RunMethods) (runs : ActiveTestRuns) (id : String) (role : Role) :
    Returned × ActiveTestRuns :=
  match runs.lookup id with
  | none => (.undefined, runs)
  | some _ =>
    let command := RunCommand.useRole ⟨role.id, role.loginPage, roleInitFn role, role.options⟩
    (.promise, runs.update id (fun r => m.executeCommand r command))

/-- The `add-request-hooks` route. -/
def onAddRequestHooks (m : RunMethods) (runs : ActiveTestRuns) (id : String)
    (hooks : List RequestHook) : Returned × ActiveTestRuns :=
  match runs.lookup id with
  | none => (.undefined, runs)
  | some _ =>
    (.undefined,
      runs.update id (fun r => hooks.foldl (fun r hook => m.addRequestHook r (toProxy hook)) r))

/-- The `remove-request-hooks` route; `hooks` are the `id`s of the hooks named by the
notification. -/
def onRemoveRequestHooks (m : RunMethods) (runs : ActiveTestRuns) (id : String)
    (hooks : List Nat) : Returned × ActiveTestRuns :=
  match runs.lookup id with
  | none => (.undefined, runs)
  | some _ =>
    (.undefined,
      runs.update id (fun r =>
        hooks.foldl (fun r hook => m.removeRequestHook r (r.requestHooks.lookup hook)) r))

/-- The step debugger as the compiler process drives it: the `Debugger.stepOut()`
calls made. -/
structure Debugger where
  stepOutCalls : Nat
  deriving DecidableEq, Repr

/-- The search behind `String.prototype.indexOf`: the first position at or after `i`
where `needle` starts in the rest `s` of the string, or `-1`. -/
def indexOfFrom (needle : List Char) : List Char → Nat → Int
  | [], i => if needle.isEmpty then i else -1
  | c :: rest, i =>
    if needle.isPrefixOf (c :: rest) then i else indexOfFrom needle rest (i + 1)

/-- The call `s.indexOf(needle)`. -/
def indexOf (s needle : String) : Int :=
  indexOfFrom needle.toList s.toList 0

/-- The `Debugger.paused` handler; `callFrames` are the `url`s of the call frames.  The
access `callFrames[0].url` throws on an empty array. -/
def onPaused (m : RunMethods) (internalFilesUrl : String) (runs : ActiveTestRuns)
    (dbg : Debugger) (callFrames : List String) : Except Err Unit × ActiveTestRuns × Debugger :=
  let runs2 := runs.map (fun testRun =>
    if !testRun.debugging then m.executeCommand testRun .debug else testRun)
  match callFrames with
  | [] => (.error ⟨0, none⟩, runs2, dbg)
  | top :: _ =>
    if indexOf top internalFilesUrl ≥ 0 then
      (.ok (), runs2, { dbg with stepOutCalls := dbg.stepOutCalls + 1 })
    else (.ok (), runs2, dbg)

/-- The `Debugger.resumed` handler. -/
def onResumed (runs : ActiveTestRuns) : ActiveTestRuns :=
  runs.map (fun testRun => { testRun with debugging := false })

/-- Modelled from the spec: the ControlChannel (the `./transmitter` module is outside
this source set).  Every request gets an `id` that is unique within the channel
instance; a response `{ id, result }` or `{ id, error }` settles the in-flight request
with that `id` and no other; a response whose `id` is not in flight is dropped. -/

structure ControlChannel where
  nextId : Nat
  inFlight : List Nat
  settled : List (Nat × Except Err Nat)

/-- Modelled from the spec: a channel with no request sent yet. -/
def ControlChannel.fresh : ControlChannel :=
  ⟨0, [], []⟩

/-- Modelled from the spec: `send(method, payload)` puts a request with a new `id` in
flight; the call resolves when the response with that `id` arrives. -/
def ControlChannel.send (c : ControlChannel) : Nat × ControlChannel :=
  (c.nextId, { c with nextId := c.nextId + 1, inFlight := c.inFlight ++ [c.nextId] })

/-- Modelled from the spec: a response arrives; it is matched by `id` only. -/
def ControlChannel.receive (c : ControlChannel) (id : Nat) (response : Except Err Nat) :
    ControlChannel :=
  if id ∈ c.inFlight then
    { c with inFlight := c.inFlight.erase id, settled := c.settled ++ [(id, response)] }
  else c

/-- Modelled from the spec: what the `send` call with request `id` resolved with. -/
def ControlChannel.outcome (c : ControlChannel) (id : Nat) : Option (Except Err Nat) :=
  (c.settled.find? (fun e => e.1 == id)).map Prod.snd

/-- Every request of the channel, in flight or settled, has an `id` already given
out. -/
def ControlChannel.WellFormed (c : ControlChannel) : Prop :=
  (∀ id ∈ c.inFlight, id < c.nextId) ∧ (∀ e ∈ c.settled, e.1 < c.nextId)

/-- A registry of two runs, the second one debugging. -/
def sampleRuns : ActiveTestRuns :=
  [⟨"run-1", false, [], [], [], []⟩, ⟨"run-2", true, [], [], [], []⟩]

end TestCafe.CompilerProcess

namespace TestCafe.TestController

open TestCafe

/-- An argument of `t.addRequestHooks(...)`: a request hook, another value, or an
array of arguments. -/
inductive HookArg
  | hook (id : Nat)
  | other (value : JsVal)
  | array (items : List HookArg)
  deriving Repr

mutual
/-- The elements one argument contributes to `flattenDeep`. -/
def HookArg.flatten : HookArg → List HookArg
  | .array items => flattenDeep items
  | x => [x]
/-- The function `flattenDeep` of lodash (imported as `flatten`). -/
def flattenDeep : List HookArg → List HookArg
  | [] => []
  | x :: rest => x.flatten ++ flattenDeep rest
end

/-- The test `hook instanceof RequestHook`. -/
def HookArg.isRequestHook : HookArg → Bool
  | .hook _ => true
  | _ => false

/-- The error `assertRequestHookType` throws: the hook is not of the expected type. -/
def requestHookTypeError : Err :=
  ⟨2, none⟩

/-- Modelled from the spec: `assertRequestHookType(hooks)` (the module
`../request-hooks/assert-type` is outside this source set), as the functional test
`TestController API parameter validation` shows it: it throws when an element is not a
`RequestHook` and returns otherwise. -/
def assertRequestHookType (hooks : List HookArg) : Except Err Unit :=
  if hooks.all HookArg.isRequestHook then .ok () else .error requestHookTypeError

/-- The test run seen through the request hook calls the controller makes on it. -/
structure RequestHookCalls where
  addRequestHooks : List (List HookArg)
  removeRequestHooks : List (List HookArg)

/-- The API method `_addRequestHooks$(...hooks)`. -/
def _addRequestHooks (testRun : RequestHookCalls) (hooks : List HookArg) :
    Except Err Ret × RequestHookCalls :=
  let hooks := flattenDeep hooks
  match assertRequestHookType hooks with
  | .error err => (.error err, testRun)
  | .ok _ =>
    (.ok .controller, { testRun with addRequestHooks := testRun.addRequestHooks ++ [hooks] })

/-- The API method `_removeRequestHooks$(...hooks)`. -/
def _removeRequestHooks (testRun : RequestHookCalls) (hooks : List HookArg) :
    Except Err Ret × RequestHookCalls :=
  let hooks := flattenDeep hooks
  match assertRequestHookType hooks with
  | .error err => (.error err, testRun)
  | .ok _ =>
    (.ok .controller,
      { testRun with removeRequestHooks := testRun.removeRequestHooks ++ [hooks] })

/-- JavaScript truthiness. -/
def jsTruthy : JsVal → Bool
  | .undefined => false
  | .null => false
  | .bool b => b
  | .num n => n != 0
  | .str s => !s.isEmpty
  | .obj _ => true

/-- The test `typeof v === 'object'`. -/
def typeofIsObject : JsVal → Bool
  | .null => true
  | .obj _ => true
  | _ => false

/-- The element `args[i]` of a rest parameter: `undefined` past the end. -/
def argAt (args : List JsVal) (i : Nat) : JsVal :=
  args.getD i .undefined

/-- The `commandArgs` object `_takeElementScreenshot$(selector, ...args)` builds. -/
def takeElementScreenshotArgs (selector : JsVal) (args : List JsVal) : CmdArgs :=
  let commandArgs : CmdArgs := [("selector", selector)]
  if jsTruthy (argAt args 1) then
    commandArgs ++ [("path", argAt args 0), ("options", argAt args 1)]
  else if typeofIsObject (argAt args 0) then commandArgs ++ [("options", argAt args 0)]
  else commandArgs ++ [("path", argAt args 0)]

/-- The API method `_takeElementScreenshot$(selector, ...args)`. -/
def _takeElementScreenshot (w : World) (TakeElementScreenshotCommand : CmdCtor)
    (selector : JsVal) (args : List JsVal) (outcome : Option Err) : Except Err Ret × World :=
  _enqueueCommandSync w .takeElementScreenshot TakeElementScreenshotCommand
    (takeElementScreenshotArgs selector args) outcome

/-- A command class that validates `path` like `TakeElementScreenshotCommand`: when
set it is a non-empty string. -/
def sampleElementScreenshotCommand : CmdCtor := fun args _ =>
  match args.lookup "path" with
  | none => .ok ⟨.takeElementScreenshot, args⟩
  | some (.str s) => if s.isEmpty then .error ⟨1, none⟩ else .ok ⟨.takeElementScreenshot, args⟩
  | some _ => .error ⟨1, none⟩

end TestCafe.TestController

namespace TestCafe.TestFileCompiler

/-- An error value: an `APIError`, a `TestCompilationError` around a cleaned error, or
any other error. -/
inductive JsError
  | api (code : Nat)
  | testCompilation (cause : JsError)
  | plain (code : Nat)
  deriving DecidableEq, Repr

/-- The test `err instanceof APIError`. -/
def JsError.isAPIError : JsError → Bool
  | .api _ => true
  | _ => false

/-- The error `new Error('Not implemented')` of the methods a compiler has to
override. -/
def notImplemented : JsError :=
  .plain 0

/-- The process state the compiler switches: `stackCleaningHook.enabled`, whether the
global `fixture` and `test` are defined, whether the require hook is installed. -/
structure CompilerState where
  stackCleaningEnabled : Bool
  globalAPI : Bool
  requireHook : Bool
  deriving DecidableEq, Repr

/-- The members of a compiler that subclasses provide, with `stackCleaningHook.cleanError`
and the execution of a compiled module (`_execAsModule`, which yields the tests the
file declares). -/
structure Compiler where
  canCompileInBatch : Bool
  _compileCode : String → String → Except JsError String
  _compileCodeBatch : List (String × String) → Except JsError (List (String × String))
  _getRequireCompilers : Except JsError (List String)
  cleanError : JsError → JsError
  _execAsModule : String → String → Except JsError (List Nat)

/-- The class `APIBasedTestFileCompilerBase` itself: its `_compileCode`,
`_compileCodeBatch` and `_getRequireCompilers` throw `Not implemented`. -/
def base (canCompileInBatch : Bool) (cleanError : JsError → JsError)
    (execAsModule : String → String → Except JsError (List Nat)) : Compiler where
  canCompileInBatch := canCompileInBatch
  _compileCode := fun _ _ => .error notImplemented
  _compileCodeBatch := fun _ => .error notImplemented
  _getRequireCompilers := .error notImplemented
  cleanError := cleanError
  _execAsModule := execAsModule

/-- The callback of `testFilesInfo.map` in `_compileCodeForTestFiles`: a file
`(code, filename)` becomes `(compiledCode, filename)`, or `_compileCode` throws. -/
def compileFile (c : Compiler) (info : String × String) : Except JsError (String × String) :=
  match c._compileCode info.1 info.2 with
  | .error err => .error err
  | .ok compiledCode => .ok (compiledCode, info.2)

/-- The method `_compileCodeForTestFiles(testFilesInfo)`; a file is `(code, filename)`,
a compiled file `(compiledCode, filename)`. -/
def _compileCodeForTestFiles (c : Compiler) (s : CompilerState)
    (testFilesInfo : List (String × String)) :
    Except JsError (List (String × String)) × CompilerState :=
  let s1 : CompilerState := { s with stackCleaningEnabled := true }
  let attempt : Except JsError (List (String × String)) :=
    if c.canCompileInBatch then c._compileCodeBatch testFilesInfo
    else testFilesInfo.mapM (compileFile c)
  match attempt with
  | .error err => (.error (.testCompilation (c.cleanError err)), { s1 with stackCleaningEnabled := false })
  | .ok compiledCode => (.ok compiledCode, { s1 with stackCleaningEnabled := false })

/-- The method `_setupRequireHook(testFile)`: it installs the hook for the extensions
`_getRequireCompilers()` returns. -/
def _setupRequireHook (c : Compiler) (s : CompilerState) : Except JsError Unit × CompilerState :=
  match c._getRequireCompilers with
  | .error err => (.error err, s)
  | .ok _ => (.ok (), { s with requireHook := true })

/-- The method `_runCompiledCode(compiledCode, filename)`. -/
def _runCompiledCode (c : Compiler) (s : CompilerState) (compiledCode filename : String) :
    Except JsError (List Nat) × CompilerState :=
  let s1 : CompilerState := { s with globalAPI := true }
  let s2 : CompilerState := { s1 with stackCleaningEnabled := true }
  match _setupRequireHook c s2 with
  | (.error err, s3) => (.error err, s3)
  | (.ok _, s3) =>
    let after : CompilerState :=
      { s3 with requireHook := false, stackCleaningEnabled := false, globalAPI := false }
    match c._execAsModule compiledCode filename with
    | .error err =>
      if !err.isAPIError then (.error (.testCompilation (c.cleanError err)), after)
      else (.error err, after)
    | .ok tests => (.ok tests, after)

/-- A compiler as the subclasses are: `_compileCode` rejects empty code and returns
the code otherwise, `_getRequireCompilers` returns the compilers for `.js`; the
compiled module throws an `APIError` when it is the text `api`, another error when it
is the text `throw`, and declares one test otherwise. -/
def sampleCompiler : Compiler :=
  { base false id (fun code _ =>
      if code = "api" then .error (.api 1)
      else if code = "throw" then .error (.plain 2)
      else .ok [1]) with
    _compileCode := fun code _ => if code.isEmpty then .error (.plain 3) else .ok code
    _getRequireCompilers := .ok [".js"] }

end TestCafe.TestFileCompiler

namespace TestCafe

open TestController

/-- The call `click(selector)` as `_click$` performs it on the controller. -/
def clickCall (selector : String) : ApiCall :=
  .enqueueCommandSync .click (sampleCommand .click)
    [("selector", .str selector), ("options", .undefined)] none

/-- The sequence of the NOTE on `_createExtendedPromise`:
`t2 = t.click(btn1); await t2; t.click(btn2); await t2.click(btn3)`.  Here `t2` is what
`click` returned: the controller. -/
def noteClickRun : List Action :=
  [.call (clickCall "#btn1"), .await .controller, .call (clickCall "#btn2"),
   .call (clickCall "#btn3"), .await .controller]

/-- The sequence of the NOTE with every action enqueued through `_enqueueTask`:
`t2` is the handle 2; the last task is chained off `t2` and its handle 7 is awaited. -/
def noteTaskRun : List Action :=
  [.call sampleTask, .await (.handle 2), .call sampleTask, .chain 2 sampleTask,
   .await (.handle 7)]

end TestCafe

namespace TestCafe.TestController

open TestCafe

/-- The static method `enableDebug()`: the module variable `inDebug` afterwards. -/
def enableDebug (_inDebug : Bool) : Bool :=
  true

/-- The static method `disableDebug()`: the module variable `inDebug` afterwards. -/
def disableDebug (_inDebug : Bool) : Bool :=
  false

/-- The method `shouldStop(command)`: the value returned and `inDebug` afterwards. -/
def shouldStop (inDebug : Bool) (command : JsVal) : Bool × Bool :=
  if inDebug && command != .str "debug" then (true, false)
  else if command == .str "debug" then (true, inDebug)
  else (false, inDebug)

end TestCafe.TestController

namespace TestCafe.CompilerProcess

open TestCafe

/-- The object `debugInfo`. -/
structure DebugInfo where
  host : String
  port : String
  isDefault : Bool
  stopOnStart : Bool
  deriving DecidableEq, Repr

/-- The character class `[^:\d]`. -/
def isHostChar (c : Char) : Bool :=
  c != ':' && !c.isDigit

/-- The pattern `([^:\d]*)?:?(\d+)?$` at the start of `rest`: the two groups (empty
for a group that did not take part).  The star takes every host character there is
(what follows it must be a colon, a digit or the end), the colon is taken when it is
there, and the digits must reach the end of the input. -/
def matchHostPort (rest : List Char) : Option (List Char × List Char) :=
  let host := rest.takeWhile isHostChar
  let tail := rest.dropWhile isHostChar
  let digits := match tail with
    | ':' :: t => t
    | _ => tail
  if digits.all Char.isDigit then some (host, digits) else none

/-- The call `inspectFlag.match(/=([^:\d]*)?:?(\d+)?$/)`: the pattern is tried at every
`=` from the left; the groups of the first match. -/
def matchInspectFlag : List Char → Option (List Char × List Char)
  | [] => none
  | c :: rest =>
    if c = '=' then
      match matchHostPort rest with
      | some groups => some groups
      | none => matchInspectFlag rest
    else matchInspectFlag rest

/-- The call `flag.startsWith(start)`. -/
def startsWith (flag start : String) : Bool :=
  start.toList.isPrefixOf flag.toList

/-- The method `_getDebugInfo(v8Flags)`; `freePort` is `String(await getFreePort())`. -/
def _getDebugInfo (v8Flags : List String) (freePort : String) : DebugInfo :=
  let debugInfo : DebugInfo := ⟨"127.0.0.1", "", true, false⟩
  let inspectFlags := v8Flags.filter (fun flag => startsWith flag "--inspect")
  match inspectFlags.head? with
  | none => { debugInfo with port := freePort }
  | some inspectFlag =>
    let debugInfo : DebugInfo :=
      { debugInfo with isDefault := false, stopOnStart := decide (indexOf inspectFlag "brk" ≥ 0) }
    match matchInspectFlag inspectFlag.toList with
    | some (host, port) =>
      { debugInfo with
        host := if host.isEmpty then debugInfo.host else String.mk host
        port := if port.isEmpty then debugInfo.port else String.mk port }
    | none => { debugInfo with port := "9229" }

end TestCafe.CompilerProcess

namespace TestCafe

/-- An instance of `ReExecutablePromise`.  The executor `_fn` is seen through what its
calls do: `_fn k` is the outcome of the call made after `k` earlier ones (it returns a
value or throws one); `calls` counts the calls made. -/
structure ReExecutablePromise where
  _fn : Nat → Except JsVal JsVal
  calls : Nat
  _executed : Bool
  _result : JsVal
  _error : JsVal

end TestCafe

namespace TestCafe.ReExecutablePromise

open TestCafe

/-- The constructor `new ReExecutablePromise(executorFn)`. -/
def create (executorFn : Nat → Except JsVal JsVal) : ReExecutablePromise :=
  { _fn := executorFn, calls := 0, _executed := false, _result := .null, _error := .null }

/-- The method `_ensureExecuting()`. -/
def _ensureExecuting (p : ReExecutablePromise) : ReExecutablePromise :=
  if p._executed then p
  else
    match p._fn p.calls with
    | .ok result => { p with calls := p.calls + 1, _result := result, _error := .null }
    | .error error => { p with calls := p.calls + 1, _result := .null, _error := error }

/-- The method `_execute()`: it returns `_result` or throws `_error`. -/
def _execute (p : ReExecutablePromise) : Except JsVal JsVal × ReExecutablePromise :=
  let p1 := _ensureExecuting p
  if TestController.jsTruthy p1._error then (.error p1._error, p1) else (.ok p1._result, p1)

/-- The method `_reExecute()`. -/
def _reExecute (p : ReExecutablePromise) : Except JsVal JsVal × ReExecutablePromise :=
  _execute { p with _executed := false }

/-- The handler a call of `then` invokes, with its argument. -/
inductive Invoked
  | onFulfilled (result : JsVal)
  | onRejected (error : JsVal)
  deriving DecidableEq, Repr

/-- The method `then(onFulfilled, onRejected)`: the handler it invokes. -/
def then_ (p : ReExecutablePromise) : Invoked × ReExecutablePromise :=
  let p1 := _ensureExecuting p
  if TestController.jsTruthy p1._error then (.onRejected p1._error, p1)
  else (.onFulfilled p1._result, p1)

/-- The method `catch(onRejected)`: `then` with an empty first handler and `onRejected`. -/
def catch_ (p : ReExecutablePromise) : Invoked × ReExecutablePromise :=
  then_ p

/-- A call made on the promise by its user. -/
inductive Call
  | then_
  | catch_
  | _execute
  | _reExecute
  deriving DecidableEq, Repr

/-- The promise after one call. -/
def step (p : ReExecutablePromise) : Call → ReExecutablePromise
  | .then_ => (then_ p).2
  | .catch_ => (catch_ p).2
  | ._execute => (_execute p).2
  | ._reExecute => (_reExecute p).2

/-- The promise after a sequence of calls. -/
def run (p : ReExecutablePromise) (calls : List Call) : ReExecutablePromise :=
  calls.foldl step p

end TestCafe.ReExecutablePromise

namespace TestCafe.Cli

open TestCafe

/-- The module variables `showMessageOnExit`, `exitMessageShown` and `exiting` of
`cli.js`, with the messages `exitHandler` wrote through `log.write` and the codes it
called `exit` with. -/
structure ExitState where
  showMessageOnExit : Bool
  exitMessageShown : Bool
  exiting : Bool
  written : List String
  exitCalls : List Nat
  deriving DecidableEq, Repr

/-- The module variables as initialised. -/
def ExitState.init : ExitState :=
  ⟨true, false, false, [], []⟩

/-- The function `exitHandler(terminationLevel)`. -/
def exitHandler (s : ExitState) (terminationLevel : Nat) : ExitState :=
  let s1 : ExitState :=
    if s.showMessageOnExit && !s.exitMessageShown then
      { s with exitMessageShown := true, written := s.written ++ ["Stopping TestCafe..."] }
    else s
  if s1.exiting || terminationLevel < 2 then s1
  else { s1 with exiting := true, exitCalls := s1.exitCalls ++ [0] }

/-- What happens to the module variables: the termination handler calls `exitHandler`,
or `runTests` assigns `showMessageOnExit = false`. -/
inductive ExitEvent
  | terminationLevelIncreased (terminationLevel : Nat)
  | clearShowMessage
  deriving DecidableEq, Repr

/-- The module variables after one event. -/
def ExitState.step (s : ExitState) : ExitEvent → ExitState
  | .terminationLevelIncreased terminationLevel => exitHandler s terminationLevel
  | .clearShowMessage => { s with showMessageOnExit := false }

/-- The module variables after a sequence of events. -/
def ExitState.run (s : ExitState) (events : List ExitEvent) : ExitState :=
  events.foldl ExitState.step s

/-- What holds of the module variables at every point: a message was written only with
`exitMessageShown` set and `exit` was called only with `exiting` set, each at most
once. -/
def ExitInv (s : ExitState) : Prop :=
  (s.exitMessageShown = false → s.written = []) ∧
  (s.written = [] ∨ s.written = ["Stopping TestCafe..."]) ∧
  (s.exiting = false → s.exitCalls = []) ∧
  (s.exitCalls = [] ∨ s.exitCalls = [0])

/-- The object `getBrowserInfo(browser)` resolves to; `none` is `null`. -/
structure BrowserInfo where
  error : Option Err
  info : Option Nat
  deriving DecidableEq, Repr

/-- The function `getBrowserInfo(browser)`; `pool` is
`browserProviderPool.getBrowserInfo`, which returns the info or throws. -/
def getBrowserInfo (pool : String → Except Err Nat) (browser : String) : BrowserInfo :=
  match pool browser with
  | .ok info => ⟨none, some info⟩
  | .error err => ⟨some err, none⟩

/-- An element of the sources array `getBrowsersAndSources` returns: a source, or the
array `argParser.browsers` put in as one element. -/
inductive Source
  | file (path : String)
  | browsers (list : List String)
  deriving DecidableEq, Repr

/-- The error `new CompositeError(errors)`. -/
structure CompositeError where
  errors : List (Option Err)
  deriving DecidableEq, Repr

/-- The function `getBrowsersAndSources(testCafe, argParser)`; `browsersOptions` is
`configuration.getOption(OPTION_NAMES.browsers)`. -/
def getBrowsersAndSources (browsersOptions : JsVal) (pool : String → Except Err Nat)
    (browsers src : List String) : Except CompositeError (List String × List Source) :=
  if !TestController.jsTruthy browsersOptions then .ok (browsers, src.map .file)
  else
    let browserInfo := browsers.map (getBrowserInfo pool)
    let parsedInfo := browserInfo.filter (fun info => info.error.isNone)
    let failedInfo := browserInfo.filter (fun info => !info.error.isNone)
    if parsedInfo.length = 0 then .ok ([], .browsers browsers :: src.map .file)
    else .error ⟨failedInfo.map (fun info => info.error)⟩

end TestCafe.Cli

namespace TestCafe.LiveModeBootstrapper

open TestCafe

/-- The value of `Module.prototype.require`. -/
inductive Require
  | originalRequire
  | watching
  deriving DecidableEq, Repr

/-- What `_getTests` acts on: `Module.prototype.require`, the calls of
`compilerHost.cleanUp` and the error `runner.setBootstrappingError` recorded. -/
structure Env where
  require : Require
  cleanUpCalls : Nat
  bootstrappingError : Option Err
  deriving DecidableEq, Repr

/-- The method `_mockRequire()`. -/
def _mockRequire (e : Env) : Env :=
  { e with require := .watching }

/-- The method `_restoreRequire()`. -/
def _restoreRequire (e : Env) : Env :=
  { e with require := .originalRequire }

/-- The method `_getTests()`; `base` is what `super._getTests()` settles with, `cleanUp`
what `await this.compilerHost.cleanUp()` does when called (`none`: it completes,
`some err`: it fails).  The result `.ok none` is `undefined`. -/
def _getTests {α : Type} (e : Env) (base : Except Err α) (cleanUp : Option Err) :
    Except Err (Option α) × Env :=
  let e1 := _mockRequire e
  let (result, e2) : Except Err (Option α) × Env :=
    match base with
    | .ok tests => (.ok (some tests), e1)
    | .error err =>
      let e2 : Env := { e1 with cleanUpCalls := e1.cleanUpCalls + 1 }
      match cleanUp with
      | some err2 => (.error err2, e2)
      | none => (.ok none, { e2 with bootstrappingError := some err })
  (result, _restoreRequire e2)

end TestCafe.LiveModeBootstrapper

/-! ## Theorems -/

namespace TestCafe

open TestController

theorem CellOK_congr {n t : Nat} {c c2 : Cell} (hs : c2.state = c.state)
    (hr : c2.reactions = c.reactions) (ho : c2.origin = c.origin) (h : CellOK n t c) :
    CellOK n t c2 := by
  unfold CellOK at *
  rw [hs, hr, ho]
  exact h

theorem ChainInv.of_coreEq {w w2 : World} {t : Nat} {tok : Settled} {m : Monitor}
    (e : CoreEq w w2) (h : ChainInv w t tok m) : ChainInv w2 t tok m where
  bound := by rw [e.taskCount]; exact h.bound
  cell := fun p hp => by
    rw [e.taskCount]
    exact CellOK_congr (e.state p) (e.reactions p) (e.origin p) (h.cell p (e.size ▸ hp))
  react := fun p hp r hr => by
    rw [e.size, e.origin, e.origin]
    rw [e.reactions] at hr
    exact h.react p (e.size ▸ hp) r hr
  job := fun j hj => by
    rw [e.size, e.origin]
    rw [e.jobs] at hj
    exact h.job j hj
  jobCount := by rw [e.jobs, e.taskCount]; exact h.jobCount
  uniq := fun p q hp hq ho hd => by
    rw [e.origin, e.origin] at ho
    rw [e.origin] at hd
    exact h.uniq p q (e.size ▸ hp) (e.size ▸ hq) ho hd
  tailLt := by rw [e.executionChain, e.size]; exact h.tailLt
  tail := by rw [e.executionChain, e.origin, e.taskCount]; exact h.tail
  rest := fun ht => by
    rw [e.executionChain, e.state]
    exact h.rest (by rw [← e.taskCount]; exact ht)
  mon := by rw [e.trace]; exact h.mon
  flight := h.flight
  healthy := h.healthy
  broken := h.broken
  value := fun p hp i e2 j s hf hij ho hs => by
    rw [e.origin] at ho
    rw [e.state] at hs
    exact h.value p (e.size ▸ hp) i e2 j s hf hij ho hs

theorem ChainInv.inv_create (testRun : TestRun) :
    ChainInv (create testRun) 0 (.fulfilled 0) ⟨0, false, none⟩ where
  bound := by simp [TestController.create]
  cell := fun p _ => by simp [TestController.create, CellOK]
  react := fun p _ r hr => by simp [TestController.create] at hr
  job := fun j hj => by simp [TestController.create] at hj
  jobCount := by simp [TestController.create, chainCount]
  uniq := fun p q hp hq _ _ => by
    simp [TestController.create] at hp hq
    omega
  tailLt := by simp [TestController.create]
  tail := by simp [TestController.create, tailOrigin]
  rest := fun _ => by simp [TestController.create]
  mon := by simp [TestController.create, monitor]
  flight := by simp
  healthy := fun _ => by simp
  broken := fun i e h => by simp at h
  value := fun p _ i e j s h => by simp at h

@[simp] theorem setCell_same (cells : Nat → Cell) (p : Nat) (c : Cell) :
    setCell cells p c p = c := by simp [setCell]

theorem setCell_other (cells : Nat → Cell) {p x : Nat} (c : Cell) (h : x ≠ p) :
    setCell cells p c x = cells x := by simp [setCell, h]

theorem chainCount_append (a b : List Reaction) :
    chainCount (a ++ b) = chainCount a + chainCount b := by
  simp [chainCount, List.countP_append]

theorem settleCell_pending {w : World} {q : Nat} (s : Settled)
    (h : (w.cells q).state = none) :
    settleCell w q s =
      { w with cells := setCell w.cells q ({ w.cells q with state := some s, reactions := [] })
               jobs := w.jobs ++ (w.cells q).reactions.map (fun r => ⟨r, s⟩) } := by
  unfold settleCell
  rw [h]

theorem settleCell_settled {w : World} {q : Nat} (s : Settled)
    (h : (w.cells q).state ≠ none) : settleCell w q s = w := by
  unfold settleCell
  cases hs : (w.cells q).state with
  | none => exact absurd hs h
  | some _ => rfl

/-- Settling a pending promise re-establishes the invariant at a new front position,
provided the position is right for every promise and every job. -/
theorem settle_inv {w : World} {q : Nat} {s : Settled} {t2 : Nat} {tok2 : Settled}
    {m2 : Monitor} (hq : q < w.size) (hpend : (w.cells q).state = none)
    (hbound : t2 ≤ 4 * w.taskCount)
    (hcellQ : CellOK w.taskCount t2 { w.cells q with state := some s, reactions := [] })
    (hcell : ∀ p, p < w.size → p ≠ q → CellOK w.taskCount t2 (w.cells p))
    (hreact : ∀ p, p < w.size → ∀ r ∈ (w.cells p).reactions,
      r.derived < w.size ∧ ReactOK (w.cells p).origin r.handler (w.cells r.derived).origin)
    (hjob : ∀ j ∈ w.jobs, j.reaction.derived < w.size ∧
      JobOK t2 tok2 j.reaction.handler j.outcome (w.cells j.reaction.derived).origin)
    (hnew : ∀ r ∈ (w.cells q).reactions,
      JobOK t2 tok2 r.handler s (w.cells r.derived).origin)
    (hcount : chainCount (w.jobs.map Job.reaction) + chainCount (w.cells q).reactions =
      if t2 < 4 * w.taskCount ∧ t2 % 4 ≠ 1 then 1 else 0)
    (huniq : ∀ p q, p < w.size → q < w.size → (w.cells p).origin = (w.cells q).origin →
      (w.cells p).origin ≠ .derived → p = q)
    (htailLt : w.executionChain < w.size)
    (htail : (w.cells w.executionChain).origin = tailOrigin w.taskCount)
    (hrest : t2 = 4 * w.taskCount →
      (if w.executionChain = q then some s else (w.cells w.executionChain).state) = some tok2)
    (hmon : monitor w.trace = some m2)
    (hflight : m2.inFlight = decide (t2 % 4 = 1))
    (hhealthy : m2.failed = none → (∃ v, tok2 = .fulfilled v) ∧ m2.next = (t2 + 2) / 4)
    (hbroken : ∀ i e, m2.failed = some (i, e) → tok2 = .rejected e ∧ 4 * i + 2 ≤ t2)
    (hvalueQ : ∀ i e j, m2.failed = some (i, e) → i ≤ j →
      ((w.cells q).origin = .chained j ∨ (w.cells q).origin = .extended j) → s = .rejected e)
    (hvalue : ∀ p, p < w.size → p ≠ q → ∀ i e j s, m2.failed = some (i, e) → i ≤ j →
      ((w.cells p).origin = .chained j ∨ (w.cells p).origin = .extended j) →
      (w.cells p).state = some s → s = .rejected e) :
    ChainInv (settleCell w q s) t2 tok2 m2 := by
  rw [settleCell_pending s hpend]
  have horigin : ∀ p, (setCell w.cells q
      ({ w.cells q with state := some s, reactions := [] }) p).origin = (w.cells p).origin := by
    intro p
    by_cases hp : p = q
    · subst hp; simp
    · rw [setCell_other _ _ hp]
  refine
    { bound := hbound, cell := ?_, react := ?_, job := ?_, jobCount := ?_, uniq := ?_,
      tailLt := htailLt, tail := ?_, rest := ?_, mon := hmon, flight := hflight,
      healthy := hhealthy, broken := hbroken, value := ?_ }
  · intro p hp
    by_cases hpq : p = q
    · subst hpq; simpa using hcellQ
    · simpa [setCell_other _ _ hpq] using hcell p hp hpq
  · intro p hp r hr
    simp only [horigin]
    by_cases hpq : p = q
    · subst hpq; simp at hr
    · simp only [setCell_other _ _ hpq] at hr
      exact hreact p hp r hr
  · intro j hj
    simp only [horigin]
    simp only [List.mem_append, List.mem_map] at hj
    rcases hj with hj | ⟨r, hr, rfl⟩
    · exact hjob j hj
    · exact ⟨(hreact q hq r hr).1, hnew r hr⟩
  · simp only [List.map_append, List.map_map, chainCount_append]
    have : (Job.reaction ∘ fun r => (⟨r, s⟩ : Job)) = id := by funext r; rfl
    rw [this, List.map_id]
    exact hcount
  · intro p p2 hp hp2
    simp only [horigin]
    exact huniq p p2 hp hp2
  · simp only [horigin]; exact htail
  · intro ht
    have := hrest ht
    by_cases hc : w.executionChain = q
    · simp only [hc, if_true] at this
      simp [hc, this]
    · simp only [hc, if_false] at this
      simp [setCell_other _ _ hc, this]
  · intro p hp i e j s2 hf hij ho hs
    simp only [horigin] at ho
    by_cases hpq : p = q
    · subst hpq
      simp at hs
      subst hs
      exact hvalueQ i e j hf hij ho
    · simp only [setCell_other _ _ hpq] at hs
      exact hvalue p hp hpq i e j s2 hf hij ho hs

theorem chainCount_cons (r : Reaction) (rs : List Reaction) :
    chainCount (r :: rs) = chainCount rs + (if r.isChain then 1 else 0) := by
  simp [chainCount, List.countP_cons]

theorem isChain_resume (d : Nat) : Reaction.isChain ⟨.resume, d⟩ = false := rfl

theorem isChain_identity (d : Nat) : Reaction.isChain ⟨.identity, d⟩ = true := rfl

theorem isChain_executor (i : Nat) (fn : Executor) (d : Nat) :
    Reaction.isChain ⟨.executor i fn, d⟩ = true := rfl

theorem handler_of_chainCount_zero {rs : List Reaction} (h : chainCount rs = 0)
    {r : Reaction} (hr : r ∈ rs) : r.handler = .resume := by
  unfold chainCount at h
  rw [List.countP_eq_zero] at h
  have := h r hr
  unfold Reaction.isChain at this
  cases hh : r.handler <;> simp [hh] at this ⊢

/-- Jobs that are no chain jobs are right at every front position. -/
theorem jobs_of_chainCount_zero {w : World} {t tok} {rest : List Job} (t2 : Nat)
    (tok2 : Settled) (hcnt : chainCount (rest.map Job.reaction) = 0)
    (hjob : ∀ j ∈ rest, j.reaction.derived < w.size ∧
      JobOK t tok j.reaction.handler j.outcome (w.cells j.reaction.derived).origin) :
    ∀ j ∈ rest, j.reaction.derived < w.size ∧
      JobOK t2 tok2 j.reaction.handler j.outcome (w.cells j.reaction.derived).origin := by
  intro j hj
  have hres : j.reaction.handler = .resume :=
    handler_of_chainCount_zero hcnt (List.mem_map_of_mem _ hj)
  have := hjob j hj
  rw [hres] at this ⊢
  exact this

theorem CellOK.advance {n t t2 : Nat} {c : Cell} (h : CellOK n t c)
    (hc : ∀ i, c.origin = .chained i → (t < 4 * i + 3 ↔ t2 < 4 * i + 3))
    (he : ∀ i, c.origin = .extended i → (t < 4 * i + 4 ↔ t2 < 4 * i + 4))
    (hx : ∀ i, c.origin = .execution i → 4 * i + 1 ≤ t →
      (4 * i + 1 ≤ t2 ∧ (t < 4 * i + 2 ↔ t2 < 4 * i + 2))) : CellOK n t2 c := by
  unfold CellOK at *
  cases ho : c.origin with
  | resolved => simpa [ho] using h
  | chained i =>
    simp only [ho] at h ⊢
    rw [← hc i ho]; exact h
  | extended i =>
    simp only [ho] at h ⊢
    rw [← he i ho]; exact h
  | execution i =>
    simp only [ho] at h ⊢
    obtain ⟨h1, h2, h3, h4⟩ := h
    have := hx i ho h2
    exact ⟨h1, this.1, by rw [← this.2]; exact h3, h4⟩
  | derived => simpa [ho] using h

theorem monitor_append (tr : List Event) (e : Event) :
    monitor (tr ++ [e]) = (monitor tr).bind (fun m => m.step e) := by
  simp [monitor, List.foldlM_append]

/-- Reactions of a settling promise become jobs that are right at the new position. -/
theorem newJobs_chained {i : Nat} {h : Handler} {s : Settled} {o2 : Origin}
    (hr : ReactOK (.chained i) h o2) : JobOK (4 * i + 3) s h s o2 := by
  cases h with
  | resume => exact hr
  | identity =>
    simp only [ReactOK] at hr
    rcases hr with ⟨i2, h1, h2⟩ | ⟨i2, h1, _⟩
    · cases h1
      refine ⟨rfl, Or.inr ⟨by omega, ?_⟩⟩
      rw [h2]; congr 1; omega
    · cases h1
  | executor j fn =>
    simp only [ReactOK] at hr
    obtain ⟨_, i2, h1, _⟩ := hr
    cases h1

theorem newJobs_extended {i : Nat} {h : Handler} {s : Settled} {o2 : Origin}
    (hr : ReactOK (.extended i) h o2) : JobOK (4 * i + 4) s h s o2 := by
  cases h with
  | resume => exact hr
  | identity =>
    simp only [ReactOK] at hr
    rcases hr with ⟨i2, h1, _⟩ | ⟨i2, h1, _⟩ <;> cases h1
  | executor j fn =>
    simp only [ReactOK] at hr
    obtain ⟨h0, i2, h1, h2⟩ := hr
    cases h1
    exact ⟨rfl, by omega, by omega, h0⟩

theorem newJobs_execution {i : Nat} {h : Handler} {s : Settled} {o2 : Origin}
    (hr : ReactOK (.execution i) h o2) : JobOK (4 * i + 2) s h s o2 := by
  cases h with
  | resume => exact hr
  | identity =>
    simp only [ReactOK] at hr
    rcases hr with ⟨i2, h1, _⟩ | ⟨i2, h1, h2⟩
    · cases h1
    · cases h1
      refine ⟨rfl, Or.inl ⟨by omega, ?_⟩⟩
      rw [h2]; congr 1; omega
  | executor j fn =>
    simp only [ReactOK] at hr
    obtain ⟨_, i2, h1, _⟩ := hr
    cases h1

theorem newJobs_derived {t : Nat} {tok : Settled} {h : Handler} {s : Settled} {o2 : Origin}
    (hr : ReactOK .derived h o2) : JobOK t tok h s o2 := by
  cases h with
  | resume => exact hr
  | identity =>
    simp only [ReactOK] at hr
    rcases hr with ⟨i2, h1, _⟩ | ⟨i2, h1, _⟩ <;> cases h1
  | executor j fn =>
    simp only [ReactOK] at hr
    obtain ⟨_, i2, h1, _⟩ := hr
    cases h1

/-- Running the continuation of an `await` keeps the invariant where it is. -/
theorem ChainInv.runJob_resume {w : World} {t tok m} (h : ChainInv w t tok m)
    {q : Nat} {s : Settled} {rest : List Job} (hjobs : w.jobs = ⟨⟨.resume, q⟩, s⟩ :: rest) :
    ChainInv (settleCell { w with jobs := rest } q s) t tok m := by
  have hhead := h.job ⟨⟨.resume, q⟩, s⟩ (by rw [hjobs]; exact List.mem_cons_self _ _)
  have hrest : ∀ j ∈ rest, j.reaction.derived < w.size ∧
      JobOK t tok j.reaction.handler j.outcome (w.cells j.reaction.derived).origin :=
    fun j hj => h.job j (by rw [hjobs]; exact List.mem_cons_of_mem _ hj)
  have hcnt : chainCount (rest.map Job.reaction) =
      if t < 4 * w.taskCount ∧ t % 4 ≠ 1 then 1 else 0 := by
    have := h.jobCount
    rw [hjobs] at this
    simpa [chainCount_cons, isChain_resume] using this
  have hod : (w.cells q).origin = .derived := hhead.2
  have hcq := h.cell q hhead.1
  by_cases hpend : (w.cells q).state = none
  · refine settle_inv (w := { w with jobs := rest }) hhead.1 hpend h.bound ?_ ?_ h.react hrest
      ?_ ?_ h.uniq h.tailLt h.tail ?_ h.mon h.flight h.healthy h.broken ?_ ?_
    · simp only [CellOK, hod]; simp [chainCount]
    · intro p hp _; exact h.cell p hp
    · intro r hr
      have := (h.react q hhead.1 r hr).2
      rw [hod] at this
      exact newJobs_derived this
    · simp only [CellOK, hod] at hcq
      simp only [hcq, Nat.add_zero]; exact hcnt
    · intro ht
      have hne : w.executionChain ≠ q := by
        intro hc
        have := h.tail
        rw [hc, hod] at this
        cases hn : w.taskCount <;> simp [hn, tailOrigin] at this
      simp only [hne, if_false]
      exact h.rest ht
    · intro i e j _ _ ho
      rw [hod] at ho
      rcases ho with ho | ho <;> cases ho
    · intro p hp _; exact h.value p hp
  · rw [settleCell_settled (w := { w with jobs := rest }) s hpend]
    exact
      { bound := h.bound, cell := h.cell, react := h.react, job := hrest, jobCount := hcnt,
        uniq := h.uniq, tailLt := h.tailLt, tail := h.tail, rest := h.rest, mon := h.mon,
        flight := h.flight, healthy := h.healthy, broken := h.broken, value := h.value }

/-- Facts about the queue when its head is a chain job. -/
theorem ChainInv.chainHead {w : World} {t tok m} (h : ChainInv w t tok m)
    {r : Reaction} {s : Settled} {rest : List Job} (hjobs : w.jobs = ⟨r, s⟩ :: rest)
    (hr : r.isChain = true) :
    chainCount (rest.map Job.reaction) = 0 ∧ t < 4 * w.taskCount ∧ t % 4 ≠ 1 := by
  have := h.jobCount
  rw [hjobs] at this
  simp only [List.map_cons, chainCount_cons, hr, if_true] at this
  by_cases hc : t < 4 * w.taskCount ∧ t % 4 ≠ 1
  · rw [if_pos hc] at this
    exact ⟨by omega, hc⟩
  · rw [if_neg hc] at this
    omega

/-- A passing job (identity, or an executor job on a rejected promise) moves the front
on by settling the derived promise with the token. -/
theorem ChainInv.runJob_identity {w : World} {t tok m} (h : ChainInv w t tok m)
    {q : Nat} {s : Settled} {rest : List Job}
    (hjobs : w.jobs = ⟨⟨.identity, q⟩, s⟩ :: rest) :
    ChainInv (settleCell { w with jobs := rest } q s) (t + 1) tok m := by
  have hhead := h.job ⟨⟨.identity, q⟩, s⟩ (by rw [hjobs]; exact List.mem_cons_self _ _)
  have hrest : ∀ j ∈ rest, j.reaction.derived < w.size ∧
      JobOK t tok j.reaction.handler j.outcome (w.cells j.reaction.derived).origin :=
    fun j hj => h.job j (by rw [hjobs]; exact List.mem_cons_of_mem _ hj)
  obtain ⟨hcnt, htn, ht1⟩ := h.chainHead hjobs (isChain_identity q)
  obtain ⟨hq, hs, hpos⟩ := hhead
  simp only at hq hs hpos
  subst hs
  have hcq := h.cell q hq
  have hfl : m.inFlight = decide ((t + 1) % 4 = 1) := by
    rw [h.flight]
    rcases hpos with ⟨h2, _⟩ | ⟨h3, _⟩ <;> simp <;> omega
  have hhe : m.failed = none → (∃ v, s = .fulfilled v) ∧ m.next = (t + 1 + 2) / 4 := by
    intro hf
    refine ⟨(h.healthy hf).1, ?_⟩
    rw [(h.healthy hf).2]
    rcases hpos with ⟨h2, _⟩ | ⟨h3, _⟩ <;> omega
  have hbr : ∀ i e, m.failed = some (i, e) → s = .rejected e ∧ 4 * i + 2 ≤ t + 1 := by
    intro i e hf
    exact ⟨(h.broken i e hf).1, by have := (h.broken i e hf).2; omega⟩
  rcases hpos with ⟨h2, ho⟩ | ⟨h3, ho⟩
  · -- the execution has settled: the chained promise settles
    have hcq2 := hcq
    simp only [CellOK, ho] at hcq2
    obtain ⟨hin, hiff, hone⟩ := hcq2
    have hpend : (w.cells q).state = none := hiff.2 (by omega)
    refine settle_inv (w := { w with jobs := rest }) hq hpend
      (by show t + 1 ≤ 4 * w.taskCount; omega) ?_ ?_
      h.react (jobs_of_chainCount_zero _ _ hcnt hrest) ?_ ?_ h.uniq h.tailLt h.tail ?_ h.mon
      hfl hhe hbr ?_ ?_
    · simp only [CellOK, ho]
      refine ⟨hin, ?_, ?_⟩ <;> simp <;> omega
    · intro p hp hpq
      have hne : (w.cells p).origin ≠ .chained (t / 4) := by
        intro hc
        exact hpq (h.uniq p q hp hq (by rw [hc, ho]) (by rw [hc]; simp))
      refine (h.cell p hp).advance ?_ ?_ ?_
      · intro i hi
        have : i ≠ t / 4 := fun hc => hne (hc ▸ hi)
        omega
      · intro i _; omega
      · intro i _ _; omega
    · intro r hr
      have := (h.react q hq r hr).2
      rw [ho] at this
      have h3 := newJobs_chained (s := s) this
      have he : 4 * (t / 4) + 3 = t + 1 := by omega
      rw [he] at h3
      exact h3
    · simp only [hcnt, hone hpend]
      rw [if_pos]
      constructor
      · show t + 1 < 4 * w.taskCount
        omega
      · omega
    · intro ht
      have ht2 : t + 1 = 4 * w.taskCount := ht
      omega
    · intro i e j hf _ _
      exact (h.broken i e hf).1
    · intro p hp _; exact h.value p hp
  · -- the chained promise has settled: the extended promise settles
    have hcq2 := hcq
    simp only [CellOK, ho] at hcq2
    obtain ⟨hin, hiff, hone⟩ := hcq2
    have hpend : (w.cells q).state = none := hiff.2 (by omega)
    refine settle_inv (w := { w with jobs := rest }) hq hpend
      (by show t + 1 ≤ 4 * w.taskCount; omega) ?_ ?_
      h.react (jobs_of_chainCount_zero _ _ hcnt hrest) ?_ ?_ h.uniq h.tailLt h.tail ?_ h.mon
      hfl hhe hbr ?_ ?_
    · simp only [CellOK, ho]
      refine ⟨hin, ?_, ?_⟩ <;> simp <;> omega
    · intro p hp hpq
      have hne : (w.cells p).origin ≠ .extended (t / 4) := by
        intro hc
        exact hpq (h.uniq p q hp hq (by rw [hc, ho]) (by rw [hc]; simp))
      refine (h.cell p hp).advance ?_ ?_ ?_
      · intro i _; omega
      · intro i hi
        have : i ≠ t / 4 := fun hc => hne (hc ▸ hi)
        omega
      · intro i _ _; omega
    · intro r hr
      have := (h.react q hq r hr).2
      rw [ho] at this
      have h3 := newJobs_extended (s := s) this
      have he : 4 * (t / 4) + 4 = t + 1 := by omega
      rw [he] at h3
      exact h3
    · simp only [hcnt, hone hpend, Nat.zero_add]
      by_cases hlast : t / 4 + 1 < w.taskCount
      · rw [if_pos hlast, if_pos]; omega
      · rw [if_neg hlast, if_neg]; omega
    · intro ht
      have ht2 : t + 1 = 4 * w.taskCount := ht
      have hn : w.taskCount = t / 4 + 1 := by omega
      have : w.executionChain = q := by
        refine h.uniq _ _ h.tailLt hq ?_ ?_
        · rw [h.tail, ho, hn]; rfl
        · rw [h.tail, hn]; simp [tailOrigin]
      simp [this]
    · intro i e j hf _ _
      exact (h.broken i e hf).1
    · intro p hp _; exact h.value p hp

/-- Frame for the promises other than `chained i` when the front moves from `4 * i` to
`4 * i + 3`. -/
theorem CellOK.skip {n i : Nat} {c : Cell} (h : CellOK n (4 * i) c)
    (hne : c.origin ≠ .chained i) : CellOK n (4 * i + 3) c := by
  refine h.advance ?_ ?_ ?_
  · intro j hj
    have : j ≠ i := fun hc => hne (hc ▸ hj)
    omega
  · intro j _; omega
  · intro j _ _; omega

/-- An executor job on a rejected promise: the executor is not invoked and the
rejection passes to the chained promise. -/
theorem ChainInv.runJob_executor_rejected {w : World} {t tok m} (h : ChainInv w t tok m)
    {i : Nat} {fn : Executor} {q : Nat} {e : Err} {rest : List Job}
    (hjobs : w.jobs = ⟨⟨.executor i fn, q⟩, .rejected e⟩ :: rest) :
    ChainInv (settleCell { w with jobs := rest } q (.rejected e)) (t + 3) tok m := by
  have hhead := h.job _ (by rw [hjobs]; exact List.mem_cons_self _ _)
  have hrest : ∀ j ∈ rest, j.reaction.derived < w.size ∧
      JobOK t tok j.reaction.handler j.outcome (w.cells j.reaction.derived).origin :=
    fun j hj => h.job j (by rw [hjobs]; exact List.mem_cons_of_mem _ hj)
  obtain ⟨hcnt, htn, _⟩ := h.chainHead hjobs (isChain_executor i fn q)
  obtain ⟨hq, hs, h0, hi, ho⟩ := hhead
  simp only at hq hs h0 hi ho
  have ht : t = 4 * i := by omega
  subst ht
  have hcq2 := h.cell q hq
  simp only [CellOK, ho] at hcq2
  obtain ⟨hin, hiff, hone⟩ := hcq2
  have hpend : (w.cells q).state = none := hiff.2 (by omega)
  have hfail : m.failed ≠ none := by
    intro hf
    obtain ⟨⟨v, hv⟩, _⟩ := h.healthy hf
    rw [← hs] at hv
    cases hv
  refine settle_inv (w := { w with jobs := rest }) hq hpend
    (by show 4 * i + 3 ≤ 4 * w.taskCount; omega) ?_ ?_
    h.react (jobs_of_chainCount_zero _ _ hcnt hrest) ?_ ?_ h.uniq h.tailLt h.tail ?_ h.mon
    ?_ ?_ ?_ ?_ ?_
  · simp only [CellOK, ho]
    refine ⟨hin, ?_, ?_⟩ <;> simp
  · intro p hp hpq
    refine (h.cell p hp).skip ?_
    intro hc
    exact hpq (h.uniq p q hp hq (by rw [hc, ho]) (by rw [hc]; simp))
  · intro r hr
    have := (h.react q hq r hr).2
    rw [ho] at this
    rw [← hs]
    exact newJobs_chained this
  · simp only [hcnt, hone hpend]
    rw [if_pos]
    constructor
    · show 4 * i + 3 < 4 * w.taskCount
      omega
    · omega
  · intro ht
    have ht2 : 4 * i + 3 = 4 * w.taskCount := ht
    omega
  · rw [h.flight]; simp; omega
  · intro hf; exact absurd hf hfail
  · intro i2 e2 hf
    exact ⟨(h.broken i2 e2 hf).1, by have := (h.broken i2 e2 hf).2; omega⟩
  · intro i2 e2 j hf _ _
    rw [hs]
    exact (h.broken i2 e2 hf).1
  · intro p hp _; exact h.value p hp

/-- An executor job on a fulfilled promise whose executor returns a plain value or
throws: the executor is invoked, its execution settles at once, and the chained promise
settles with the outcome. -/
theorem ChainInv.runJob_executor_sync {w w2 : World} {t tok m} (h : ChainInv w t tok m)
    {i : Nat} {fn : Executor} {q v : Nat} {rest : List Job} (s2 : Settled)
    (hjobs : w.jobs = ⟨⟨.executor i fn, q⟩, .fulfilled v⟩ :: rest)
    (hcells : w2.cells = w.cells) (hsize : w2.size = w.size) (hj2 : w2.jobs = rest)
    (htc : w2.taskCount = w.taskCount) (hec : w2.executionChain = w.executionChain)
    (htr : w2.trace = w.trace ++ [.invoked i] ++ [.settled i s2]) :
    ChainInv (settleCell w2 q s2) (t + 3) s2 ⟨m.next + 1, false, failureOf i s2⟩ := by
  have hhead := h.job _ (by rw [hjobs]; exact List.mem_cons_self _ _)
  have hrest : ∀ j ∈ rest, j.reaction.derived < w.size ∧
      JobOK t tok j.reaction.handler j.outcome (w.cells j.reaction.derived).origin :=
    fun j hj => h.job j (by rw [hjobs]; exact List.mem_cons_of_mem _ hj)
  obtain ⟨hcnt, htn, _⟩ := h.chainHead hjobs (isChain_executor i fn q)
  obtain ⟨hq, hs, h0, hi, ho⟩ := hhead
  simp only at hq hs h0 hi ho
  have ht : t = 4 * i := by omega
  subst ht
  have hcq2 := h.cell q hq
  simp only [CellOK, ho] at hcq2
  obtain ⟨hin, hiff, hone⟩ := hcq2
  have hpend : (w.cells q).state = none := hiff.2 (by omega)
  have hfail : m.failed = none := by
    cases hf : m.failed with
    | none => rfl
    | some ie =>
      have := (h.broken ie.1 ie.2 hf).1
      rw [← hs] at this
      cases this
  have hnext : m.next = i := by
    rw [(h.healthy hfail).2]; omega
  have hfl : m.inFlight = false := by
    rw [h.flight]; simp
  have hmon : monitor w2.trace = some ⟨m.next + 1, false, failureOf i s2⟩ := by
    rw [htr, monitor_append, monitor_append, h.mon]
    simp [Monitor.step, hnext, hfl, hfail]
  refine settle_inv (w := w2) (hsize ▸ hq) (hcells ▸ hpend)
    (by rw [htc]; omega) ?_ ?_ ?_ ?_ ?_ ?_ ?_ ?_ ?_ ?_ hmon ?_ ?_ ?_ ?_ ?_
  · rw [hcells, htc]
    simp only [CellOK, ho]
    refine ⟨hin, ?_, ?_⟩ <;> simp
  · rw [hcells, htc, hsize]
    intro p hp hpq
    refine (h.cell p hp).skip ?_
    intro hc
    exact hpq (h.uniq p q hp hq (by rw [hc, ho]) (by rw [hc]; simp))
  · rw [hcells, hsize]; exact h.react
  · rw [hcells, hsize, hj2]
    exact jobs_of_chainCount_zero _ _ hcnt hrest
  · rw [hcells]
    intro r hr
    have := (h.react q hq r hr).2
    rw [ho] at this
    exact newJobs_chained this
  · rw [hcells, htc, hj2, hcnt, hone hpend]
    rw [if_pos]
    omega
  · rw [hcells, hsize]; exact h.uniq
  · rw [hec, hsize]; exact h.tailLt
  · rw [hcells, hec, htc]; exact h.tail
  · intro ht
    rw [htc] at ht
    omega
  · simp; omega
  · intro hf
    simp only at hf
    cases s2 with
    | fulfilled v2 => exact ⟨⟨v2, rfl⟩, by simp only [hnext]; omega⟩
    | rejected e2 => simp [failureOf] at hf
  · intro i2 e2 hf
    simp only at hf
    cases s2 with
    | fulfilled v2 => simp [failureOf] at hf
    | rejected e3 =>
      simp only [failureOf, Option.some.injEq, Prod.mk.injEq] at hf
      obtain ⟨h1, h2⟩ := hf
      subst h1 h2
      exact ⟨rfl, by omega⟩
  · intro i2 e2 j hf _ _
    simp only at hf
    cases s2 with
    | fulfilled v2 => simp [failureOf] at hf
    | rejected e3 =>
      simp only [failureOf, Option.some.injEq, Prod.mk.injEq] at hf
      rw [hf.2]
  · rw [hcells, hsize]
    intro p hp _ i2 e2 j s3 hf hij hor hst
    simp only at hf
    cases s2 with
    | fulfilled v2 => simp [failureOf] at hf
    | rejected e3 =>
      simp only [failureOf, Option.some.injEq, Prod.mk.injEq] at hf
      obtain ⟨h1, _⟩ := hf
      subst h1
      exfalso
      have hc := h.cell p hp
      rcases hor with hor | hor
      · simp only [CellOK, hor] at hc
        have := hc.2.1
        rw [hst] at this
        simp at this
        omega
      · simp only [CellOK, hor] at hc
        have := hc.2.1
        rw [hst] at this
        simp at this
        omega

theorem monitor_inFlight {tr : List Event} : ∀ {m : Monitor}, monitor tr = some m →
    m.inFlight = true → m.failed = none := by
  induction tr using List.reverseRecOn with
  | nil =>
    intro m h hf
    simp [monitor] at h
    subst h
    simp at hf
  | append_singleton tr e _ =>
    intro m h hf
    rw [monitor_append] at h
    cases hm : monitor tr with
    | none => simp [hm] at h
    | some m1 =>
      simp only [hm, Option.some_bind] at h
      cases e with
      | invoked i =>
        simp only [Monitor.step] at h
        by_cases hc : i = m1.next ∧ m1.inFlight = false ∧ m1.failed = none
        · rw [if_pos hc] at h
          cases h
          exact hc.2.2
        · rw [if_neg hc] at h
          cases h
      | settled i s =>
        simp only [Monitor.step] at h
        by_cases hc : i = m1.next ∧ m1.inFlight = true
        · rw [if_pos hc] at h
          cases h
          simp at hf
        · rw [if_neg hc] at h
          cases h

/-- No settled chain promise of a task at or after the task of the front. -/
theorem ChainInv.pending_ahead {w : World} {t tok m} (h : ChainInv w t tok m)
    {p : Nat} (hp : p < w.size) {j : Nat} {s : Settled}
    (ho : (w.cells p).origin = .chained j ∨ (w.cells p).origin = .extended j)
    (hs : (w.cells p).state = some s) : 4 * j + 3 ≤ t := by
  have hc := h.cell p hp
  rcases ho with ho | ho
  · simp only [CellOK, ho] at hc
    have := hc.2.1
    rw [hs] at this
    simp at this
    omega
  · simp only [CellOK, ho] at hc
    have := hc.2.1
    rw [hs] at this
    simp at this
    omega

/-- An executor job on a fulfilled promise whose executor returns a promise: the
executor is invoked and its execution is in flight. -/
theorem ChainInv.runJob_executor_promise {w w2 : World} {t tok m} (h : ChainInv w t tok m)
    {i : Nat} {fn : Executor} {q v : Nat} {rest : List Job}
    (hjobs : w.jobs = ⟨⟨.executor i fn, q⟩, .fulfilled v⟩ :: rest)
    (hcells : w2.cells = setCell w.cells w.size
      ({ newCell (.execution i) with reactions := [⟨.identity, q⟩] }))
    (hsize : w2.size = w.size + 1) (hj2 : w2.jobs = rest)
    (htc : w2.taskCount = w.taskCount) (hec : w2.executionChain = w.executionChain)
    (htr : w2.trace = w.trace ++ [.invoked i]) :
    ChainInv w2 (t + 1) tok { m with inFlight := true } := by
  have hhead := h.job _ (by rw [hjobs]; exact List.mem_cons_self _ _)
  have hrest : ∀ j ∈ rest, j.reaction.derived < w.size ∧
      JobOK t tok j.reaction.handler j.outcome (w.cells j.reaction.derived).origin :=
    fun j hj => h.job j (by rw [hjobs]; exact List.mem_cons_of_mem _ hj)
  obtain ⟨hcnt, htn, _⟩ := h.chainHead hjobs (isChain_executor i fn q)
  obtain ⟨hq, hs, h0, hi, ho⟩ := hhead
  simp only at hq hs h0 hi ho
  have ht : t = 4 * i := by omega
  subst ht
  have hfail : m.failed = none := by
    cases hf : m.failed with
    | none => rfl
    | some ie =>
      have := (h.broken ie.1 ie.2 hf).1
      rw [← hs] at this
      cases this
  have hnext : m.next = i := by
    rw [(h.healthy hfail).2]; omega
  have hfl : m.inFlight = false := by
    rw [h.flight]; simp
  have hold : ∀ p, p < w.size → w2.cells p = w.cells p := by
    intro p hp
    rw [hcells, setCell_other _ _ (by omega)]
  have hnew : w2.cells w.size =
      { newCell (.execution i) with reactions := [⟨.identity, q⟩] } := by
    rw [hcells, setCell_same]
  have hjobs2 := jobs_of_chainCount_zero (4 * i + 1) tok hcnt hrest
  refine
    { bound := by rw [htc]; omega, cell := ?_, react := ?_, job := ?_, jobCount := ?_,
      uniq := ?_, tailLt := by rw [hec, hsize]; have := h.tailLt; omega, tail := ?_,
      rest := ?_, mon := ?_, flight := ?_, healthy := ?_, broken := ?_, value := ?_ }
  · intro p hp
    rw [hsize] at hp
    rw [htc]
    by_cases hps : p = w.size
    · subst hps
      rw [hnew]
      simp only [CellOK, newCell]
      refine ⟨by omega, by omega, by simp, ?_⟩
      intro _
      simp [chainCount, isChain_identity]
    · rw [hold p (by omega)]
      refine (h.cell p (by omega)).advance ?_ ?_ ?_
      · intro j _; omega
      · intro j _; omega
      · intro j _ _; omega
  · intro p hp r hr
    rw [hsize] at hp ⊢
    by_cases hps : p = w.size
    · subst hps
      rw [hnew] at hr ⊢
      simp only [newCell, List.mem_singleton] at hr
      subst hr
      refine ⟨by show q < w.size + 1; omega, ?_⟩
      simp only [newCell]
      rw [hold q hq, ho]
      exact Or.inr ⟨i, rfl, rfl⟩
    · rw [hold p (by omega)] at hr ⊢
      have := h.react p (by omega) r hr
      rw [hold r.derived this.1]
      exact ⟨by omega, this.2⟩
  · intro j hj
    rw [hj2] at hj
    have := hjobs2 j hj
    rw [hsize, hold _ this.1]
    exact ⟨by omega, this.2⟩
  · rw [hj2, hcnt, htc, if_neg]
    omega
  · intro p p2 hp hp2 hoo hd
    rw [hsize] at hp hp2
    have hfresh : ∀ x, x < w.size → (w.cells x).origin ≠ .execution i := by
      intro x hx hc
      have := h.cell x hx
      simp only [CellOK, hc] at this
      omega
    by_cases hps : p = w.size
    · by_cases hps2 : p2 = w.size
      · omega
      · exfalso
        rw [hps, hnew, hold p2 (by omega)] at hoo
        exact hfresh p2 (by omega) hoo.symm
    · by_cases hps2 : p2 = w.size
      · exfalso
        rw [hps2, hnew, hold p (by omega)] at hoo
        exact hfresh p (by omega) hoo
      · rw [hold p (by omega), hold p2 (by omega)] at hoo
        rw [hold p (by omega)] at hd
        exact h.uniq p p2 (by omega) (by omega) hoo hd
  · rw [hec, hold _ h.tailLt, htc]; exact h.tail
  · intro ht
    rw [htc] at ht
    omega
  · rw [htr, monitor_append, h.mon]
    simp [Monitor.step, hnext, hfl, hfail]
  · simp; omega
  · intro _
    exact ⟨(h.healthy hfail).1, by simp only [hnext]; omega⟩
  · intro i2 e2 hf
    simp only [hfail] at hf
    cases hf
  · intro p _ i2 e2 j s hf
    simp only [hfail] at hf
    cases hf

/-- The environment settles the execution in flight. -/
theorem ChainInv.settleExecution_step {w w2 : World} {t tok m} (h : ChainInv w t tok m)
    {r i : Nat} (s : Settled) (hr : r < w.size) (ho : (w.cells r).origin = .execution i)
    (hpend : (w.cells r).state = none)
    (hcells : w2.cells = w.cells) (hsize : w2.size = w.size) (hj2 : w2.jobs = w.jobs)
    (htc : w2.taskCount = w.taskCount) (hec : w2.executionChain = w.executionChain)
    (htr : w2.trace = w.trace ++ [.settled i s]) :
    ChainInv (settleCell w2 r s) (t + 1) s ⟨m.next + 1, false, failureOf i s⟩ := by
  have hcr := h.cell r hr
  simp only [CellOK, ho] at hcr
  obtain ⟨hin, hge, hiff, hone⟩ := hcr
  have ht : t = 4 * i + 1 := by
    have := hiff.1 hpend
    omega
  subst ht
  have hfl : m.inFlight = true := by
    rw [h.flight]; simp; omega
  have hfail : m.failed = none := monitor_inFlight h.mon hfl
  have hnext : m.next = i := by
    rw [(h.healthy hfail).2]; omega
  have hcnt : chainCount (w.jobs.map Job.reaction) = 0 := by
    rw [h.jobCount, if_neg]
    omega
  have hmon : monitor w2.trace = some ⟨m.next + 1, false, failureOf i s⟩ := by
    rw [htr, monitor_append, h.mon]
    simp [Monitor.step, hnext, hfl]
  refine settle_inv (w := w2) (hsize ▸ hr) (hcells ▸ hpend)
    (by rw [htc]; omega) ?_ ?_ ?_ ?_ ?_ ?_ ?_ ?_ ?_ ?_ hmon ?_ ?_ ?_ ?_ ?_
  · rw [hcells, htc]
    simp only [CellOK, ho]
    refine ⟨hin, by omega, ?_, ?_⟩ <;> simp
  · rw [hcells, htc, hsize]
    intro p hp hpq
    have hne : (w.cells p).origin ≠ .execution i := by
      intro hc
      exact hpq (h.uniq p r hp hr (by rw [hc, ho]) (by rw [hc]; simp))
    refine (h.cell p hp).advance ?_ ?_ ?_
    · intro j _; omega
    · intro j _; omega
    · intro j hj _
      have : j ≠ i := fun hc => hne (hc ▸ hj)
      omega
  · rw [hcells, hsize]; exact h.react
  · rw [hcells, hsize, hj2]
    exact jobs_of_chainCount_zero _ _ hcnt h.job
  · rw [hcells]
    intro r2 hr2
    have := (h.react r hr r2 hr2).2
    rw [ho] at this
    exact newJobs_execution this
  · rw [hcells, htc, hj2, hcnt, hone hpend]
    rw [if_pos]
    omega
  · rw [hcells, hsize]; exact h.uniq
  · rw [hec, hsize]; exact h.tailLt
  · rw [hcells, hec, htc]; exact h.tail
  · intro ht
    rw [htc] at ht
    omega
  · simp; omega
  · intro hf
    simp only at hf
    cases s with
    | fulfilled v2 => exact ⟨⟨v2, rfl⟩, by simp only [hnext]; omega⟩
    | rejected e2 => simp [failureOf] at hf
  · intro i2 e2 hf
    simp only at hf
    cases s with
    | fulfilled v2 => simp [failureOf] at hf
    | rejected e3 =>
      simp only [failureOf, Option.some.injEq, Prod.mk.injEq] at hf
      obtain ⟨h1, h2⟩ := hf
      subst h1 h2
      exact ⟨rfl, by omega⟩
  · intro i2 e2 j _ _ hor
    rw [hcells, ho] at hor
    rcases hor with hor | hor <;> cases hor
  · rw [hcells, hsize]
    intro p hp _ i2 e2 j s3 hf hij hor hst
    simp only at hf
    cases s with
    | fulfilled v2 => simp [failureOf] at hf
    | rejected e3 =>
      simp only [failureOf, Option.some.injEq, Prod.mk.injEq] at hf
      obtain ⟨h1, _⟩ := hf
      subst h1
      have := h.pending_ahead hp hor hst
      omega

theorem CellOK_of_count {n t : Nat} {c c2 : Cell} (hs : c2.state = c.state)
    (hr : chainCount c2.reactions = chainCount c.reactions) (ho : c2.origin = c.origin)
    (h : CellOK n t c) : CellOK n t c2 := by
  unfold CellOK at *
  rw [hs, hr, ho]
  exact h

theorem chainCount_snoc_resume (rs : List Reaction) (d : Nat) :
    chainCount (rs ++ [⟨.resume, d⟩]) = chainCount rs := by
  rw [chainCount_append]
  simp [chainCount, isChain_resume]

theorem originalThen_result (w : World) (p : Nat) (h : Handler) (o : Origin) :
    (originalThen w p h o).2 = w.size := by
  unfold originalThen
  simp only
  split <;> rfl

theorem originalThen_effect (w : World) {p : Nat} (hp : p < w.size) (h : Handler)
    (o : Origin) : ThenEffect w (originalThen w p h o).1 p h o := by
  have hpne : p ≠ w.size := by omega
  unfold originalThen
  simp only [setCell_other _ _ hpne]
  cases hst : (w.cells p).state with
  | none =>
    simp only
    refine
      { size := rfl, new := ?_, other := ?_, state := ?_, origin := ?_, callsite := ?_,
        customThen := ?_, pending := ?_, settled := ?_, taskCount := rfl,
        executionChain := rfl, trace := rfl, testRun := rfl, callsitesWithoutAwait := rfl,
        callsiteCount := rfl }
    · simp [setCell, hpne.symm]
    · intro x hx hxp
      simp [setCell, hx, hxp]
    · simp [setCell, hst]
    · simp [setCell]
    · simp [setCell]
    · simp [setCell]
    · intro _; simp [setCell]
    · intro s hs; rw [hst] at hs; cases hs
  | some s =>
    simp only
    refine
      { size := rfl, new := ?_, other := ?_, state := ?_, origin := ?_, callsite := ?_,
        customThen := ?_, pending := ?_, settled := ?_, taskCount := rfl,
        executionChain := rfl, trace := rfl, testRun := rfl, callsitesWithoutAwait := rfl,
        callsiteCount := rfl }
    · simp [setCell]
    · intro x hx hxp
      simp [setCell, hx]
    · simp [setCell, hpne, hst]
    · simp [setCell, hpne]
    · simp [setCell, hpne]
    · simp [setCell, hpne]
    · intro hc; rw [hst] at hc; cases hc
    · intro s2 hs
      rw [hst] at hs
      cases hs
      simp [setCell, hpne]

/-- Registering the continuation of an `await` on a promise keeps the invariant. -/
theorem ChainInv.of_thenEffect_resume {w w2 : World} {t tok m} (h : ChainInv w t tok m)
    {p : Nat} (hp : p < w.size) (e : ThenEffect w w2 p .resume .derived) :
    ChainInv w2 t tok m := by
  have hcore : ∀ x, x < w.size → (w2.cells x).state = (w.cells x).state ∧
      (w2.cells x).origin = (w.cells x).origin ∧
      chainCount (w2.cells x).reactions = chainCount (w.cells x).reactions ∧
      ∀ r ∈ (w2.cells x).reactions, r ∈ (w.cells x).reactions ∨ r = ⟨.resume, w.size⟩ := by
    intro x hx
    by_cases hxp : x = p
    · subst hxp
      refine ⟨e.state, e.origin, ?_, ?_⟩
      · cases hst : (w.cells x).state with
        | none => rw [(e.pending hst).1, chainCount_snoc_resume]
        | some s => rw [(e.settled s hst).1]
      · intro r hr
        cases hst : (w.cells x).state with
        | none =>
          rw [(e.pending hst).1] at hr
          simpa using hr
        | some s =>
          rw [(e.settled s hst).1] at hr
          exact Or.inl hr
    · rw [e.other x (by omega) hxp]
      exact ⟨rfl, rfl, rfl, fun r hr => Or.inl hr⟩
  have horigin : ∀ x, x < w.size → (w2.cells x).origin = (w.cells x).origin :=
    fun x hx => (hcore x hx).2.1
  have hnewo : (w2.cells w.size).origin = .derived := by rw [e.new]; rfl
  have hjobs : chainCount (w2.jobs.map Job.reaction) = chainCount (w.jobs.map Job.reaction) ∧
      ∀ j ∈ w2.jobs, j ∈ w.jobs ∨ j.reaction = ⟨.resume, w.size⟩ := by
    cases hst : (w.cells p).state with
    | none =>
      rw [(e.pending hst).2]
      exact ⟨rfl, fun j hj => Or.inl hj⟩
    | some s =>
      rw [(e.settled s hst).2, List.map_append, List.map_singleton, chainCount_snoc_resume]
      refine ⟨rfl, fun j hj => ?_⟩
      simp only [List.mem_append, List.mem_singleton] at hj
      rcases hj with hj | hj
      · exact Or.inl hj
      · subst hj; exact Or.inr rfl
  refine
    { bound := by rw [e.taskCount]; exact h.bound, cell := ?_, react := ?_, job := ?_,
      jobCount := by rw [hjobs.1, e.taskCount]; exact h.jobCount,
      uniq := ?_, tailLt := by rw [e.executionChain, e.size]; have := h.tailLt; omega,
      tail := ?_, rest := ?_, mon := by rw [e.trace]; exact h.mon, flight := h.flight,
      healthy := h.healthy, broken := h.broken, value := ?_ }
  · intro x hx
    rw [e.size] at hx
    rw [e.taskCount]
    by_cases hxs : x = w.size
    · subst hxs
      rw [e.new]
      simp [CellOK, newCell, chainCount]
    · have hc := hcore x (by omega)
      exact CellOK_of_count hc.1 hc.2.2.1 hc.2.1 (h.cell x (by omega))
  · intro x hx r hr
    rw [e.size] at hx ⊢
    by_cases hxs : x = w.size
    · subst hxs
      rw [e.new] at hr
      simp [newCell] at hr
    · have hc := hcore x (by omega)
      rw [hc.2.1]
      rcases hc.2.2.2 r hr with hr | hr
      · have := h.react x (by omega) r hr
        rw [horigin _ this.1]
        exact ⟨by omega, this.2⟩
      · subst hr
        exact ⟨by show w.size < w.size + 1; omega, hnewo⟩
  · intro j hj
    rw [e.size]
    rcases hjobs.2 j hj with hj | hj
    · have := h.job j hj
      rw [horigin _ this.1]
      exact ⟨by omega, this.2⟩
    · rw [hj]
      exact ⟨by show w.size < w.size + 1; omega, hnewo⟩
  · intro x y hx hy hoo hd
    rw [e.size] at hx hy
    by_cases hxs : x = w.size
    · subst hxs
      exact absurd hnewo hd
    · by_cases hys : y = w.size
      · subst hys
        rw [hnewo] at hoo
        exact absurd hoo hd
      · rw [horigin x (by omega), horigin y (by omega)] at hoo
        rw [horigin x (by omega)] at hd
        exact h.uniq x y (by omega) (by omega) hoo hd
  · rw [e.executionChain, horigin _ h.tailLt, e.taskCount]; exact h.tail
  · intro ht
    rw [e.taskCount] at ht
    rw [e.executionChain, (hcore _ h.tailLt).1]
    exact h.rest ht
  · intro x hx i e2 j s hf hij hor hs
    rw [e.size] at hx
    by_cases hxs : x = w.size
    · subst hxs
      rw [hnewo] at hor
      rcases hor with hor | hor <;> cases hor
    · have hc := hcore x (by omega)
      rw [hc.2.1] at hor
      rw [hc.1] at hs
      exact h.value x (by omega) i e2 j s hf hij hor hs

theorem enqueueTask_error (w : World) (m : ApiMethod)
    (createTaskExecutor : Callsite → Except Err Executor) {err : Err}
    (hc : createTaskExecutor ⟨m, w.callsiteCount⟩ = .error err) :
    _enqueueTask w m createTaskExecutor =
      (.error err, { w with callsiteCount := w.callsiteCount + 1 }) := by
  simp [_enqueueTask, getCallsiteForMethod, hc]

theorem enqueueTask_result (w : World) (m : ApiMethod)
    (createTaskExecutor : Callsite → Except Err Executor) {fn : Executor}
    (hc : createTaskExecutor ⟨m, w.callsiteCount⟩ = .ok fn) :
    (_enqueueTask w m createTaskExecutor).1 = .ok (.handle (w.size + 1)) := by
  simp [_enqueueTask, getCallsiteForMethod, hc, _createExtendedPromise, originalThen_result]
  simp [originalThen]
  split <;> rfl

theorem enqueueTask_effect (w : World) (m : ApiMethod)
    (createTaskExecutor : Callsite → Except Err Executor) {fn : Executor}
    (hlt : w.executionChain < w.size)
    (hc : createTaskExecutor ⟨m, w.callsiteCount⟩ = .ok fn) :
    EnqueueEffect w (_enqueueTask w m createTaskExecutor).2 m fn := by
  have hne : w.executionChain ≠ w.size := by omega
  have hne1 : w.executionChain ≠ w.size + 1 := by omega
  cases hst : (w.cells w.executionChain).state with
  | none =>
    refine
      { size := ?_, taskCount := ?_, executionChain := ?_, trace := ?_, testRun := ?_,
        callsiteCount := ?_, callsitesWithoutAwait := ?_, other := ?_, state := ?_,
        origin := ?_, callsite := ?_, customThen := ?_, pending := ?_, settled := ?_,
        inner := ?_, handle := ?_ } <;>
      simp [_enqueueTask, getCallsiteForMethod, hc, _createExtendedPromise, originalThen,
        setCell, hst, hne, hne1, hne.symm, hne1.symm, newCell]
    · intro x hx hxc
      have h1 : x ≠ w.size := by omega
      have h2 : x ≠ w.size + 1 := by omega
      simp [h1, h2, hxc]
  | some s =>
    refine
      { size := ?_, taskCount := ?_, executionChain := ?_, trace := ?_, testRun := ?_,
        callsiteCount := ?_, callsitesWithoutAwait := ?_, other := ?_, state := ?_,
        origin := ?_, callsite := ?_, customThen := ?_, pending := ?_, settled := ?_,
        inner := ?_, handle := ?_ } <;>
      simp [_enqueueTask, getCallsiteForMethod, hc, _createExtendedPromise, originalThen,
        setCell, hst, hne, hne1, hne.symm, hne1.symm, newCell]
    · intro x hx hxc
      have h1 : x ≠ w.size := by omega
      have h2 : x ≠ w.size + 1 := by omega
      simp [h1, h2, hxc]

theorem CellOK.succ {n t : Nat} {c : Cell} (h : CellOK n t c)
    (hne : c.origin ≠ tailOrigin n) : CellOK (n + 1) t c := by
  unfold CellOK at *
  cases ho : c.origin with
  | resolved => simpa [ho] using h
  | chained i =>
    simp only [ho] at h ⊢
    exact ⟨by omega, h.2⟩
  | extended i =>
    simp only [ho] at h ⊢
    obtain ⟨h1, h2, h3⟩ := h
    have hi : i + 1 ≠ n := by
      intro hc
      apply hne
      rw [ho, ← hc]
      rfl
    refine ⟨by omega, h2, fun hp => ?_⟩
    rw [h3 hp]
    by_cases hlt : i + 1 < n
    · rw [if_pos hlt, if_pos (by omega)]
    · omega
  | execution i =>
    simp only [ho] at h ⊢
    exact ⟨by omega, h.2⟩
  | derived => simpa [ho] using h

/-- A successful `_enqueueTask` keeps the invariant: the front stays where it is. -/
theorem ChainInv.of_enqueueEffect {w w2 : World} {t tok m} (h : ChainInv w t tok m)
    {mth : ApiMethod} {fn : Executor} (e : EnqueueEffect w w2 mth fn) :
    ChainInv w2 t tok m := by
  have hclt := h.tailLt
  have hcc := h.cell _ hclt
  have hco := h.tail
  -- the state of the tail decides where the front is
  have hfront : ((w.cells w.executionChain).state = none → t < 4 * w.taskCount ∧
      ∃ k, w.taskCount = k + 1 ∧ (w.cells w.executionChain).origin = .extended k ∧
        chainCount (w.cells w.executionChain).reactions = 0) ∧
      (∀ s, (w.cells w.executionChain).state = some s → t = 4 * w.taskCount ∧ s = tok) := by
    cases hn : w.taskCount with
    | zero =>
      rw [hn] at hco
      simp only [tailOrigin] at hco
      simp only [CellOK, hco] at hcc
      refine ⟨fun hp => absurd hp hcc, fun s hs => ?_⟩
      have hb := h.bound
      have ht : t = 4 * w.taskCount := by omega
      have := h.rest ht
      rw [hs] at this
      cases this
      exact ⟨by omega, rfl⟩
    | succ k =>
      rw [hn] at hco
      simp only [tailOrigin] at hco
      simp only [CellOK, hco] at hcc
      obtain ⟨_, hiff, hcount⟩ := hcc
      refine ⟨fun hp => ⟨by have := hiff.1 hp; omega, k, rfl, hco, ?_⟩, fun s hs => ?_⟩
      · rw [hcount hp, if_neg]; omega
      · have hb := h.bound
        have hnp : ¬ t < 4 * k + 4 := by
          intro hc
          have := hiff.2 hc
          rw [hs] at this
          cases this
        have ht : t = 4 * w.taskCount := by omega
        have := h.rest ht
        rw [hs] at this
        cases this
        exact ⟨by omega, rfl⟩
  have hcore : ∀ x, x < w.size → (w2.cells x).state = (w.cells x).state ∧
      (w2.cells x).origin = (w.cells x).origin := by
    intro x hx
    by_cases hxc : x = w.executionChain
    · subst hxc
      exact ⟨e.state, e.origin⟩
    · rw [e.other x hx hxc]
      exact ⟨rfl, rfl⟩
  have horigin : ∀ x, x < w.size → (w2.cells x).origin = (w.cells x).origin :=
    fun x hx => (hcore x hx).2
  have hino : (w2.cells w.size).origin = .chained w.taskCount := by rw [e.inner]; rfl
  have hhao : (w2.cells (w.size + 1)).origin = .extended w.taskCount := by rw [e.handle]; rfl
  have hfresh : ∀ x, x < w.size → (w.cells x).origin ≠ .chained w.taskCount ∧
      (w.cells x).origin ≠ .extended w.taskCount := by
    intro x hx
    have := h.cell x hx
    constructor <;> intro hc <;> simp only [CellOK, hc] at this <;> omega
  refine
    { bound := by rw [e.taskCount]; have := h.bound; omega, cell := ?_, react := ?_,
      job := ?_, jobCount := ?_, uniq := ?_,
      tailLt := by rw [e.executionChain, e.size]; omega,
      tail := by rw [e.executionChain, e.taskCount, hhao]; rfl, rest := ?_,
      mon := by rw [e.trace]; exact h.mon, flight := h.flight,
      healthy := h.healthy, broken := h.broken, value := ?_ }
  · intro x hx
    rw [e.size] at hx
    rw [e.taskCount]
    have hb := h.bound
    by_cases hxs : x = w.size
    · subst hxs
      rw [e.inner]
      simp only [CellOK, newCell]
      refine ⟨by omega, by simp; omega, fun _ => ?_⟩
      simp [chainCount, isChain_identity]
    · by_cases hxs1 : x = w.size + 1
      · subst hxs1
        rw [e.handle]
        simp only [CellOK, newCell]
        refine ⟨by omega, by simp; omega, fun _ => ?_⟩
        simp [chainCount]
      · have hxl : x < w.size := by omega
        by_cases hxc : x = w.executionChain
        · subst hxc
          cases hst : (w.cells w.executionChain).state with
          | none =>
            obtain ⟨_, k, hk, hok, hzero⟩ := hfront.1 hst
            have hcc := h.cell _ hclt
            simp only [CellOK, e.origin, e.state, hok, (e.pending hst).1, hst] at hcc ⊢
            refine ⟨by omega, hcc.2.1, fun _ => ?_⟩
            rw [chainCount_append, hzero, if_pos (by omega)]
            simp [chainCount, isChain_executor]
          | some s =>
            have hcc := h.cell _ hclt
            have hr := (e.settled s hst).1
            cases hn : w.taskCount with
            | zero =>
              rw [hn] at hco
              simp only [tailOrigin] at hco
              simp only [CellOK, e.origin, hco, e.state, hst]
              simp
            | succ k =>
              rw [hn] at hco
              simp only [tailOrigin] at hco
              simp only [CellOK, e.origin, hco, e.state, hst] at hcc ⊢
              refine ⟨by omega, ?_, ?_⟩
              · rw [hn] at hcc; exact hcc.2.1
              · intro hc; cases hc
        · rw [e.other x hxl hxc]
          refine (h.cell x hxl).succ ?_
          intro hc
          apply hxc
          refine h.uniq x _ hxl hclt (by rw [hc, hco]) ?_
          rw [hc]
          cases w.taskCount <;> simp [tailOrigin]
  · intro x hx r hr
    rw [e.size] at hx ⊢
    by_cases hxs : x = w.size
    · subst hxs
      rw [e.inner] at hr
      simp only [newCell, List.mem_singleton] at hr
      subst hr
      refine ⟨by show w.size + 1 < w.size + 2; omega, ?_⟩
      rw [hino]
      show ReactOK _ .identity (w2.cells (w.size + 1)).origin
      rw [hhao]
      exact Or.inl ⟨_, rfl, rfl⟩
    · by_cases hxs1 : x = w.size + 1
      · subst hxs1
        rw [e.handle] at hr
        simp [newCell] at hr
      · have hxl : x < w.size := by omega
        rw [horigin x hxl]
        by_cases hxc : x = w.executionChain
        · subst hxc
          cases hst : (w.cells w.executionChain).state with
          | none =>
            rw [(e.pending hst).1] at hr
            simp only [List.mem_append, List.mem_singleton] at hr
            rcases hr with hr | hr
            · have := h.react _ hxl r hr
              rw [horigin _ this.1]
              exact ⟨by omega, this.2⟩
            · subst hr
              obtain ⟨_, k, hk, hok, _⟩ := hfront.1 hst
              refine ⟨by show w.size < w.size + 2; omega, ?_⟩
              show ReactOK _ (.executor w.taskCount fn) (w2.cells w.size).origin
              rw [hino, hok]
              exact ⟨rfl, k, rfl, hk⟩
          | some s =>
            rw [(e.settled s hst).1] at hr
            have := h.react _ hxl r hr
            rw [horigin _ this.1]
            exact ⟨by omega, this.2⟩
        · rw [e.other x hxl hxc] at hr
          have := h.react _ hxl r hr
          rw [horigin _ this.1]
          exact ⟨by omega, this.2⟩
  · intro j hj
    rw [e.size]
    have hold : ∀ j ∈ w.jobs, j.reaction.derived < w.size + 2 ∧
        JobOK t tok j.reaction.handler j.outcome (w2.cells j.reaction.derived).origin := by
      intro j hj
      have := h.job j hj
      rw [horigin _ this.1]
      exact ⟨by omega, this.2⟩
    cases hst : (w.cells w.executionChain).state with
    | none =>
      rw [(e.pending hst).2] at hj
      exact hold j hj
    | some s =>
      rw [(e.settled s hst).2] at hj
      simp only [List.mem_append, List.mem_singleton] at hj
      rcases hj with hj | hj
      · exact hold j hj
      · subst hj
        obtain ⟨ht, hs⟩ := hfront.2 s hst
        refine ⟨by show w.size < w.size + 2; omega, ?_⟩
        show JobOK t tok (.executor w.taskCount fn) s (w2.cells w.size).origin
        rw [hino]
        exact ⟨hs, by omega, by omega, rfl⟩
  · rw [e.taskCount]
    cases hst : (w.cells w.executionChain).state with
    | none =>
      obtain ⟨hlt, _⟩ := hfront.1 hst
      rw [(e.pending hst).2, h.jobCount]
      by_cases h1 : t % 4 ≠ 1
      · rw [if_pos ⟨hlt, h1⟩, if_pos ⟨by omega, h1⟩]
      · rw [if_neg (fun hc => h1 hc.2), if_neg (fun hc => h1 hc.2)]
    | some s =>
      obtain ⟨ht, _⟩ := hfront.2 s hst
      rw [(e.settled s hst).2, List.map_append, chainCount_append, h.jobCount,
        if_neg (by omega), if_pos (by omega)]
      simp [chainCount, isChain_executor]
  · intro x y hx hy hoo hd
    rw [e.size] at hx hy
    by_cases hxl : x < w.size
    · by_cases hyl : y < w.size
      · rw [horigin x hxl, horigin y hyl] at hoo
        rw [horigin x hxl] at hd
        exact h.uniq x y hxl hyl hoo hd
      · exfalso
        rw [horigin x hxl] at hoo
        have hy2 : y = w.size ∨ y = w.size + 1 := by omega
        rcases hy2 with hy2 | hy2 <;> subst hy2
        · rw [hino] at hoo; exact (hfresh x hxl).1 hoo
        · rw [hhao] at hoo; exact (hfresh x hxl).2 hoo
    · have hx2 : x = w.size ∨ x = w.size + 1 := by omega
      by_cases hyl : y < w.size
      · exfalso
        rw [horigin y hyl] at hoo
        rcases hx2 with hx2 | hx2 <;> subst hx2
        · rw [hino] at hoo; exact (hfresh y hyl).1 hoo.symm
        · rw [hhao] at hoo; exact (hfresh y hyl).2 hoo.symm
      · have hy2 : y = w.size ∨ y = w.size + 1 := by omega
        rcases hx2 with hx2 | hx2 <;> rcases hy2 with hy2 | hy2 <;> subst hx2 <;> subst hy2
        · rfl
        · rw [hino, hhao] at hoo; cases hoo
        · rw [hino, hhao] at hoo; cases hoo
        · rfl
  · intro ht
    rw [e.taskCount] at ht
    have := h.bound
    omega
  · intro x hx i e2 j s hf hij hor hs
    rw [e.size] at hx
    by_cases hxl : x < w.size
    · rw [(hcore x hxl).2] at hor
      rw [(hcore x hxl).1] at hs
      exact h.value x hxl i e2 j s hf hij hor hs
    · have hx2 : x = w.size ∨ x = w.size + 1 := by omega
      rcases hx2 with hx2 | hx2 <;> subst hx2
      · rw [e.inner] at hs; cases hs
      · rw [e.handle] at hs; cases hs

theorem CoreEq.core_markCallsiteAwaited (w : World) (c : Callsite) :
    CoreEq w (markCallsiteAwaited w c) :=
  ⟨fun _ => rfl, fun _ => rfl, fun _ => rfl, rfl, rfl, rfl, rfl, rfl⟩

theorem CoreEq.enqueueCommandSync (w : World) (m : ApiMethod) (ctor : CmdCtor)
    (args : CmdArgs) (outcome : Option Err) :
    CoreEq w (_enqueueCommandSync w m ctor args outcome).2 := by
  unfold _enqueueCommandSync getCallsiteForMethod executeCommandSync
  simp only
  cases ctor args w.testRun with
  | error err => exact ⟨fun _ => rfl, fun _ => rfl, fun _ => rfl, rfl, rfl, rfl, rfl, rfl⟩
  | ok command =>
    cases outcome <;>
      exact ⟨fun _ => rfl, fun _ => rfl, fun _ => rfl, rfl, rfl, rfl, rfl, rfl⟩

theorem Sound.sound_enqueueTask {w : World} (h : Sound w) (m : ApiMethod)
    (createTaskExecutor : Callsite → Except Err Executor) :
    Sound (_enqueueTask w m createTaskExecutor).2 := by
  obtain ⟨t, tok, mon, h⟩ := h
  cases hc : createTaskExecutor ⟨m, w.callsiteCount⟩ with
  | error err =>
    rw [enqueueTask_error w m createTaskExecutor hc]
    have e : CoreEq w { w with callsiteCount := w.callsiteCount + 1 } :=
      ⟨fun _ => rfl, fun _ => rfl, fun _ => rfl, rfl, rfl, rfl, rfl, rfl⟩
    exact ⟨t, tok, mon, h.of_coreEq e⟩
  | ok fn =>
    exact ⟨t, tok, mon, h.of_enqueueEffect (enqueueTask_effect w m createTaskExecutor h.tailLt hc)⟩

theorem Sound.sound_callApi {w : World} (h : Sound w) (c : ApiCall) : Sound (callApi w c).2 := by
  cases c with
  | enqueueTask m create => exact h.sound_enqueueTask m create
  | enqueueCommand m ctor args => exact h.sound_enqueueTask m _
  | enqueueCommandSync m ctor args outcome =>
    obtain ⟨t, tok, mon, h⟩ := h
    exact ⟨t, tok, mon, h.of_coreEq (CoreEq.enqueueCommandSync w m ctor args outcome)⟩

theorem Sound.sound_markCallsiteAwaited {w : World} (h : Sound w) (c : Callsite) :
    Sound (markCallsiteAwaited w c) := by
  obtain ⟨t, tok, mon, h⟩ := h
  exact ⟨t, tok, mon, h.of_coreEq (CoreEq.core_markCallsiteAwaited w c)⟩

theorem Sound.delegated {w : World} (h : Sound w) (p : Nat) (c : ApiCall) :
    Sound (delegated w p c).2 := by
  unfold TestCafe.delegated
  by_cases hp : p < w.size
  · rw [if_pos hp]
    cases (w.cells p).callsite with
    | none => exact h
    | some cs => exact (h.sound_markCallsiteAwaited cs).sound_callApi c
  · rw [if_neg hp]
    exact h

theorem Sound.promiseThen {w : World} (h : Sound w) (p : Nat) : Sound (promiseThen w p) := by
  unfold TestCafe.TestController.promiseThen
  by_cases hp : p < w.size
  · rw [if_pos hp]
    have key : ∀ w1 : World, Sound w1 → w1.size = w.size →
        Sound (originalThen w1 p .resume .derived).1 := by
      intro w1 h1 hs
      obtain ⟨t, tok, mon, h1⟩ := h1
      have hp1 : p < w1.size := by omega
      exact ⟨t, tok, mon, h1.of_thenEffect_resume hp1 (originalThen_effect w1 hp1 _ _)⟩
    cases (w.cells p).customThen <;> cases (w.cells p).callsite
    · exact key w h rfl
    · exact key w h rfl
    · exact key w h rfl
    · exact key _ (h.sound_markCallsiteAwaited _) rfl
  · rw [if_neg hp]
    exact h

theorem Sound.sound_runJob {w : World} (h : Sound w) (b : Behaviour) : Sound (runJob w b) := by
  obtain ⟨t, tok, mon, h⟩ := h
  unfold TestCafe.runJob
  cases hjobs : w.jobs with
  | nil => exact ⟨t, tok, mon, h⟩
  | cons j rest =>
    obtain ⟨⟨hd, q⟩, s⟩ := j
    cases hd with
    | resume => exact ⟨_, _, _, h.runJob_resume hjobs⟩
    | identity => exact ⟨_, _, _, h.runJob_identity hjobs⟩
    | executor i fn =>
      cases s with
      | rejected e => exact ⟨_, _, _, h.runJob_executor_rejected hjobs⟩
      | fulfilled v =>
        cases b with
        | returns v2 =>
          exact ⟨_, _, _, h.runJob_executor_sync (.fulfilled v2) hjobs rfl rfl rfl rfl rfl rfl⟩
        | throws e =>
          exact ⟨_, _, _, h.runJob_executor_sync (.rejected e) hjobs rfl rfl rfl rfl rfl rfl⟩
        | promise =>
          exact ⟨_, _, _, h.runJob_executor_promise hjobs rfl rfl rfl rfl rfl rfl⟩

theorem Sound.sound_settleExecution {w : World} (h : Sound w) (r : Nat) (s : Settled) :
    Sound (settleExecution w r s) := by
  unfold TestCafe.settleExecution
  by_cases hr : r < w.size
  · rw [if_pos hr]
    cases ho : (w.cells r).origin with
    | execution i =>
      cases hst : (w.cells r).state with
      | none =>
        obtain ⟨t, tok, mon, h⟩ := h
        exact ⟨_, _, _, h.settleExecution_step s hr ho hst rfl rfl rfl rfl rfl rfl⟩
      | some _ => exact h
    | _ => exact h
  · rw [if_neg hr]
    exact h

theorem Sound.sound_step {w : World} (h : Sound w) (a : Action) : Sound (step w a) := by
  cases a with
  | call c => exact h.sound_callApi c
  | chain p c => exact h.delegated p c
  | await x =>
    cases x with
    | controller => exact h
    | handle p => exact h.promiseThen p
  | runJob b => exact h.sound_runJob b
  | settle r s => exact h.sound_settleExecution r s

theorem Sound.sound_run {w : World} (h : Sound w) (actions : List Action) : Sound (run w actions) := by
  induction actions generalizing w with
  | nil => exact h
  | cons a rest ih => exact ih (h.sound_step a)

theorem Sound.sound_create (testRun : TestRun) : Sound (create testRun) :=
  ⟨_, _, _, ChainInv.inv_create testRun⟩

theorem monitor_facts {tr : List Event} : ∀ {m : Monitor}, monitor tr = some m →
    MonitorFacts tr m := by
  induction tr using List.reverseRecOn with
  | nil =>
    intro m h
    simp [monitor] at h
    subst h
    exact ⟨by simp, by simp, by simp⟩
  | append_singleton tr e ih =>
    intro m h
    rw [monitor_append] at h
    cases hm : monitor tr with
    | none => simp [hm] at h
    | some m1 =>
      have f := ih hm
      simp only [hm, Option.some_bind] at h
      cases e with
      | invoked i =>
        simp only [Monitor.step] at h
        by_cases hc : i = m1.next ∧ m1.inFlight = false ∧ m1.failed = none
        · rw [if_pos hc] at h
          cases h
          obtain ⟨h1, h2, h3⟩ := hc
          refine ⟨fun j => ?_, fun j => ?_, fun j e hj => ?_⟩
          · have := f.invoked j
            simp only [h2] at this
            simp only [List.mem_append, List.mem_singleton, Event.invoked.injEq, this]
            simp
            omega
          · have := f.settled j
            simp only [List.mem_append, List.mem_singleton, reduceCtorEq, or_false]
            exact this
          · simp only [List.mem_append, List.mem_singleton, reduceCtorEq, or_false] at hj
            have := (f.failed j e hj).1
            rw [h3] at this
            cases this
        · rw [if_neg hc] at h
          cases h
      | settled i s =>
        simp only [Monitor.step] at h
        by_cases hc : i = m1.next ∧ m1.inFlight = true
        · rw [if_pos hc] at h
          cases h
          obtain ⟨h1, h2⟩ := hc
          have hnf : m1.failed = none := monitor_inFlight hm h2
          refine ⟨fun j => ?_, fun j => ?_, fun j e hj => ?_⟩
          · have := f.invoked j
            simp only [h2] at this
            simp only [List.mem_append, List.mem_singleton, reduceCtorEq, or_false, this]
            simp
          · have := f.settled j
            simp only [List.mem_append, List.mem_singleton, Event.settled.injEq]
            constructor
            · rintro ⟨s2, hs | ⟨hs, _⟩⟩
              · have := this.1 ⟨s2, hs⟩
                omega
              · omega
            · intro hj
              by_cases hjl : j < m1.next
              · obtain ⟨s2, hs2⟩ := this.2 hjl
                exact ⟨s2, Or.inl hs2⟩
              · exact ⟨s, Or.inr ⟨by omega, rfl⟩⟩
          · simp only [List.mem_append, List.mem_singleton, Event.settled.injEq] at hj
            rcases hj with hj | ⟨hj1, hj2⟩
            · have := (f.failed j e hj).1
              rw [hnf] at this
              cases this
            · subst hj1 hj2
              exact ⟨rfl, by show m1.next + 1 = j + 1; omega, rfl⟩
        · rw [if_neg hc] at h
          cases h

theorem monitor_split {pre post : List Event} : ∀ {m : Monitor},
    monitor (pre ++ post) = some m → ∃ m1, monitor pre = some m1 ∧
      post.foldlM Monitor.step m1 = some m := by
  intro m h
  simp only [monitor, List.foldlM_append] at h
  cases hm : List.foldlM Monitor.step ⟨0, false, none⟩ pre with
  | none => simp [hm] at h
  | some m1 =>
    simp only [hm, Option.bind_eq_bind, Option.some_bind] at h
    exact ⟨m1, hm, h⟩

/-- An accepted trace at the moment an executor is invoked. -/
theorem monitor_at_invoked {pre post : List Event} {i : Nat} {m : Monitor}
    (h : monitor (pre ++ Event.invoked i :: post) = some m) :
    ∃ m1, monitor pre = some m1 ∧ m1.next = i ∧ m1.inFlight = false ∧ m1.failed = none := by
  obtain ⟨m1, h1, h2⟩ := monitor_split h
  refine ⟨m1, h1, ?_⟩
  simp only [List.foldlM_cons, Monitor.step] at h2
  by_cases hc : i = m1.next ∧ m1.inFlight = false ∧ m1.failed = none
  · exact ⟨hc.1.symm, hc.2.1, hc.2.2⟩
  · rw [if_neg hc] at h2
    simp at h2

theorem mem_setAdd_of_mem {c d : Callsite} {s : List Callsite} (h : c ∈ s) :
    c ∈ setAdd d s := by
  unfold setAdd
  split
  · exact h
  · exact List.mem_append_left _ h

theorem mem_setAdd_self (d : Callsite) (s : List Callsite) : d ∈ setAdd d s := by
  unfold setAdd
  split
  · assumption
  · simp

theorem mem_setDelete {c d : Callsite} {s : List Callsite} (h : c ∈ s) (hne : c ≠ d) :
    c ∈ setDelete d s := by
  unfold setDelete
  simp [List.mem_filter, h, hne]

theorem not_mem_setDelete (d : Callsite) (s : List Callsite) : d ∉ setDelete d s := by
  unfold setDelete
  simp [List.mem_filter]

theorem Tracked.tracked_of_frame {w w2 : World} {p : Nat} {c : Callsite} (h : Tracked w p c)
    (f : CsFrame w w2) : Tracked w2 p c where
  lt := by have := h.lt; have := f.size; omega
  mem := by rw [f.set]; exact h.mem
  fresh := by rw [f.count]; exact h.fresh
  only := fun x hx hc => by
    by_cases hxl : x < w.size
    · rw [f.old x hxl] at hc
      exact h.only x hxl hc
    · rw [f.new x (by omega) hx] at hc
      cases hc

theorem CsFrame.refl (w : World) : CsFrame w w :=
  ⟨Nat.le_refl _, fun _ _ => rfl, fun x h1 h2 => by omega, rfl, rfl⟩

theorem CsFrame.settleCell (w : World) (q : Nat) (s : Settled) :
    CsFrame w (TestCafe.settleCell w q s) := by
  unfold TestCafe.settleCell
  cases (w.cells q).state with
  | some _ => exact CsFrame.refl w
  | none =>
    refine ⟨Nat.le_refl _, fun x _ => ?_, fun x h1 h2 => ?_, rfl, rfl⟩
    · simp only [setCell]
      split
      · rename_i hx; subst hx; rfl
      · rfl
    · have h3 : x < w.size := h2
      omega

theorem CsFrame.trans {w w2 w3 : World} (f : CsFrame w w2) (g : CsFrame w2 w3) :
    CsFrame w w3 where
  size := Nat.le_trans f.size g.size
  old := fun x hx => by
    rw [g.old x (by have := f.size; omega), f.old x hx]
  new := fun x h1 h2 => by
    by_cases hx : x < w2.size
    · rw [g.old x hx, f.new x h1 hx]
    · exact g.new x (by omega) h2
  set := by rw [g.set, f.set]
  count := by rw [g.count, f.count]

theorem CsFrame.settleCell_of {w w1 : World} (q : Nat) (s : Settled)
    (h1 : w1.cells = w.cells) (h2 : w1.size = w.size)
    (h3 : w1.callsitesWithoutAwait = w.callsitesWithoutAwait)
    (h4 : w1.callsiteCount = w.callsiteCount) : CsFrame w (TestCafe.settleCell w1 q s) := by
  have base : CsFrame w w1 :=
    ⟨by omega, fun x _ => by rw [h1], fun x hx hx2 => by omega, h3, h4⟩
  exact base.trans (CsFrame.settleCell w1 q s)

theorem CsFrame.frame_runJob (w : World) (b : Behaviour) : CsFrame w (TestCafe.runJob w b) := by
  unfold TestCafe.runJob
  cases hjobs : w.jobs with
  | nil => exact CsFrame.refl w
  | cons j rest =>
    obtain ⟨⟨hd, q⟩, s⟩ := j
    cases hd with
    | resume => exact CsFrame.settleCell_of q s rfl rfl rfl rfl
    | identity => exact CsFrame.settleCell_of q s rfl rfl rfl rfl
    | executor i fn =>
      cases s with
      | rejected e => exact CsFrame.settleCell_of q _ rfl rfl rfl rfl
      | fulfilled v =>
        cases b with
        | returns v2 => exact CsFrame.settleCell_of q _ rfl rfl rfl rfl
        | throws e => exact CsFrame.settleCell_of q _ rfl rfl rfl rfl
        | promise =>
          refine ⟨by show w.size ≤ w.size + 1; omega, fun x hx => ?_, fun x h1 h2 => ?_,
            rfl, rfl⟩
          · show (setCell w.cells w.size _ x).callsite = _
            rw [setCell_other _ _ (by omega)]
          · have h3 : x < w.size + 1 := h2
            have hx : x = w.size := by omega
            subst hx
            show (setCell w.cells w.size _ w.size).callsite = _
            rw [setCell_same]
            rfl

theorem CsFrame.frame_settleExecution (w : World) (r : Nat) (s : Settled) :
    CsFrame w (TestCafe.settleExecution w r s) := by
  unfold TestCafe.settleExecution
  by_cases hr : r < w.size
  · rw [if_pos hr]
    cases (w.cells r).origin with
    | execution i =>
      cases (w.cells r).state with
      | none => exact CsFrame.settleCell_of r s rfl rfl rfl rfl
      | some _ => exact CsFrame.refl w
    | _ => exact CsFrame.refl w
  · rw [if_neg hr]
    exact CsFrame.refl w

theorem CsFrame.of_thenEffect {w w2 : World} {p : Nat} {h : Handler} {o : Origin}
    (e : ThenEffect w w2 p h o) : CsFrame w w2 where
  size := by rw [e.size]; omega
  old := fun x hx => by
    by_cases hxp : x = p
    · subst hxp; exact e.callsite
    · rw [e.other x (by omega) hxp]
  new := fun x h1 h2 => by
    rw [e.size] at h2
    have : x = w.size := by omega
    subst this
    rw [e.new]
    rfl
  set := e.callsitesWithoutAwait
  count := e.callsiteCount

theorem Tracked.tracked_markCallsiteAwaited {w : World} {p : Nat} {c d : Callsite}
    (h : Tracked w p c) (hne : c ≠ d) : Tracked (markCallsiteAwaited w d) p c where
  lt := h.lt
  mem := mem_setDelete h.mem hne
  fresh := h.fresh
  only := h.only

theorem Tracked.tracked_enqueueTask {w : World} {p : Nat} {c : Callsite} (h : Tracked w p c)
    (hlt : w.executionChain < w.size) (m : ApiMethod)
    (createTaskExecutor : Callsite → Except Err Executor) :
    Tracked (_enqueueTask w m createTaskExecutor).2 p c := by
  cases hc : createTaskExecutor ⟨m, w.callsiteCount⟩ with
  | error err =>
    rw [enqueueTask_error w m createTaskExecutor hc]
    exact ⟨h.lt, h.mem, by have := h.fresh; show c.id < w.callsiteCount + 1; omega, h.only⟩
  | ok fn =>
    have e := enqueueTask_effect w m createTaskExecutor hlt hc
    refine ⟨by rw [e.size]; have := h.lt; omega, ?_, ?_, fun x hx hcs => ?_⟩
    · rw [e.callsitesWithoutAwait]
      exact mem_setAdd_of_mem h.mem
    · rw [e.callsiteCount]
      have := h.fresh
      omega
    · rw [e.size] at hx
      by_cases hxs : x = w.size
      · subst hxs
        rw [e.inner] at hcs
        cases hcs
      · by_cases hxs1 : x = w.size + 1
        · subst hxs1
          rw [e.handle] at hcs
          simp only [Option.some.injEq] at hcs
          have := h.fresh
          rw [← hcs] at this
          simp at this
        · have hxl : x < w.size := by omega
          by_cases hxc : x = w.executionChain
          · subst hxc
            rw [e.callsite] at hcs
            exact h.only _ hxl hcs
          · rw [e.other x hxl hxc] at hcs
            exact h.only _ hxl hcs

theorem Tracked.tracked_callApi {w : World} {p : Nat} {c : Callsite} (h : Tracked w p c)
    (hlt : w.executionChain < w.size) (call : ApiCall) : Tracked (callApi w call).2 p c := by
  cases call with
  | enqueueTask m create => exact h.tracked_enqueueTask hlt m create
  | enqueueCommand m ctor args => exact h.tracked_enqueueTask hlt m _
  | enqueueCommandSync m ctor args outcome =>
    show Tracked (_enqueueCommandSync w m ctor args outcome).2 p c
    unfold _enqueueCommandSync getCallsiteForMethod executeCommandSync
    simp only
    have hf : c.id < w.callsiteCount + 1 := by have := h.fresh; omega
    cases ctor args w.testRun with
    | error err => exact ⟨h.lt, h.mem, hf, h.only⟩
    | ok command => cases outcome <;> exact ⟨h.lt, h.mem, hf, h.only⟩

/-- A step that does not observe the promise `p` leaves its callsite recorded. -/
theorem Tracked.tracked_step {w : World} {p : Nat} {c : Callsite} (h : Tracked w p c)
    (hs : Sound w) (a : Action) (ha : a.observes p = false) : Tracked (step w a) p c := by
  have hlt : w.executionChain < w.size := by
    obtain ⟨_, _, _, hi⟩ := hs
    exact hi.tailLt
  cases a with
  | call call => exact h.tracked_callApi hlt call
  | chain q call =>
    have hqp : q ≠ p := by simpa [Action.observes] using ha
    show Tracked (delegated w q call).2 p c
    unfold TestCafe.delegated
    by_cases hq : q < w.size
    · rw [if_pos hq]
      cases hcs : (w.cells q).callsite with
      | none => exact h
      | some d =>
        have hne : c ≠ d := by
          intro hcd
          subst hcd
          exact hqp (h.only q hq hcs)
        exact (h.tracked_markCallsiteAwaited hne).tracked_callApi hlt call
    · rw [if_neg hq]
      exact h
  | await x =>
    cases x with
    | controller => exact h
    | handle q =>
      have hqp : q ≠ p := by simpa [Action.observes] using ha
      show Tracked (promiseThen w q) p c
      unfold TestCafe.TestController.promiseThen
      by_cases hq : q < w.size
      · rw [if_pos hq]
        have key : ∀ w1 : World, Tracked w1 p c → w1.size = w.size →
            Tracked (originalThen w1 q .resume .derived).1 p c := by
          intro w1 h1 hsz
          exact h1.tracked_of_frame (CsFrame.of_thenEffect (originalThen_effect w1 (by omega) _ _))
        cases hct : (w.cells q).customThen <;> cases hcs : (w.cells q).callsite
        · exact key w h rfl
        · exact key w h rfl
        · exact key w h rfl
        · rename_i d
          have hne : c ≠ d := by
            intro hcd
            subst hcd
            exact hqp (h.only q hq hcs)
          exact key _ (h.tracked_markCallsiteAwaited hne) rfl
      · rw [if_neg hq]
        exact h
  | runJob b => exact h.tracked_of_frame (CsFrame.frame_runJob w b)
  | settle r s => exact h.tracked_of_frame (CsFrame.frame_settleExecution w r s)

theorem Tracked.tracked_run {w : World} {p : Nat} {c : Callsite} (h : Tracked w p c) (hs : Sound w)
    (actions : List Action) (ha : ∀ a ∈ actions, a.observes p = false) :
    Tracked (run w actions) p c := by
  induction actions generalizing w with
  | nil => exact h
  | cons a rest ih =>
    exact ih (h.tracked_step hs a (ha a (List.mem_cons_self _ _))) (hs.sound_step a)
      (fun b hb => ha b (List.mem_cons_of_mem _ hb))

/-- A successful `_enqueueTask` records the callsite of the promise it returns. -/
theorem Tracked.of_enqueue {w : World} (hs : Sound w)
    (hcs : ∀ x, x < w.size → ∀ c, (w.cells x).callsite = some c → c.id < w.callsiteCount)
    {m : ApiMethod} {createTaskExecutor : Callsite → Except Err Executor} {fn : Executor}
    (hc : createTaskExecutor ⟨m, w.callsiteCount⟩ = .ok fn) :
    Tracked (_enqueueTask w m createTaskExecutor).2 (w.size + 1) ⟨m, w.callsiteCount⟩ := by
  have hlt : w.executionChain < w.size := by
    obtain ⟨_, _, _, hi⟩ := hs
    exact hi.tailLt
  have e := enqueueTask_effect w m createTaskExecutor hlt hc
  refine ⟨by rw [e.size]; omega, ?_, by rw [e.callsiteCount]; show w.callsiteCount < _; omega,
    fun x hx hcx => ?_⟩
  · rw [e.callsitesWithoutAwait]
    exact mem_setAdd_self _ _
  · rw [e.size] at hx
    by_cases hxs1 : x = w.size + 1
    · exact hxs1
    · exfalso
      by_cases hxs : x = w.size
      · subst hxs
        rw [e.inner] at hcx
        cases hcx
      · have hxl : x < w.size := by omega
        by_cases hxc : x = w.executionChain
        · subst hxc
          rw [e.callsite] at hcx
          have := hcs _ hxl _ hcx
          simp at this
        · rw [e.other x hxl hxc] at hcx
          have := hcs _ hxl _ hcx
          simp at this

theorem CsBound.bound_of_frame {w w2 : World} (h : CsBound w) (f : CsFrame w w2) : CsBound w2 := by
  intro x hx c hc
  rw [f.count]
  by_cases hxl : x < w.size
  · rw [f.old x hxl] at hc
    exact h x hxl c hc
  · rw [f.new x (by omega) hx] at hc
    cases hc

theorem CsBound.bound_enqueueTask {w : World} (h : CsBound w) (hlt : w.executionChain < w.size)
    (m : ApiMethod) (createTaskExecutor : Callsite → Except Err Executor) :
    CsBound (_enqueueTask w m createTaskExecutor).2 := by
  cases hc : createTaskExecutor ⟨m, w.callsiteCount⟩ with
  | error err =>
    rw [enqueueTask_error w m createTaskExecutor hc]
    intro x hx c hcx
    have := h x hx c hcx
    show c.id < w.callsiteCount + 1
    omega
  | ok fn =>
    have e := enqueueTask_effect w m createTaskExecutor hlt hc
    intro x hx c hcx
    rw [e.size] at hx
    rw [e.callsiteCount]
    by_cases hxs : x = w.size
    · subst hxs
      rw [e.inner] at hcx
      cases hcx
    · by_cases hxs1 : x = w.size + 1
      · subst hxs1
        rw [e.handle] at hcx
        simp only [Option.some.injEq] at hcx
        rw [← hcx]
        show w.callsiteCount < _
        omega
      · have hxl : x < w.size := by omega
        by_cases hxc : x = w.executionChain
        · subst hxc
          rw [e.callsite] at hcx
          have := h _ hxl c hcx
          omega
        · rw [e.other x hxl hxc] at hcx
          have := h _ hxl c hcx
          omega

theorem CsBound.bound_callApi {w : World} (h : CsBound w) (hlt : w.executionChain < w.size)
    (call : ApiCall) : CsBound (callApi w call).2 := by
  cases call with
  | enqueueTask m create => exact h.bound_enqueueTask hlt m create
  | enqueueCommand m ctor args => exact h.bound_enqueueTask hlt m _
  | enqueueCommandSync m ctor args outcome =>
    show CsBound (_enqueueCommandSync w m ctor args outcome).2
    unfold _enqueueCommandSync getCallsiteForMethod executeCommandSync
    simp only
    have hf : ∀ x, x < w.size → ∀ c, (w.cells x).callsite = some c →
        c.id < w.callsiteCount + 1 := fun x hx c hc => by have := h x hx c hc; omega
    cases ctor args w.testRun with
    | error err => exact hf
    | ok command => cases outcome <;> exact hf

theorem CsBound.bound_step {w : World} (h : CsBound w) (hs : Sound w) (a : Action) :
    CsBound (step w a) := by
  have hlt : w.executionChain < w.size := by
    obtain ⟨_, _, _, hi⟩ := hs
    exact hi.tailLt
  cases a with
  | call call => exact h.bound_callApi hlt call
  | chain q call =>
    show CsBound (delegated w q call).2
    unfold TestCafe.delegated
    by_cases hq : q < w.size
    · rw [if_pos hq]
      cases (w.cells q).callsite with
      | none => exact h
      | some d => exact CsBound.bound_callApi (w := markCallsiteAwaited w d) h hlt call
    · rw [if_neg hq]
      exact h
  | await x =>
    cases x with
    | controller => exact h
    | handle q =>
      show CsBound (promiseThen w q)
      unfold TestCafe.TestController.promiseThen
      by_cases hq : q < w.size
      · rw [if_pos hq]
        have key : ∀ w1 : World, CsBound w1 → w1.size = w.size →
            CsBound (originalThen w1 q .resume .derived).1 := by
          intro w1 h1 hsz
          exact h1.bound_of_frame (CsFrame.of_thenEffect (originalThen_effect w1 (by omega) _ _))
        cases (w.cells q).customThen <;> cases (w.cells q).callsite
        · exact key w h rfl
        · exact key w h rfl
        · exact key w h rfl
        · exact key (markCallsiteAwaited w _) h rfl
      · rw [if_neg hq]
        exact h
  | runJob b => exact h.bound_of_frame (CsFrame.frame_runJob w b)
  | settle r s => exact h.bound_of_frame (CsFrame.frame_settleExecution w r s)

theorem CsBound.bound_run {w : World} (h : CsBound w) (hs : Sound w) (actions : List Action) :
    CsBound (run w actions) := by
  induction actions generalizing w with
  | nil => exact h
  | cons a rest ih => exact ih (h.bound_step hs a) (hs.sound_step a)

theorem CsBound.bound_create (testRun : TestRun) : CsBound (create testRun) := by
  intro x _ c hc
  simp [TestController.create] at hc

theorem settleCell_pendingWork (w : World) {q : Nat} (hq : q < w.size) (s : Settled) :
    pendingWork (settleCell w q s) = pendingWork w := by
  unfold settleCell
  cases hst : (w.cells q).state with
  | some _ => rfl
  | none =>
    simp only [pendingWork, reactionTotal, List.length_append, List.length_map]
    have hmem : q ∈ Finset.range w.size := Finset.mem_range.2 hq
    rw [← Finset.add_sum_erase _ _ hmem, ← Finset.add_sum_erase _ (fun p =>
      (w.cells p).reactions.length) hmem]
    have hcongr : Finset.sum ((Finset.range w.size).erase q) (fun p =>
        (setCell w.cells q ({ w.cells q with state := some s, reactions := [] }) p).reactions.length)
        = Finset.sum ((Finset.range w.size).erase q) (fun p => (w.cells p).reactions.length) := by
      refine Finset.sum_congr rfl (fun p hp => ?_)
      rw [setCell_other _ _ (Finset.ne_of_mem_erase hp)]
    rw [hcongr]
    simp only [setCell_same, List.length_nil]
    omega

/-- With a failed execution behind it, a job run does one unit of the pending work,
invokes no executor, and keeps the failure on record. -/
theorem Broken.broken_runJob {i : Nat} {e : Err} {w : World} (h : Broken i e w) (b : Behaviour)
    (hne : w.jobs ≠ []) :
    Broken i e (runJob w b) ∧ pendingWork (runJob w b) + 1 = pendingWork w := by
  obtain ⟨t, tok, m, hinv, hf⟩ := h
  have htok := (hinv.broken i e hf).1
  unfold TestCafe.runJob
  cases hjobs : w.jobs with
  | nil => exact absurd hjobs hne
  | cons j rest =>
    obtain ⟨⟨hd, q⟩, s⟩ := j
    have hq : q < w.size := (hinv.job _ (by rw [hjobs]; exact List.mem_cons_self _ _)).1
    have hwork : ∀ s2, pendingWork (settleCell { w with jobs := rest } q s2) + 1 =
        pendingWork w := by
      intro s2
      rw [settleCell_pendingWork _ (show q < ({ w with jobs := rest } : World).size from hq)]
      simp only [pendingWork, reactionTotal, hjobs, List.length_cons]
      omega
    cases hd with
    | resume => exact ⟨⟨_, _, _, hinv.runJob_resume hjobs, hf⟩, hwork s⟩
    | identity => exact ⟨⟨_, _, _, hinv.runJob_identity hjobs, hf⟩, hwork s⟩
    | executor k fn =>
      cases s with
      | rejected e2 => exact ⟨⟨_, _, _, hinv.runJob_executor_rejected hjobs, hf⟩, hwork _⟩
      | fulfilled v =>
        exfalso
        have := (hinv.job _ (by rw [hjobs]; exact List.mem_cons_self _ _)).2
        have hs : Settled.fulfilled v = tok := this.1
        rw [htok] at hs
        cases hs

theorem runJob_of_no_jobs (w : World) (b : Behaviour) (h : w.jobs = []) : runJob w b = w := by
  unfold runJob
  rw [h]

theorem run_runJob_of_no_jobs (w : World) (bs : List Behaviour) (h : w.jobs = []) :
    run w (bs.map Action.runJob) = w := by
  induction bs with
  | nil => rfl
  | cons b bs ih =>
    show run (step w (.runJob b)) (bs.map Action.runJob) = w
    show run (runJob w b) (bs.map Action.runJob) = w
    rw [runJob_of_no_jobs w b h]
    exact ih

/-- After a failure, running as many jobs as there is pending work empties the queue. -/
theorem Broken.drain {i : Nat} {e : Err} : ∀ (bs : List Behaviour) {w : World},
    Broken i e w → pendingWork w ≤ bs.length →
    Broken i e (run w (bs.map Action.runJob)) ∧ (run w (bs.map Action.runJob)).jobs = [] := by
  intro bs
  induction bs with
  | nil =>
    intro w h hw
    refine ⟨h, ?_⟩
    have : w.jobs.length = 0 := by
      simp only [pendingWork, List.length_nil] at hw
      omega
    exact List.length_eq_zero.1 this
  | cons b bs ih =>
    intro w h hw
    by_cases hj : w.jobs = []
    · rw [run_runJob_of_no_jobs w (b :: bs) hj]
      exact ⟨h, hj⟩
    · obtain ⟨h2, hwork⟩ := h.broken_runJob b hj
      have := ih h2 (by simp only [List.length_cons] at hw; omega)
      exact this

/-- With the queue empty after a failure, every extended promise of the failed task
and of the tasks after it is rejected with the error. -/
theorem Broken.settled {i : Nat} {e : Err} {w : World} (h : Broken i e w)
    (hj : w.jobs = []) {p j : Nat} (hp : p < w.size) (hij : i ≤ j)
    (ho : (w.cells p).origin = .extended j) : (w.cells p).state = some (.rejected e) := by
  obtain ⟨t, tok, m, hinv, hf⟩ := h
  have hfl : m.inFlight = false := by
    cases hb : m.inFlight with
    | false => rfl
    | true =>
      have := monitor_inFlight hinv.mon hb
      rw [hf] at this
      cases this
  have ht1 : t % 4 ≠ 1 := by
    have := hinv.flight
    rw [hfl] at this
    simpa using this.symm
  have hcount := hinv.jobCount
  rw [hj] at hcount
  have hge : ¬ t < 4 * w.taskCount := by
    intro hc
    rw [if_pos ⟨hc, ht1⟩] at hcount
    simp [chainCount] at hcount
  have hc := hinv.cell p hp
  simp only [CellOK, ho] at hc
  obtain ⟨hjn, hiff, _⟩ := hc
  cases hst : (w.cells p).state with
  | none =>
    have := hiff.1 hst
    omega
  | some s =>
    rw [hinv.value p hp i e j s hf hij (Or.inr ho) hst]

/-- C1. In every run of one controller, at the moment the executor of task `i` is
invoked: every task enqueued before it (task `i - 1` in particular) has had its
execution settle, no execution is in flight, and every executor invoked so far belongs
to an earlier task, so executors run one at a time in enqueue order. -/
theorem executors_run_in_enqueue_order (testRun : TestRun) (actions : List Action)
    (pre post : List Event) (i : Nat)
    (h : (run (create testRun) actions).trace = pre ++ Event.invoked i :: post) :
    (∀ j, j < i → ∃ s, Event.settled j s ∈ pre) ∧
    (∀ j, Event.invoked j ∈ pre → ∃ s, Event.settled j s ∈ pre) ∧
    (∀ j, Event.invoked j ∈ pre → j < i) := by
  obtain ⟨t, tok, m, hinv⟩ := (Sound.sound_create testRun).sound_run actions
  have hm := hinv.mon
  rw [h] at hm
  obtain ⟨m1, h1, hnext, hfl, _⟩ := monitor_at_invoked hm
  have f := monitor_facts h1
  have hinvoked : ∀ j, Event.invoked j ∈ pre → j < i := by
    intro j hj
    have := (f.invoked j).1 hj
    simp only [hfl] at this
    simp at this
    omega
  refine ⟨fun j hj => (f.settled j).2 (by omega), fun j hj => ?_, hinvoked⟩
  exact (f.settled j).2 (by have := hinvoked j hj; omega)

theorem executors_run_in_enqueue_order_witness :
    (run (create ⟨[], []⟩) sampleRun).trace =
      [Event.invoked 0, Event.settled 0 (.fulfilled 1)] ++ Event.invoked 1 :: [] ∧
    ((∀ j, j < 1 → ∃ s, Event.settled j s ∈ [Event.invoked 0, Event.settled 0 (.fulfilled 1)]) ∧
    (∀ j, Event.invoked j ∈ [Event.invoked 0, Event.settled 0 (.fulfilled 1)] →
      ∃ s, Event.settled j s ∈ [Event.invoked 0, Event.settled 0 (.fulfilled 1)]) ∧
    (∀ j, Event.invoked j ∈ [Event.invoked 0, Event.settled 0 (.fulfilled 1)] → j < 1)) :=
  ⟨by decide, executors_run_in_enqueue_order ⟨[], []⟩ sampleRun
    [Event.invoked 0, Event.settled 0 (.fulfilled 1)] [] 1 (by decide)⟩

/-- C5 (as amended). When the execution of a task fails with error `e`, the chain is
aborted: no executor of a later task is ever invoked; the extended promise (the handle)
of the failed task and of every later task, once settled, is rejected with `e`; and
once as many jobs have run as there is pending work, each of these handles is settled,
rejected with `e`. -/
theorem failure_aborts_chain (testRun : TestRun) (actions : List Action) (i : Nat) (e : Err)
    (h : Event.settled i (.rejected e) ∈ (run (create testRun) actions).trace) :
    (∀ j, i < j → Event.invoked j ∉ (run (create testRun) actions).trace) ∧
    (∀ p j s, p < (run (create testRun) actions).size → i ≤ j →
      ((run (create testRun) actions).cells p).origin = .extended j →
      ((run (create testRun) actions).cells p).state = some s → s = .rejected e) ∧
    (∀ bs : List Behaviour, pendingWork (run (create testRun) actions) ≤ bs.length →
      ∀ p j, p < (run (run (create testRun) actions) (bs.map Action.runJob)).size → i ≤ j →
      ((run (run (create testRun) actions) (bs.map Action.runJob)).cells p).origin =
        .extended j →
      ((run (run (create testRun) actions) (bs.map Action.runJob)).cells p).state =
        some (.rejected e)) := by
  obtain ⟨t, tok, m, hinv⟩ := (Sound.sound_create testRun).sound_run actions
  have f := monitor_facts hinv.mon
  obtain ⟨hf, hn, hfl⟩ := f.failed i e h
  refine ⟨fun j hj hc => ?_, fun p j s hp hij ho hs => ?_, fun bs hbs p j hp hij ho => ?_⟩
  · have := (f.invoked j).1 hc
    simp only [hfl] at this
    simp at this
    omega
  · exact hinv.value p hp i e j s hf hij (Or.inr ho) hs
  · have hb : Broken i e (run (create testRun) actions) := ⟨t, tok, m, hinv, hf⟩
    obtain ⟨hb2, hj2⟩ := hb.drain bs hbs
    exact hb2.settled hj2 hp hij ho

theorem failure_aborts_chain_witness :
    Event.settled 0 (.rejected ⟨7, none⟩) ∈ (run (create ⟨[], []⟩) failingRun).trace ∧
    ((∀ j, 0 < j → Event.invoked j ∉ (run (create ⟨[], []⟩) failingRun).trace) ∧
    (∀ p j s, p < (run (create ⟨[], []⟩) failingRun).size → 0 ≤ j →
      ((run (create ⟨[], []⟩) failingRun).cells p).origin = .extended j →
      ((run (create ⟨[], []⟩) failingRun).cells p).state = some s →
      s = .rejected ⟨7, none⟩) ∧
    (∀ bs : List Behaviour, pendingWork (run (create ⟨[], []⟩) failingRun) ≤ bs.length →
      ∀ p j, p < (run (run (create ⟨[], []⟩) failingRun) (bs.map Action.runJob)).size →
      0 ≤ j →
      ((run (run (create ⟨[], []⟩) failingRun) (bs.map Action.runJob)).cells p).origin =
        .extended j →
      ((run (run (create ⟨[], []⟩) failingRun) (bs.map Action.runJob)).cells p).state =
        some (.rejected ⟨7, none⟩))) :=
  ⟨by decide, failure_aborts_chain ⟨[], []⟩ failingRun 0 ⟨7, none⟩ (by decide)⟩

/-- C5 (as stated) fails: task 1 is enqueued before the execution of task 0 fails; after
every queued job has run the executor of task 1 has not been invoked, nothing is left to
run, and the handle of task 1 is rejected with the error of task 0. -/
theorem failure_skips_enqueued_executor :
    (callApi (run (create ⟨[], []⟩) [.call sampleTask]) sampleTask).1 = .ok (.handle 4) ∧
    (run (create ⟨[], []⟩) failingRun).trace =
      [Event.invoked 0, Event.settled 0 (.rejected ⟨7, none⟩)] ∧
    (run (create ⟨[], []⟩) failingRun).jobs = [] ∧
    ((run (create ⟨[], []⟩) failingRun).cells 2).state = some (.rejected ⟨7, none⟩) ∧
    ((run (create ⟨[], []⟩) failingRun).cells 4).state = some (.rejected ⟨7, none⟩) :=
  ⟨rfl, by decide, by decide, by decide, by decide⟩

/-- C2 (code bug). `h1 = enqueue; h2 = enqueue; await h1`: the second enqueue resets the
`then` property of `h1` (it was `executionChain`) to `originalThen`, so the `await` no
longer marks the callsite of `h1`: at run end it is still in `callsitesWithoutAwait`.
Awaited before the second enqueue, or used as the base of a chained call after it, the
callsite is removed. -/
theorem await_after_later_enqueue_keeps_callsite :
    (callApi (create ⟨[], []⟩) sampleTask).1 = .ok (.handle 2) ∧
    ((callApi (create ⟨[], []⟩) sampleTask).2.cells 2).callsite = some ⟨.click, 0⟩ ∧
    (run (create ⟨[], []⟩) supersededAwaitRun).jobs = [] ∧
    (⟨.click, 0⟩ : Callsite) ∈ (run (create ⟨[], []⟩) supersededAwaitRun).callsitesWithoutAwait ∧
    (⟨.click, 0⟩ : Callsite) ∉ (run (create ⟨[], []⟩)
      [.call sampleTask, .await (.handle 2), .call sampleTask]).callsitesWithoutAwait ∧
    (⟨.click, 0⟩ : Callsite) ∉ (run (create ⟨[], []⟩)
      [.call sampleTask, .call sampleTask, .chain 2 sampleTask]).callsitesWithoutAwait :=
  ⟨rfl, by decide, by decide, by decide, by decide, by decide⟩

/-- C3 (code bug). `t.click(selector)` goes through `_enqueueCommandSync`: it returns
the controller, not a promise, and its callsite is not in `callsitesWithoutAwait`,
though nothing awaits it.  The sibling `_enqueueCommand` with the same command does
return a handle and registers the callsite. -/
theorem click_registers_no_callsite :
    (_click (create ⟨[], []⟩) (sampleCommand .click) (.str "#btn") .undefined none).1 =
      .ok .controller ∧
    (⟨.click, 0⟩ : Callsite) ∉
      (_click (create ⟨[], []⟩) (sampleCommand .click) (.str "#btn") .undefined
        none).2.callsitesWithoutAwait ∧
    (_enqueueCommand (create ⟨[], []⟩) .click (sampleCommand .click)
      [("selector", .str "#btn"), ("options", .undefined)]).1 = .ok (.handle 2) ∧
    (⟨.click, 0⟩ : Callsite) ∈
      (_enqueueCommand (create ⟨[], []⟩) .click (sampleCommand .click)
        [("selector", .str "#btn"), ("options", .undefined)]).2.callsitesWithoutAwait :=
  ⟨rfl, by decide, rfl, by decide⟩

/-- For every task enqueued through `_enqueueTask` at any point of a run: if the promise it returns is never awaited and no API method is ever called on
it, its callsite is in `callsitesWithoutAwait` at the end of the run. -/
theorem unobserved_task_callsite_stays (testRun : TestRun) (before after : List Action)
    (m : ApiMethod) (createTaskExecutor : Callsite → Except Err Executor) (fn : Executor)
    (hc : createTaskExecutor ⟨m, (run (create testRun) before).callsiteCount⟩ = .ok fn)
    (hun : ∀ a ∈ after, a.observes ((run (create testRun) before).size + 1) = false) :
    (_enqueueTask (run (create testRun) before) m createTaskExecutor).1 =
      .ok (.handle ((run (create testRun) before).size + 1)) ∧
    (⟨m, (run (create testRun) before).callsiteCount⟩ : Callsite) ∈
      (run (_enqueueTask (run (create testRun) before) m createTaskExecutor).2
        after).callsitesWithoutAwait := by
  have hs : Sound (run (create testRun) before) := (Sound.sound_create testRun).sound_run before
  have hb : CsBound (run (create testRun) before) :=
    (CsBound.bound_create testRun).bound_run (Sound.sound_create testRun) before
  refine ⟨enqueueTask_result _ m createTaskExecutor hc, ?_⟩
  exact ((Tracked.of_enqueue hs hb hc).tracked_run (hs.sound_enqueueTask m createTaskExecutor) after hun).mem

theorem unobserved_task_callsite_stays_witness :
    (fun (_ : Callsite) => (Except.ok ⟨none⟩ : Except Err Executor))
      ⟨.click, (run (create ⟨[], []⟩) [.call sampleTask]).callsiteCount⟩ = .ok ⟨none⟩ ∧
    (∀ a ∈ [Action.runJob .promise, Action.await (.handle 2), Action.runJob .promise],
      a.observes ((run (create ⟨[], []⟩) [.call sampleTask]).size + 1) = false) ∧
    (_enqueueTask (run (create ⟨[], []⟩) [.call sampleTask]) .click (fun _ => .ok ⟨none⟩)).1 =
      .ok (.handle ((run (create ⟨[], []⟩) [.call sampleTask]).size + 1)) ∧
    (⟨.click, (run (create ⟨[], []⟩) [.call sampleTask]).callsiteCount⟩ : Callsite) ∈
      (run (_enqueueTask (run (create ⟨[], []⟩) [.call sampleTask]) .click
        (fun _ => .ok ⟨none⟩)).2
        [Action.runJob .promise, Action.await (.handle 2),
          Action.runJob .promise]).callsitesWithoutAwait :=
  ⟨rfl, by decide,
    unobserved_task_callsite_stays ⟨[], []⟩ [.call sampleTask]
      [Action.runJob .promise, Action.await (.handle 2), Action.runJob .promise]
      .click (fun _ => .ok ⟨none⟩) ⟨none⟩ rfl (by decide)⟩

/-- C4. On a fresh controller, `click(A)` then `typeText(B)`, then `await` of what
`typeText` returned: `callsitesWithoutAwait` is empty afterwards (also when one of the
calls throws and the scenario stops there).  When both commands are accepted and
executed, `typeText` returns the controller, the test run has executed the click
command and then the typeText command, each once, with the callsites 0 and 1, and two
callsites were captured.  With both actions enqueued through `_enqueueCommand` and
`typeText` called on the handle of `click`, the set holds the callsite of `typeText`
before the `await` and is empty after it. -/
theorem click_typeText_await_leaves_nothing_pending (testRun : TestRun)
    (ClickCommand TypeTextCommand : CmdCtor) (a clickOptions b text typeOptions : JsVal)
    (clickOutcome typeOutcome : Option Err) :
    (_click (create testRun) ClickCommand a clickOptions clickOutcome).2.callsitesWithoutAwait
      = [] ∧
    (match (_typeText (_click (create testRun) ClickCommand a clickOptions clickOutcome).2
        TypeTextCommand b text typeOptions typeOutcome) with
      | (.ok handle, w) => await w handle
      | (.error _, w) => w).callsitesWithoutAwait = [] ∧
    (∀ click type,
      ClickCommand [("selector", a), ("options", clickOptions)] testRun = .ok click →
      TypeTextCommand [("selector", b), ("text", text), ("options", typeOptions)]
        ⟨testRun.executeCommandCalls,
          testRun.executeCommandSyncCalls ++ [(click, ⟨.click, 0⟩)]⟩ = .ok type →
      (_click (create testRun) ClickCommand a clickOptions none).1 = .ok .controller ∧
      (_typeText (_click (create testRun) ClickCommand a clickOptions none).2
        TypeTextCommand b text typeOptions none).1 = .ok .controller ∧
      (await (_typeText (_click (create testRun) ClickCommand a clickOptions none).2
        TypeTextCommand b text typeOptions none).2 .controller).testRun =
        ⟨testRun.executeCommandCalls,
          testRun.executeCommandSyncCalls ++
            [(click, ⟨.click, 0⟩), (type, ⟨.typeText, 1⟩)]⟩ ∧
      (await (_typeText (_click (create testRun) ClickCommand a clickOptions none).2
        TypeTextCommand b text typeOptions none).2 .controller).callsiteCount = 2) ∧
    (callApi (create ⟨[], []⟩) clickTask).1 = .ok (.handle 2) ∧
    (delegated (callApi (create ⟨[], []⟩) clickTask).2 2 typeTextTask).1 = .ok (.handle 4) ∧
    (run (create ⟨[], []⟩) [.call clickTask, .chain 2 typeTextTask]).callsitesWithoutAwait =
      [⟨.typeText, 1⟩] ∧
    (run (create ⟨[], []⟩)
      [.call clickTask, .chain 2 typeTextTask, .await (.handle 4)]).callsitesWithoutAwait =
      [] := by
  refine ⟨?_, ?_, ?_, rfl, rfl, by decide, by decide⟩
  · unfold _click _enqueueCommandSync getCallsiteForMethod executeCommandSync
    simp only
    cases ClickCommand _ _ with
    | error _ => rfl
    | ok _ => cases clickOutcome <;> rfl
  · unfold _click _typeText _enqueueCommandSync getCallsiteForMethod executeCommandSync
    simp only
    cases ClickCommand _ _ with
    | error _ =>
      simp only
      cases TypeTextCommand _ _ with
      | error _ => rfl
      | ok _ => cases typeOutcome <;> rfl
    | ok _ =>
      cases clickOutcome <;> simp only <;>
      · cases TypeTextCommand _ _ with
        | error _ => rfl
        | ok _ => cases typeOutcome <;> rfl
  · intro click type hclick htype
    have h1 : _click (create testRun) ClickCommand a clickOptions none =
        (.ok .controller,
          { create testRun with
            callsiteCount := 1
            testRun := ⟨testRun.executeCommandCalls,
              testRun.executeCommandSyncCalls ++ [(click, ⟨.click, 0⟩)]⟩ }) := by
      simp [_click, _enqueueCommandSync, getCallsiteForMethod, executeCommandSync, create,
        hclick]
    rw [h1]
    have h2 : _typeText
        { create testRun with
          callsiteCount := 1
          testRun := ⟨testRun.executeCommandCalls,
            testRun.executeCommandSyncCalls ++ [(click, ⟨.click, 0⟩)]⟩ }
        TypeTextCommand b text typeOptions none =
        (.ok .controller,
          { create testRun with
            callsiteCount := 2
            testRun := ⟨testRun.executeCommandCalls,
              testRun.executeCommandSyncCalls ++
                [(click, ⟨.click, 0⟩), (type, ⟨.typeText, 1⟩)]⟩ }) := by
      simp [_typeText, _enqueueCommandSync, getCallsiteForMethod, executeCommandSync, create,
        htype]
    rw [h2]
    exact ⟨rfl, rfl, rfl, rfl⟩

/-- C6. In `_enqueueCommandSync`, when the command constructor throws `err`, the call
throws that error with its `callsite` set to the callsite captured for the API method,
and `testRun.executeCommandSync` is not invoked. -/
theorem enqueueCommandSync_constructor_throws (w : World) (m : ApiMethod) (ctor : CmdCtor)
    (cmdArgs : CmdArgs) (outcome : Option Err) (err : Err)
    (h : ctor cmdArgs w.testRun = .error err) :
    (getCallsiteForMethod w m).1 = ⟨m, w.callsiteCount⟩ ∧
    (_enqueueCommandSync w m ctor cmdArgs outcome).1 =
      .error { err with callsite := some ⟨m, w.callsiteCount⟩ } ∧
    (_enqueueCommandSync w m ctor cmdArgs outcome).2.testRun = w.testRun := by
  simp [_enqueueCommandSync, getCallsiteForMethod, h]

theorem enqueueCommandSync_constructor_throws_witness :
    samplePathCommand [("path", .num 1)] (create ⟨[], []⟩).testRun = .error ⟨1, none⟩ ∧
    (getCallsiteForMethod (create ⟨[], []⟩) .takeScreenshot).1 = ⟨.takeScreenshot, 0⟩ ∧
    (_takeScreenshot (create ⟨[], []⟩) samplePathCommand (.num 1) none).1 =
      .error ⟨1, some ⟨.takeScreenshot, 0⟩⟩ ∧
    (_takeScreenshot (create ⟨[], []⟩) samplePathCommand (.num 1) none).2.testRun = ⟨[], []⟩ :=
  ⟨rfl, enqueueCommandSync_constructor_throws (create ⟨[], []⟩) .takeScreenshot
    samplePathCommand [("path", .num 1)] none ⟨1, none⟩ rfl⟩

/-- C7. In `_enqueueCommand`, when the command constructor throws `err`, the call throws
that error with the captured callsite, `executionChain` and
`callsitesWithoutAwait` are what they were, no promise and no job is created, and the
test run is not called. -/
theorem enqueueCommand_constructor_throws (w : World) (m : ApiMethod) (ctor : CmdCtor)
    (cmdArgs : CmdArgs) (err : Err) (h : ctor cmdArgs w.testRun = .error err) :
    (_enqueueCommand w m ctor cmdArgs).1 =
      .error { err with callsite := some ⟨m, w.callsiteCount⟩ } ∧
    (_enqueueCommand w m ctor cmdArgs).2.executionChain = w.executionChain ∧
    (_enqueueCommand w m ctor cmdArgs).2.callsitesWithoutAwait = w.callsitesWithoutAwait ∧
    (_enqueueCommand w m ctor cmdArgs).2.testRun = w.testRun ∧
    (_enqueueCommand w m ctor cmdArgs).2.cells = w.cells ∧
    (_enqueueCommand w m ctor cmdArgs).2.size = w.size ∧
    (_enqueueCommand w m ctor cmdArgs).2.jobs = w.jobs := by
  simp [_enqueueCommand, _enqueueTask, getCallsiteForMethod, commandTaskExecutor, h]

theorem enqueueCommand_constructor_throws_witness :
    samplePathCommand [("path", .num 1)] (create ⟨[], []⟩).testRun = .error ⟨1, none⟩ ∧
    (_enqueueCommand (create ⟨[], []⟩) .takeScreenshot samplePathCommand [("path", .num 1)]).1 =
      .error ⟨1, some ⟨.takeScreenshot, 0⟩⟩ ∧
    (_enqueueCommand (create ⟨[], []⟩) .takeScreenshot samplePathCommand
      [("path", .num 1)]).2.executionChain = 0 :=
  ⟨rfl,
    (enqueueCommand_constructor_throws (create ⟨[], []⟩) .takeScreenshot samplePathCommand
      [("path", .num 1)] ⟨1, none⟩ rfl).1,
    (enqueueCommand_constructor_throws (create ⟨[], []⟩) .takeScreenshot samplePathCommand
      [("path", .num 1)] ⟨1, none⟩ rfl).2.1⟩

/-- C8. A successful `_enqueueTask` call registers the captured callsite: after the
call it is in `callsitesWithoutAwait`, and the returned promise is the current
`executionChain` and carries that callsite. -/
theorem enqueueTask_registers_callsite (w : World) (m : ApiMethod)
    (createTaskExecutor : Callsite → Except Err Executor) (fn : Executor)
    (h : createTaskExecutor ⟨m, w.callsiteCount⟩ = .ok fn) :
    (getCallsiteForMethod w m).1 = ⟨m, w.callsiteCount⟩ ∧
    (⟨m, w.callsiteCount⟩ : Callsite) ∈
      (_enqueueTask w m createTaskExecutor).2.callsitesWithoutAwait ∧
    (_enqueueTask w m createTaskExecutor).1 =
      .ok (.handle (_enqueueTask w m createTaskExecutor).2.executionChain) ∧
    ((_enqueueTask w m createTaskExecutor).2.cells
      (_enqueueTask w m createTaskExecutor).2.executionChain).callsite =
      some ⟨m, w.callsiteCount⟩ := by
  refine ⟨rfl, ?_, ?_, ?_⟩
  · simp only [_enqueueTask, getCallsiteForMethod, h, _createExtendedPromise, originalThen]
    split <;> exact mem_setAdd_self _ _
  · simp only [_enqueueTask, getCallsiteForMethod, h, _createExtendedPromise, originalThen]
  · simp only [_enqueueTask, getCallsiteForMethod, h, _createExtendedPromise, originalThen]
    split <;> simp [setCell, newCell]

theorem enqueueTask_registers_callsite_witness :
    (fun (_ : Callsite) => (Except.ok ⟨none⟩ : Except Err Executor))
      ⟨.click, (create ⟨[], []⟩).callsiteCount⟩ = .ok ⟨none⟩ ∧
    (getCallsiteForMethod (create ⟨[], []⟩) .click).1 = ⟨.click, 0⟩ ∧
    (⟨.click, 0⟩ : Callsite) ∈
      (_enqueueTask (create ⟨[], []⟩) .click (fun _ => .ok ⟨none⟩)).2.callsitesWithoutAwait ∧
    (_enqueueTask (create ⟨[], []⟩) .click (fun _ => .ok ⟨none⟩)).1 =
      .ok (.handle (_enqueueTask (create ⟨[], []⟩) .click
        (fun _ => .ok ⟨none⟩)).2.executionChain) ∧
    ((_enqueueTask (create ⟨[], []⟩) .click (fun _ => .ok ⟨none⟩)).2.cells
      (_enqueueTask (create ⟨[], []⟩) .click (fun _ => .ok ⟨none⟩)).2.executionChain).callsite =
      some ⟨.click, 0⟩ :=
  ⟨rfl, enqueueTask_registers_callsite (create ⟨[], []⟩) .click (fun _ => .ok ⟨none⟩)
    ⟨none⟩ rfl⟩

/-- C9 (as stated) fails: the command is valid, `testRun.executeCommandSync` throws, and
`_enqueueCommandSync` throws that error instead of returning the controller. -/
theorem enqueueCommandSync_may_throw :
    sampleCommand .click [("selector", .str "#not-exists")] (create ⟨[], []⟩).testRun =
      .ok ⟨.click, [("selector", .str "#not-exists")]⟩ ∧
    (_enqueueCommandSync (create ⟨[], []⟩) .click (sampleCommand .click)
      [("selector", .str "#not-exists")] (some ⟨5, none⟩)).1 = .error ⟨5, none⟩ :=
  ⟨rfl, rfl⟩

/-- C9 (as amended). For a valid command `_enqueueCommandSync` invokes
`testRun.executeCommandSync` exactly once, with the constructed command and the
captured callsite, and nothing else on the test run; it leaves `executionChain`,
`callsitesWithoutAwait`, the promises and the job queue unchanged; it returns the
controller itself when `executeCommandSync` returns, and throws what
`executeCommandSync` throws. -/
theorem enqueueCommandSync_bypasses_chain (w : World) (m : ApiMethod) (ctor : CmdCtor)
    (cmdArgs : CmdArgs) (outcome : Option Err) (command : Command)
    (h : ctor cmdArgs w.testRun = .ok command) :
    (_enqueueCommandSync w m ctor cmdArgs outcome).2.testRun.executeCommandSyncCalls =
      w.testRun.executeCommandSyncCalls ++ [(command, ⟨m, w.callsiteCount⟩)] ∧
    (_enqueueCommandSync w m ctor cmdArgs outcome).2.testRun.executeCommandCalls =
      w.testRun.executeCommandCalls ∧
    (_enqueueCommandSync w m ctor cmdArgs outcome).2.executionChain = w.executionChain ∧
    (_enqueueCommandSync w m ctor cmdArgs outcome).2.callsitesWithoutAwait =
      w.callsitesWithoutAwait ∧
    (_enqueueCommandSync w m ctor cmdArgs outcome).2.cells = w.cells ∧
    (_enqueueCommandSync w m ctor cmdArgs outcome).2.jobs = w.jobs ∧
    (_enqueueCommandSync w m ctor cmdArgs outcome).1 =
      (match outcome with
        | none => .ok .controller
        | some err => .error err) := by
  cases outcome <;>
    simp [_enqueueCommandSync, getCallsiteForMethod, executeCommandSync, h]

theorem enqueueCommandSync_bypasses_chain_witness :
    sampleCommand .click [("selector", .str "#btn")] (create ⟨[], []⟩).testRun =
      .ok ⟨.click, [("selector", .str "#btn")]⟩ ∧
    (_enqueueCommandSync (create ⟨[], []⟩) .click (sampleCommand .click)
      [("selector", .str "#btn")] none).2.testRun.executeCommandSyncCalls =
      [(⟨.click, [("selector", .str "#btn")]⟩, ⟨.click, 0⟩)] ∧
    (_enqueueCommandSync (create ⟨[], []⟩) .click (sampleCommand .click)
      [("selector", .str "#btn")] none).1 = .ok .controller :=
  ⟨rfl,
    (enqueueCommandSync_bypasses_chain (create ⟨[], []⟩) .click (sampleCommand .click)
      [("selector", .str "#btn")] none ⟨.click, [("selector", .str "#btn")]⟩ rfl).1,
    (enqueueCommandSync_bypasses_chain (create ⟨[], []⟩) .click (sampleCommand .click)
      [("selector", .str "#btn")] none ⟨.click, [("selector", .str "#btn")]⟩ rfl).2.2.2.2.2.2⟩

end TestCafe

namespace TestCafe.CompilerProcess

/-- C10 (code bug). For two tests whose fixture objects are two copies with id `F1`,
`getTests` returns tests that still refer to two fixture objects with id `F1`; only the
first copy has its hooks rebound, the second keeps what the worker sent. -/
theorem getTests_keeps_both_fixture_copies :
    fixtureDescriptors (getTests sharedIdHeap sharedIdTests).2 = [0, 1] ∧
    ((getTests sharedIdHeap sharedIdTests).1.at 0).id = "F1" ∧
    ((getTests sharedIdHeap sharedIdTests).1.at 1).id = "F1" ∧
    ((fixtureDescriptors (getTests sharedIdHeap sharedIdTests).2).filter
      (fun a => ((getTests sharedIdHeap sharedIdTests).1.at a).id == "F1")).length = 2 ∧
    ((getTests sharedIdHeap sharedIdTests).1.at 0).beforeEachFn =
      .remote "F1" .fixtures .beforeEachFn true ∧
    ((getTests sharedIdHeap sharedIdTests).1.at 1).beforeEachFn = .declared := by
  decide

end TestCafe.CompilerProcess

namespace TestCafe.CompilerProcess

open TestCafe

theorem forEachTest_tests (heap : FixtureHeap) (tests : List Test) :
    (forEachTest heap tests).2 = tests.map rebindTest := by
  unfold forEachTest
  have key : ∀ (ts : List Test) (acc : List Nat × List Test),
      (ts.foldl (fun acc test =>
        (if acc.1.any (fun fixture => (heap.at fixture).id == (heap.at test.fixture).id)
          then acc.1 else acc.1 ++ [test.fixture],
         acc.2 ++ [rebindTest test])) acc).2 = acc.2 ++ ts.map rebindTest := by
    intro ts
    induction ts with
    | nil => intro acc; simp
    | cons t ts ih =>
      intro acc
      rw [List.foldl_cons, ih]
      simp
  simpa using key tests ([], [])

theorem getTests_tests (heap : FixtureHeap) (tests : List Test) :
    (getTests heap tests).2 = tests.map rebindTest := by
  unfold getTests
  exact forEachTest_tests heap tests

theorem truthy_false_iff (p : Phase) : p.truthy = false ↔ p = .absent := by
  cases p <;> simp [Phase.truthy]

/-- C11. Every test returned by `getTests` is a test of the worker with `fn` rebound
to a thunk that, called with a run, sends exactly one `run-test` request with payload
`{ idx: test.id, actor: tests, func: fn, testRunId: run.id }` and yields the response
to it; `beforeFn` and `afterFn` are rebound the same way when the worker declared them
and stay absent otherwise. -/
theorem getTests_rebinds_test_phases (heap : FixtureHeap) (tests : List Test)
    (t : Transmitter) (runId : String) (response : Except Err Nat) :
    ∀ test2 ∈ (getTests heap tests).2, ∃ test ∈ tests,
      test2.id = test.id ∧
      test2.fn.call t runId response =
        some (response, ⟨t.sent ++ [.runTest ⟨test.id, .tests, .fn, some runId⟩]⟩) ∧
      (test.beforeFn.truthy = true → test2.beforeFn.call t runId response =
        some (response, ⟨t.sent ++ [.runTest ⟨test.id, .tests, .beforeFn, some runId⟩]⟩)) ∧
      (test.beforeFn.truthy = false → test2.beforeFn = .absent) ∧
      (test.afterFn.truthy = true → test2.afterFn.call t runId response =
        some (response, ⟨t.sent ++ [.runTest ⟨test.id, .tests, .afterFn, some runId⟩]⟩)) ∧
      (test.afterFn.truthy = false → test2.afterFn = .absent) := by
  intro test2 h2
  rw [getTests_tests, List.mem_map] at h2
  obtain ⟨test, hmem, rfl⟩ := h2
  refine ⟨test, hmem, rfl, rfl, ?_, ?_, ?_, ?_⟩
  · intro h
    simp [rebindTest, h, Phase.call, runTest, Transmitter.send]
  · intro h
    simp only [rebindTest, h]
    exact (truthy_false_iff _).1 h
  · intro h
    simp [rebindTest, h, Phase.call, runTest, Transmitter.send]
  · intro h
    simp only [rebindTest, h]
    exact (truthy_false_iff _).1 h

theorem getTests_rebinds_test_phases_witness :
    (⟨"T1", 0, .remote "T1" .tests .fn true, .absent, .absent, []⟩ : Test) ∈
      (getTests sharedIdHeap sharedIdTests).2 ∧
    ∃ test ∈ sharedIdTests,
      (⟨"T1", 0, .remote "T1" .tests .fn true, .absent, .absent, []⟩ : Test).id = test.id ∧
      (⟨"T1", 0, .remote "T1" .tests .fn true, .absent, .absent, []⟩ : Test).fn.call
          ⟨[]⟩ "run-1" (.ok 0) =
        some (.ok 0, ⟨[] ++ [.runTest ⟨test.id, .tests, .fn, some "run-1"⟩]⟩) ∧
      (test.beforeFn.truthy = true →
        (⟨"T1", 0, .remote "T1" .tests .fn true, .absent, .absent, []⟩ : Test).beforeFn.call
            ⟨[]⟩ "run-1" (.ok 0) =
          some (.ok 0, ⟨[] ++ [.runTest ⟨test.id, .tests, .beforeFn, some "run-1"⟩]⟩)) ∧
      (test.beforeFn.truthy = false →
        (⟨"T1", 0, .remote "T1" .tests .fn true, .absent, .absent, []⟩ : Test).beforeFn =
          .absent) ∧
      (test.afterFn.truthy = true →
        (⟨"T1", 0, .remote "T1" .tests .fn true, .absent, .absent, []⟩ : Test).afterFn.call
            ⟨[]⟩ "run-1" (.ok 0) =
          some (.ok 0, ⟨[] ++ [.runTest ⟨test.id, .tests, .afterFn, some "run-1"⟩]⟩)) ∧
      (test.afterFn.truthy = false →
        (⟨"T1", 0, .remote "T1" .tests .fn true, .absent, .absent, []⟩ : Test).afterFn =
          .absent) :=
  ⟨by decide,
    getTests_rebinds_test_phases sharedIdHeap sharedIdTests ⟨[]⟩ "run-1" (.ok 0)
      ⟨"T1", 0, .remote "T1" .tests .fn true, .absent, .absent, []⟩ (by decide)⟩

/-- C12. A notification whose run id is not registered: each of the four routes
returns `undefined` and leaves every registered run as it is, whatever the methods of
the runs do (none is called). -/
theorem unregistered_run_is_dropped (m : RunMethods) (runs : ActiveTestRuns) (id : String)
    (command : Nat) (role : Role) (hooks : List RequestHook) (hookIds : List Nat)
    (h : runs.lookup id = none) :
    onExecuteCommand m runs id command = (.undefined, runs) ∧
    onUseRole m runs id role = (.undefined, runs) ∧
    onAddRequestHooks m runs id hooks = (.undefined, runs) ∧
    onRemoveRequestHooks m runs id hookIds = (.undefined, runs) := by
  simp [onExecuteCommand, onUseRole, onAddRequestHooks, onRemoveRequestHooks, h]

theorem unregistered_run_is_dropped_witness :
    sampleRuns.lookup "run-9" = none ∧
    (onExecuteCommand recording sampleRuns "run-9" 3 = (.undefined, sampleRuns) ∧
    onUseRole recording sampleRuns "run-9" ⟨"role-1", .str "/login", .declared, .undefined⟩ =
      (.undefined, sampleRuns) ∧
    onAddRequestHooks recording sampleRuns "run-9" [.descriptor 1] = (.undefined, sampleRuns) ∧
    onRemoveRequestHooks recording sampleRuns "run-9" [1] = (.undefined, sampleRuns)) :=
  ⟨by decide, unregistered_run_is_dropped recording sampleRuns "run-9" 3
    ⟨"role-1", .str "/login", .declared, .undefined⟩ [.descriptor 1] [1] (by decide)⟩

/-- C13. A `use-role` notification for a registered run hands that run one
`UseRoleCommand` whose role has the id, login page and options of the payload; when
the payload declares `initFn`, the initializer of the role, called with a run, issues
`runTest(role.id, roles, run.id, initFn)`, addressed by the id of the role; when the
payload declares none, the role has no initializer. -/
theorem useRole_initializer_is_addressed_by_role (m : RunMethods) (runs : ActiveTestRuns)
    (id : String) (role : Role) (run : ActiveRun) (h : runs.lookup id = some run) :
    onUseRole m runs id role = (.promise, runs.update id (fun r => m.executeCommand r
      (.useRole ⟨role.id, role.loginPage, roleInitFn role, role.options⟩))) ∧
    (role.initFn.truthy = true → ∀ (t : Transmitter) (runId : String)
      (response : Except Err Nat), (roleInitFn role).call t runId response =
        some (runTest t role.id .roles (some runId) .initFn response)) ∧
    (role.initFn.truthy = true → ∀ (t : Transmitter) (runId : String)
      (response : Except Err Nat), (roleInitFn role).call t runId response =
        some (response, ⟨t.sent ++ [.runTest ⟨role.id, .roles, .initFn, some runId⟩]⟩)) ∧
    (role.initFn.truthy = false → roleInitFn role = .absent) := by
  refine ⟨by simp [onUseRole, h], ?_, ?_, ?_⟩
  · intro ht t runId response
    simp [roleInitFn, ht, Phase.call]
  · intro ht t runId response
    simp [roleInitFn, ht, Phase.call, runTest, Transmitter.send]
  · intro ht
    simp only [roleInitFn, ht]
    exact (truthy_false_iff _).1 ht

theorem useRole_initializer_is_addressed_by_role_witness :
    sampleRuns.lookup "run-1" = some ⟨"run-1", false, [], [], [], []⟩ ∧
    (onUseRole recording sampleRuns "run-1" ⟨"role-1", .str "/login", .declared, .undefined⟩ =
      (.promise, sampleRuns.update "run-1" (fun r => recording.executeCommand r
        (.useRole ⟨"role-1", .str "/login",
          roleInitFn ⟨"role-1", .str "/login", .declared, .undefined⟩, .undefined⟩))) ∧
    ((Phase.declared).truthy = true → ∀ (t : Transmitter) (runId : String)
      (response : Except Err Nat),
      (roleInitFn ⟨"role-1", .str "/login", .declared, .undefined⟩).call t runId response =
        some (runTest t "role-1" .roles (some runId) .initFn response)) ∧
    ((Phase.declared).truthy = true → ∀ (t : Transmitter) (runId : String)
      (response : Except Err Nat),
      (roleInitFn ⟨"role-1", .str "/login", .declared, .undefined⟩).call t runId response =
        some (response, ⟨t.sent ++ [.runTest ⟨"role-1", .roles, .initFn, some runId⟩]⟩)) ∧
    ((Phase.declared).truthy = false →
      roleInitFn ⟨"role-1", .str "/login", .declared, .undefined⟩ = .absent)) :=
  ⟨by decide, useRole_initializer_is_addressed_by_role recording sampleRuns "run-1"
    ⟨"role-1", .str "/login", .declared, .undefined⟩ ⟨"run-1", false, [], [], [], []⟩
    (by decide)⟩

/-- C14. On a debugger pause event, with a test run class whose `executeCommand` marks
a run debugging when handed a `DebugCommand`: every registered run whose `debugging`
flag is not set is handed one `DebugCommand` through `executeCommand` and nothing else,
every run is flagged debugging afterwards, and a run already flagged is left as it is:
it receives no command. -/
theorem pause_injects_debug_command (m : RunMethods) (internalFilesUrl : String)
    (runs : ActiveTestRuns) (dbg : Debugger) (callFrames : List String)
    (hmark : ∀ r, (m.executeCommand r .debug).debugging = true) :
    (onPaused m internalFilesUrl runs dbg callFrames).2.1 =
      runs.map (fun r => if r.debugging = true then r else m.executeCommand r .debug) ∧
    (∀ r2 ∈ (onPaused m internalFilesUrl runs dbg callFrames).2.1, r2.debugging = true) ∧
    (∀ r ∈ runs, r.debugging = true →
      r ∈ (onPaused m internalFilesUrl runs dbg callFrames).2.1) ∧
    (onPaused recording internalFilesUrl runs dbg callFrames).2.1 =
      runs.map (fun r => if r.debugging = true then r
        else { r with
          debugging := true
          executeCommandCalls := r.executeCommandCalls ++ [.debug] }) := by
  have key : ∀ m : RunMethods, (onPaused m internalFilesUrl runs dbg callFrames).2.1 =
      runs.map (fun r => if r.debugging = true then r else m.executeCommand r .debug) := by
    intro m
    have hf : (fun testRun : ActiveRun =>
        if (!testRun.debugging) = true then m.executeCommand testRun .debug else testRun) =
        (fun r => if r.debugging = true then r else m.executeCommand r .debug) := by
      funext r
      cases r.debugging <;> simp
    unfold onPaused
    cases callFrames with
    | nil => simp only [hf]
    | cons top rest =>
      simp only [hf]
      split <;> rfl
  refine ⟨key m, ?_, ?_, ?_⟩
  · intro r2 h2
    rw [key m, List.mem_map] at h2
    obtain ⟨r, _, rfl⟩ := h2
    by_cases hd : r.debugging = true
    · rw [if_pos hd]
      exact hd
    · rw [if_neg hd]
      exact hmark r
  · intro r hr hd
    rw [key m, List.mem_map]
    exact ⟨r, hr, by rw [if_pos hd]⟩
  · rw [key recording]
    rfl

theorem pause_injects_debug_command_witness :
    (∀ r, (recording.executeCommand r .debug).debugging = true) ∧
    ((onPaused recording "file:///app/lib/" sampleRuns ⟨0⟩ ["file:///tests/t.js"]).2.1 =
      sampleRuns.map (fun r => if r.debugging = true then r
        else recording.executeCommand r .debug) ∧
    (∀ r2 ∈ (onPaused recording "file:///app/lib/" sampleRuns ⟨0⟩
      ["file:///tests/t.js"]).2.1, r2.debugging = true) ∧
    (∀ r ∈ sampleRuns, r.debugging = true →
      r ∈ (onPaused recording "file:///app/lib/" sampleRuns ⟨0⟩ ["file:///tests/t.js"]).2.1) ∧
    (onPaused recording "file:///app/lib/" sampleRuns ⟨0⟩ ["file:///tests/t.js"]).2.1 =
      sampleRuns.map (fun r => if r.debugging = true then r
        else { r with
          debugging := true
          executeCommandCalls := r.executeCommandCalls ++ [.debug] })) :=
  ⟨fun _ => rfl,
    pause_injects_debug_command recording "file:///app/lib/" sampleRuns ⟨0⟩
      ["file:///tests/t.js"] (fun _ => rfl)⟩

/-- C15. On a debugger resume event every registered run has `debugging` false
afterwards and is otherwise the run it was. -/
theorem resume_clears_debugging (runs : ActiveTestRuns) :
    onResumed runs = runs.map (fun r => { r with debugging := false }) ∧
    (onResumed runs).length = runs.length ∧
    (∀ r2 ∈ onResumed runs, r2.debugging = false) ∧
    (∀ r2 ∈ onResumed runs, ∃ r ∈ runs, r2.id = r.id ∧ r2.requestHooks = r.requestHooks ∧
      r2.executeCommandCalls = r.executeCommandCalls ∧
      r2.addRequestHookCalls = r.addRequestHookCalls ∧
      r2.removeRequestHookCalls = r.removeRequestHookCalls) := by
  refine ⟨rfl, by simp [onResumed], ?_, ?_⟩
  · intro r2 h2
    simp only [onResumed, List.mem_map] at h2
    obtain ⟨r, _, rfl⟩ := h2
    rfl
  · intro r2 h2
    simp only [onResumed, List.mem_map] at h2
    obtain ⟨r, hr, rfl⟩ := h2
    exact ⟨r, hr, rfl, rfl, rfl, rfl, rfl⟩

theorem isPrefixOf_iff_append (needle s : List Char) :
    needle.isPrefixOf s = true ↔ ∃ post, s = needle ++ post := by
  induction needle generalizing s with
  | nil => simp
  | cons a as ih =>
    cases s with
    | nil => simp
    | cons b bs =>
      simp only [List.isPrefixOf, Bool.and_eq_true, beq_iff_eq, ih, List.cons_append,
        List.cons.injEq]
      constructor
      · rintro ⟨rfl, post, rfl⟩
        exact ⟨post, rfl, rfl⟩
      · rintro ⟨post, rfl, rfl⟩
        exact ⟨rfl, post, rfl⟩

/-- The search finds the needle exactly when it occurs somewhere in the string. -/
theorem indexOfFrom_nonneg_iff (needle : List Char) (s : List Char) (i : Nat) :
    0 ≤ indexOfFrom needle s i ↔ ∃ pre post, s = pre ++ needle ++ post := by
  induction s generalizing i with
  | nil =>
    unfold indexOfFrom
    cases needle with
    | nil => simp
    | cons a as => simp
  | cons c rest ih =>
    unfold indexOfFrom
    by_cases hp : needle.isPrefixOf (c :: rest) = true
    · rw [if_pos hp]
      obtain ⟨post, hpost⟩ := (isPrefixOf_iff_append _ _).1 hp
      constructor
      · intro _
        exact ⟨[], post, by simpa using hpost⟩
      · intro _
        exact Int.natCast_nonneg i
    · rw [if_neg hp, ih]
      constructor
      · rintro ⟨pre, post, h⟩
        exact ⟨c :: pre, post, by simp [h]⟩
      · rintro ⟨pre, post, h⟩
        cases pre with
        | nil =>
          exfalso
          apply hp
          exact (isPrefixOf_iff_append _ _).2 ⟨post, by simpa using h⟩
        | cons d pre =>
          simp only [List.cons_append, List.cons.injEq] at h
          exact ⟨pre, post, by simp [h.2]⟩

/-- C16 (as stated) fails: the URL of the top frame does not lie under
`INTERNAL_FILES_URL` (it does not start with it), it contains it further on, and the
handler steps out. -/
theorem pause_steps_out_of_frame_not_under_internal :
    ("file:///app/lib/".toList.isPrefixOf "webpack:///file:///app/lib/x.js".toList) = false ∧
    (onPaused recording "file:///app/lib/" sampleRuns ⟨0⟩
      ["webpack:///file:///app/lib/x.js"]).2.2 = ⟨1⟩ := by
  decide

/-- C16 (as amended). On a debugger pause event with a top call frame the debugger is
told to step out, once, exactly when the URL of that frame contains
`INTERNAL_FILES_URL` (`indexOf` is not negative); so it is for every frame whose URL
starts with `INTERNAL_FILES_URL`, and a frame whose URL does not contain it gets no
step-out. -/
theorem pause_steps_out_iff_url_contains_internal (m : RunMethods) (internalFilesUrl : String)
    (runs : ActiveTestRuns) (dbg : Debugger) (top : String) (rest : List String) :
    ((∃ pre post, top.toList = pre ++ internalFilesUrl.toList ++ post) →
      (onPaused m internalFilesUrl runs dbg (top :: rest)).2.2.stepOutCalls =
        dbg.stepOutCalls + 1) ∧
    ((¬ ∃ pre post, top.toList = pre ++ internalFilesUrl.toList ++ post) →
      (onPaused m internalFilesUrl runs dbg (top :: rest)).2.2 = dbg) ∧
    ((∃ post, top.toList = internalFilesUrl.toList ++ post) →
      (onPaused m internalFilesUrl runs dbg (top :: rest)).2.2.stepOutCalls =
        dbg.stepOutCalls + 1) := by
  have hyes : (∃ pre post, top.toList = pre ++ internalFilesUrl.toList ++ post) →
      (onPaused m internalFilesUrl runs dbg (top :: rest)).2.2.stepOutCalls =
        dbg.stepOutCalls + 1 := by
    intro h
    have h0 : indexOf top internalFilesUrl ≥ 0 := (indexOfFrom_nonneg_iff _ _ 0).2 h
    simp [onPaused, h0]
  refine ⟨hyes, ?_, ?_⟩
  · intro h
    have h0 : ¬ indexOf top internalFilesUrl ≥ 0 := fun hc =>
      h ((indexOfFrom_nonneg_iff _ _ 0).1 hc)
    simp [onPaused, h0]
  · rintro ⟨post, hpost⟩
    exact hyes ⟨[], post, by simpa using hpost⟩

/-- C17. Two `send` calls on one channel get different ids; when the responses arrive
in reverse order, each call resolves with the response that carries its own id. -/
theorem responses_are_matched_by_id (c : ControlChannel) (rx ry : Except Err Nat)
    (h : c.WellFormed) :
    c.send.1 ≠ c.send.2.send.1 ∧
    (((c.send.2.send.2).receive c.send.2.send.1 ry).receive c.send.1 rx).outcome c.send.1 =
      some rx ∧
    (((c.send.2.send.2).receive c.send.2.send.1 ry).receive c.send.1 rx).outcome
      c.send.2.send.1 = some ry := by
  obtain ⟨hin, hset⟩ := h
  have hx : c.nextId ∉ c.inFlight := fun hc => by have := hin _ hc; omega
  have hfind : ∀ (l : List (Nat × Except Err Nat)) (k : Nat), (∀ e ∈ l, e.1 < c.nextId) →
      c.nextId ≤ k → l.find? (fun e => e.1 == k) = none := by
    intro l k hl hk
    rw [List.find?_eq_none]
    intro e he
    have := hl e he
    simp
    omega
  refine ⟨by simp [ControlChannel.send], ?_, ?_⟩
  · simp only [ControlChannel.send, ControlChannel.receive, ControlChannel.outcome]
    simp [hx, List.find?_append, hfind c.settled c.nextId hset (Nat.le_refl _)]
  · simp only [ControlChannel.send, ControlChannel.receive, ControlChannel.outcome]
    simp [hx, List.find?_append, hfind c.settled (c.nextId + 1) hset (by omega)]

theorem responses_are_matched_by_id_witness :
    ControlChannel.fresh.WellFormed ∧
    (ControlChannel.fresh.send.1 ≠ ControlChannel.fresh.send.2.send.1 ∧
    (((ControlChannel.fresh.send.2.send.2).receive ControlChannel.fresh.send.2.send.1
      (.ok 20)).receive ControlChannel.fresh.send.1 (.ok 10)).outcome
      ControlChannel.fresh.send.1 = some (.ok 10) ∧
    (((ControlChannel.fresh.send.2.send.2).receive ControlChannel.fresh.send.2.send.1
      (.ok 20)).receive ControlChannel.fresh.send.1 (.ok 10)).outcome
      ControlChannel.fresh.send.2.send.1 = some (.ok 20)) :=
  ⟨⟨by simp [ControlChannel.fresh], by simp [ControlChannel.fresh]⟩,
    responses_are_matched_by_id ControlChannel.fresh (.ok 10) (.ok 20)
      ⟨by simp [ControlChannel.fresh], by simp [ControlChannel.fresh]⟩⟩

end TestCafe.CompilerProcess

namespace TestCafe.TestController

open TestCafe

theorem flatten_no_array : ∀ (n : Nat) (x : HookArg), sizeOf x ≤ n →
    ∀ y ∈ x.flatten, ∀ items, y ≠ .array items := by
  intro n
  induction n with
  | zero =>
    intro x hx
    cases x <;> simp at hx
  | succ n ih =>
    intro x hx y hy items
    cases x with
    | hook id =>
      simp only [HookArg.flatten, List.mem_singleton] at hy
      subst hy
      simp
    | other v =>
      simp only [HookArg.flatten, List.mem_singleton] at hy
      subst hy
      simp
    | array xs =>
      simp only [HookArg.flatten] at hy
      have key : ∀ (l : List HookArg), sizeOf l ≤ n → ∀ y ∈ flattenDeep l,
          ∀ items, y ≠ .array items := by
        intro l
        induction l with
        | nil =>
          intro _ y hy
          simp [flattenDeep] at hy
        | cons a l ihl =>
          intro hl y hy items
          simp only [flattenDeep, List.mem_append] at hy
          simp only [List.cons.sizeOf_spec] at hl
          rcases hy with hy | hy
          · exact ih a (by omega) y hy items
          · exact ihl (by omega) y hy items
      simp only [HookArg.array.sizeOf_spec] at hx
      exact key xs (by omega) y hy items

theorem flattenDeep_no_array (hooks : List HookArg) :
    ∀ y ∈ flattenDeep hooks, ∀ items, y ≠ .array items := by
  induction hooks with
  | nil =>
    intro y hy
    simp [flattenDeep] at hy
  | cons a l ih =>
    intro y hy items
    simp only [flattenDeep, List.mem_append] at hy
    rcases hy with hy | hy
    · exact flatten_no_array (sizeOf a) a (Nat.le_refl _) y hy items
    · exact ih y hy items

/-- C18. `addRequestHooks` and `removeRequestHooks` flatten their arguments deeply (no
array is left) and check every element before any effect: when some element is not a
request hook the call throws and the test run is not called; otherwise the test run
method is called once, with the flattened list, and the controller itself is
returned. -/
theorem requestHooks_are_checked_before_any_effect (testRun : RequestHookCalls)
    (hooks : List HookArg) :
    (∀ y ∈ flattenDeep hooks, ∀ items, y ≠ .array items) ∧
    _addRequestHooks testRun hooks =
      (if (flattenDeep hooks).all HookArg.isRequestHook then
        (.ok .controller,
          { testRun with addRequestHooks := testRun.addRequestHooks ++ [flattenDeep hooks] })
      else (.error requestHookTypeError, testRun)) ∧
    _removeRequestHooks testRun hooks =
      (if (flattenDeep hooks).all HookArg.isRequestHook then
        (.ok .controller,
          { testRun with
            removeRequestHooks := testRun.removeRequestHooks ++ [flattenDeep hooks] })
      else (.error requestHookTypeError, testRun)) := by
  refine ⟨flattenDeep_no_array hooks, ?_, ?_⟩
  · unfold _addRequestHooks assertRequestHookType
    by_cases h : (flattenDeep hooks).all HookArg.isRequestHook = true
    · simp only [h, if_true]
    · simp only [h, if_false]
      simp
  · unfold _removeRequestHooks assertRequestHookType
    by_cases h : (flattenDeep hooks).all HookArg.isRequestHook = true
    · simp only [h, if_true]
    · simp only [h, if_false]
      simp

/-- C19. `takeElementScreenshot(selector, a, b)`: when `b` is truthy the command gets
`path = a` and `options = b`; otherwise when `a` is of type object it gets
`options = a` and no `path`; otherwise it gets `path = a` and no `options`; `selector`
is passed as it is; so with `a` the number 1 and no `b` the command class receives
`path = 1`. -/
theorem takeElementScreenshot_builds_arguments (w : World) (ctor : CmdCtor)
    (selector a b : JsVal) (outcome : Option Err) :
    _takeElementScreenshot w ctor selector [a, b] outcome =
      _enqueueCommandSync w .takeElementScreenshot ctor
        (takeElementScreenshotArgs selector [a, b]) outcome ∧
    (jsTruthy b = true → takeElementScreenshotArgs selector [a, b] =
      [("selector", selector), ("path", a), ("options", b)]) ∧
    (jsTruthy b = false → typeofIsObject a = true →
      takeElementScreenshotArgs selector [a, b] = [("selector", selector), ("options", a)]) ∧
    (jsTruthy b = false → typeofIsObject a = false →
      takeElementScreenshotArgs selector [a, b] = [("selector", selector), ("path", a)]) ∧
    takeElementScreenshotArgs selector [.num 1] = [("selector", selector), ("path", .num 1)] ∧
    takeElementScreenshotArgs selector [.num 1, .undefined] =
      [("selector", selector), ("path", .num 1)] := by
  refine ⟨rfl, ?_, ?_, ?_, ?_, ?_⟩
  · intro hb
    simp [takeElementScreenshotArgs, argAt, hb]
  · intro hb ha
    simp [takeElementScreenshotArgs, argAt, hb, ha]
  · intro hb ha
    simp [takeElementScreenshotArgs, argAt, hb, ha]
  · simp [takeElementScreenshotArgs, argAt, jsTruthy, typeofIsObject]
  · simp [takeElementScreenshotArgs, argAt, jsTruthy, typeofIsObject]

end TestCafe.TestController

namespace TestCafe.TestFileCompiler

/-- Every error of `_compileCode` or `_compileCodeBatch` leaves
`_compileCodeForTestFiles` as a `TestCompilationError`, and `stackCleaningHook.enabled`
is false after the call in every outcome. -/
theorem compileCodeForTestFiles_wraps_errors (c : Compiler) (s : CompilerState)
    (testFilesInfo : List (String × String)) :
    (_compileCodeForTestFiles c s testFilesInfo).2.stackCleaningEnabled = false ∧
    (∀ err, (_compileCodeForTestFiles c s testFilesInfo).1 = .error err →
      ∃ cause, err = .testCompilation (c.cleanError cause)) := by
  unfold _compileCodeForTestFiles
  simp only
  split
  · exact ⟨rfl, fun err h => by cases h; exact ⟨_, rfl⟩⟩
  · exact ⟨rfl, fun err h => by cases h⟩

/-- Once the require hook is set up, `_runCompiledCode` rethrows an `APIError` of the
compiled code as it is and every other error as a `TestCompilationError`, and it
leaves `stackCleaningHook.enabled` false, the require hook removed and the global API
removed. -/
theorem runCompiledCode_after_setup (c : Compiler) (s : CompilerState)
    (compiledCode filename : String) (exts : List String)
    (h : c._getRequireCompilers = .ok exts) :
    (_runCompiledCode c s compiledCode filename).2 = ⟨false, false, false⟩ ∧
    (_runCompiledCode c s compiledCode filename).1 =
      (match c._execAsModule compiledCode filename with
        | .ok tests => .ok tests
        | .error err =>
          if err.isAPIError then .error err else .error (.testCompilation (c.cleanError err))) := by
  unfold _runCompiledCode _setupRequireHook
  simp only [h]
  cases hx : c._execAsModule compiledCode filename with
  | ok tests => exact ⟨rfl, rfl⟩
  | error err =>
    cases hb : err.isAPIError <;> simp [hb]

theorem mapM_compile_error (f : String × String → Except JsError (String × String)) :
    ∀ (l : List (String × String)) (err : JsError), l.mapM f = .error err →
      ∃ info ∈ l, f info = .error err := by
  intro l
  induction l with
  | nil =>
    intro err h
    rw [List.mapM_nil] at h
    cases h
  | cons x xs ih =>
    intro err h
    rw [List.mapM_cons] at h
    cases hx : f x with
    | error e =>
      rw [hx] at h
      simp only [bind, Except.bind] at h
      cases h
      exact ⟨x, List.mem_cons_self _ _, hx⟩
    | ok y =>
      rw [hx] at h
      simp only [bind, Except.bind] at h
      cases hxs : xs.mapM f with
      | error e =>
        rw [hxs] at h
        cases h
        obtain ⟨info, hmem, hinfo⟩ := ih _ hxs
        exact ⟨info, List.mem_cons_of_mem _ hmem, hinfo⟩
      | ok ys =>
        rw [hxs] at h
        cases h

theorem mapM_compile_fails (f : String × String → Except JsError (String × String)) :
    ∀ (l : List (String × String)), (∃ info ∈ l, ∃ err, f info = .error err) →
      ∃ err, l.mapM f = .error err := by
  intro l
  induction l with
  | nil =>
    rintro ⟨info, hmem, _⟩
    cases hmem
  | cons x xs ih =>
    rintro ⟨info, hmem, err, hinfo⟩
    rw [List.mapM_cons]
    cases hx : f x with
    | error e => exact ⟨e, rfl⟩
    | ok y =>
      have hin : info ∈ xs := by
        rcases List.mem_cons.1 hmem with h | h
        · rw [h, hx] at hinfo
          cases hinfo
        · exact h
      obtain ⟨e, he⟩ := ih ⟨info, hin, err, hinfo⟩
      refine ⟨e, ?_⟩
      rw [he]
      rfl

/-- C20. For a compiler whose `_getRequireCompilers` returns (every compiler that
implements the members of the base class).  `_compileCodeForTestFiles`: an error of
`_compileCodeBatch`, or of `_compileCode` on one of the files, is rethrown as a
`TestCompilationError` around the cleaned error; it throws nothing else, and
`stackCleaningHook.enabled` is false afterwards in every outcome.  `_runCompiledCode`:
an `APIError` thrown by the compiled code is rethrown as it is, every other error as a
`TestCompilationError` around the cleaned error, a module that runs yields its tests;
in every outcome `stackCleaningHook.enabled` is false afterwards, the require hook and
the global API are removed. -/
theorem compilation_failure_surfaces_as_compilation_error (c : Compiler) (s : CompilerState)
    (testFilesInfo : List (String × String)) (compiledCode filename : String)
    (exts : List String) (h : c._getRequireCompilers = .ok exts) :
    (_compileCodeForTestFiles c s testFilesInfo).2.stackCleaningEnabled = false ∧
    (c.canCompileInBatch = true → ∀ err, c._compileCodeBatch testFilesInfo = .error err →
      (_compileCodeForTestFiles c s testFilesInfo).1 =
        .error (.testCompilation (c.cleanError err))) ∧
    (c.canCompileInBatch = false →
      (∃ info ∈ testFilesInfo, ∃ err, c._compileCode info.1 info.2 = .error err) →
      ∃ info ∈ testFilesInfo, ∃ err, c._compileCode info.1 info.2 = .error err ∧
        (_compileCodeForTestFiles c s testFilesInfo).1 =
          .error (.testCompilation (c.cleanError err))) ∧
    (∀ err, (_compileCodeForTestFiles c s testFilesInfo).1 = .error err →
      ∃ cause, err = .testCompilation (c.cleanError cause)) ∧
    (_runCompiledCode c s compiledCode filename).2 = ⟨false, false, false⟩ ∧
    (∀ err, c._execAsModule compiledCode filename = .error err → err.isAPIError = true →
      (_runCompiledCode c s compiledCode filename).1 = .error err) ∧
    (∀ err, c._execAsModule compiledCode filename = .error err → err.isAPIError = false →
      (_runCompiledCode c s compiledCode filename).1 =
        .error (.testCompilation (c.cleanError err))) ∧
    (∀ tests, c._execAsModule compiledCode filename = .ok tests →
      (_runCompiledCode c s compiledCode filename).1 = .ok tests) := by
  obtain ⟨hc1, hc2⟩ := compileCodeForTestFiles_wraps_errors c s testFilesInfo
  obtain ⟨hr1, hr2⟩ := runCompiledCode_after_setup c s compiledCode filename exts h
  refine ⟨hc1, ?_, ?_, hc2, hr1, ?_, ?_, ?_⟩
  · intro hb err herr
    simp [_compileCodeForTestFiles, hb, herr]
  · intro hb hex
    obtain ⟨e, he⟩ := mapM_compile_fails (compileFile c) testFilesInfo (by
      obtain ⟨info, hmem, err, hinfo⟩ := hex
      exact ⟨info, hmem, err, by simp only [compileFile, hinfo]⟩)
    obtain ⟨info, hmem, hinfo⟩ := mapM_compile_error _ testFilesInfo e he
    refine ⟨info, hmem, e, ?_, ?_⟩
    · unfold compileFile at hinfo
      cases hcc : c._compileCode info.1 info.2 with
      | error e2 =>
        rw [hcc] at hinfo
        cases hinfo
        rfl
      | ok code =>
        rw [hcc] at hinfo
        cases hinfo
    · unfold _compileCodeForTestFiles
      simp only [hb, Bool.false_eq_true, if_false]
      rw [he]
  · intro err herr hapi
    rw [hr2, herr]
    simp [hapi]
  · intro err herr hapi
    rw [hr2, herr]
    simp [hapi]
  · intro tests ht
    rw [hr2, ht]

theorem compilation_failure_surfaces_as_compilation_error_witness :
    sampleCompiler._getRequireCompilers = .ok [".js"] ∧
    ((_compileCodeForTestFiles sampleCompiler ⟨false, false, false⟩
      [("code", "a.js"), ("", "b.js")]).2.stackCleaningEnabled = false ∧
    (sampleCompiler.canCompileInBatch = true → ∀ err,
      sampleCompiler._compileCodeBatch [("code", "a.js"), ("", "b.js")] = .error err →
      (_compileCodeForTestFiles sampleCompiler ⟨false, false, false⟩
        [("code", "a.js"), ("", "b.js")]).1 =
        .error (.testCompilation (sampleCompiler.cleanError err))) ∧
    (sampleCompiler.canCompileInBatch = false →
      (∃ info ∈ [("code", "a.js"), ("", "b.js")], ∃ err,
        sampleCompiler._compileCode info.1 info.2 = .error err) →
      ∃ info ∈ [("code", "a.js"), ("", "b.js")], ∃ err,
        sampleCompiler._compileCode info.1 info.2 = .error err ∧
        (_compileCodeForTestFiles sampleCompiler ⟨false, false, false⟩
          [("code", "a.js"), ("", "b.js")]).1 =
          .error (.testCompilation (sampleCompiler.cleanError err))) ∧
    (∀ err, (_compileCodeForTestFiles sampleCompiler ⟨false, false, false⟩
      [("code", "a.js"), ("", "b.js")]).1 = .error err →
      ∃ cause, err = .testCompilation (sampleCompiler.cleanError cause)) ∧
    (_runCompiledCode sampleCompiler ⟨false, false, false⟩ "throw" "a.js").2 =
      ⟨false, false, false⟩ ∧
    (∀ err, sampleCompiler._execAsModule "throw" "a.js" = .error err →
      err.isAPIError = true →
      (_runCompiledCode sampleCompiler ⟨false, false, false⟩ "throw" "a.js").1 = .error err) ∧
    (∀ err, sampleCompiler._execAsModule "throw" "a.js" = .error err →
      err.isAPIError = false →
      (_runCompiledCode sampleCompiler ⟨false, false, false⟩ "throw" "a.js").1 =
        .error (.testCompilation (sampleCompiler.cleanError err))) ∧
    (∀ tests, sampleCompiler._execAsModule "throw" "a.js" = .ok tests →
      (_runCompiledCode sampleCompiler ⟨false, false, false⟩ "throw" "a.js").1 =
        .ok tests)) :=
  ⟨rfl,
    compilation_failure_surfaces_as_compilation_error sampleCompiler ⟨false, false, false⟩
      [("code", "a.js"), ("", "b.js")] "throw" "a.js" [".js"] rfl⟩

end TestCafe.TestFileCompiler

namespace TestCafe

open TestController

theorem originalThen_callsites (w : World) (p : Nat) (h : Handler) (o : Origin) :
    (originalThen w p h o).1.callsitesWithoutAwait = w.callsitesWithoutAwait := by
  unfold originalThen
  simp only
  split <;> rfl

theorem mem_setDelete_iff {c d : Callsite} (s : List Callsite) (hne : d ≠ c) :
    d ∈ setDelete c s ↔ d ∈ s := by
  unfold setDelete
  simp [List.mem_filter, hne]

theorem mem_setAdd_iff (c d : Callsite) (s : List Callsite) :
    d ∈ setAdd c s ↔ d ∈ s ∨ d = c := by
  unfold setAdd
  split
  · rename_i h
    constructor
    · exact Or.inl
    · rintro (h1 | h1)
      · exact h1
      · rw [h1]; exact h
  · simp

theorem promiseThen_other (w : World) (p : Nat) (d : Callsite)
    (hne : (w.cells p).callsite ≠ some d) :
    d ∈ (promiseThen w p).callsitesWithoutAwait ↔ d ∈ w.callsitesWithoutAwait := by
  unfold promiseThen
  split
  · simp only
    rw [originalThen_callsites]
    split
    · rename_i c hct hcs
      have hdc : d ≠ c := fun h => hne (by rw [hcs, h])
      exact mem_setDelete_iff _ hdc
    · rfl
  · rfl

theorem enqueueCommandSync_callsites (w : World) (m : ApiMethod) (ctor : CmdCtor)
    (args : CmdArgs) (outcome : Option Err) :
    (_enqueueCommandSync w m ctor args outcome).2.callsitesWithoutAwait =
      w.callsitesWithoutAwait := by
  unfold _enqueueCommandSync getCallsiteForMethod executeCommandSync
  simp only
  cases ctor args w.testRun with
  | error err => rfl
  | ok command => cases outcome <;> rfl

theorem enqueueTask_callsites (w : World) (m : ApiMethod)
    (createTaskExecutor : Callsite → Except Err Executor) :
    (_enqueueTask w m createTaskExecutor).2.callsitesWithoutAwait = w.callsitesWithoutAwait ∨
    (_enqueueTask w m createTaskExecutor).2.callsitesWithoutAwait =
      setAdd ⟨m, w.callsiteCount⟩ w.callsitesWithoutAwait := by
  cases hc : createTaskExecutor ⟨m, w.callsiteCount⟩ with
  | error err =>
    left
    rw [enqueueTask_error w m createTaskExecutor hc]
  | ok fn =>
    right
    simp only [_enqueueTask, getCallsiteForMethod, hc, _createExtendedPromise,
      originalThen_callsites]

theorem callApi_callsites (w : World) (call : ApiCall) :
    (callApi w call).2.callsitesWithoutAwait = w.callsitesWithoutAwait ∨
    ∃ m, (callApi w call).2.callsitesWithoutAwait =
      setAdd ⟨m, w.callsiteCount⟩ w.callsitesWithoutAwait := by
  cases call with
  | enqueueTask m create =>
    rcases enqueueTask_callsites w m create with h | h
    · exact Or.inl h
    · exact Or.inr ⟨m, h⟩
  | enqueueCommand m ctor args =>
    rcases enqueueTask_callsites w m (commandTaskExecutor w.testRun ctor args) with h | h
    · exact Or.inl h
    · exact Or.inr ⟨m, h⟩
  | enqueueCommandSync m ctor args outcome =>
    exact Or.inl (enqueueCommandSync_callsites w m ctor args outcome)

/-- C21 (code bug). In the sequence of the NOTE on `_createExtendedPromise` every
`click` goes through `_enqueueCommandSync`, `t2` is the controller, and nothing is
ever registered: the callsite of the second `click` is not in
`callsitesWithoutAwait` afterwards.  In the same sequence with the actions enqueued
through `_enqueueTask` the callsite of the second action is still a member. -/
theorem note_click_sequence_registers_nothing :
    (callApi (create ⟨[], []⟩) (clickCall "#btn1")).1 = .ok .controller ∧
    (callApi (create ⟨[], []⟩) (clickCall "#btn1")) =
      _click (create ⟨[], []⟩) (sampleCommand .click) (.str "#btn1") .undefined none ∧
    (⟨.click, 1⟩ : Callsite) ∉ (run (create ⟨[], []⟩) noteClickRun).callsitesWithoutAwait ∧
    (run (create ⟨[], []⟩) noteClickRun).callsitesWithoutAwait = [] ∧
    (run (create ⟨[], []⟩) noteTaskRun).callsitesWithoutAwait = [⟨.click, 1⟩] :=
  ⟨rfl, rfl, by decide, by decide, by decide⟩

/-- Awaiting a handle, or calling an API method on it, leaves the
membership of every callsite other than the one of the handle unchanged: exactly so
for `await` and for a chained call through `_enqueueCommandSync`; a chained call
through `_enqueueTask` keeps every member and adds at most the callsite it captures
itself.  In the sequence of the NOTE with tasks enqueued through `_enqueueTask`, the
callsite of the second task is still a member at the end. -/
theorem observing_clears_only_own_callsite (w : World) (p : Nat) (d : Callsite)
    (hne : (w.cells p).callsite ≠ some d) :
    (d ∈ (await w (.handle p)).callsitesWithoutAwait ↔ d ∈ w.callsitesWithoutAwait) ∧
    (∀ m ctor args outcome,
      d ∈ (delegated w p (.enqueueCommandSync m ctor args outcome)).2.callsitesWithoutAwait ↔
        d ∈ w.callsitesWithoutAwait) ∧
    (∀ call,
      (d ∈ w.callsitesWithoutAwait → d ∈ (delegated w p call).2.callsitesWithoutAwait) ∧
      (d ∈ (delegated w p call).2.callsitesWithoutAwait →
        d ∈ w.callsitesWithoutAwait ∨ d.id = w.callsiteCount)) ∧
    (⟨.click, 1⟩ : Callsite) ∈ (run (create ⟨[], []⟩) noteTaskRun).callsitesWithoutAwait := by
  refine ⟨promiseThen_other w p d hne, ?_, ?_, by decide⟩
  · intro m ctor args outcome
    unfold delegated
    split
    · split
      · rename_i c hcs
        have hdc : d ≠ c := fun h => hne (by rw [hcs, h])
        show d ∈ (_enqueueCommandSync (markCallsiteAwaited w c) m ctor args
          outcome).2.callsitesWithoutAwait ↔ _
        rw [enqueueCommandSync_callsites]
        exact mem_setDelete_iff _ hdc
      · rfl
    · rfl
  · intro call
    unfold delegated
    split
    · split
      · rename_i c hcs
        have hdc : d ≠ c := fun h => hne (by rw [hcs, h])
        have hd : d ∈ (markCallsiteAwaited w c).callsitesWithoutAwait ↔
            d ∈ w.callsitesWithoutAwait := mem_setDelete_iff _ hdc
        rcases callApi_callsites (markCallsiteAwaited w c) call with h | ⟨m, h⟩
        · rw [h]
          exact ⟨fun h1 => hd.2 h1, fun h1 => Or.inl (hd.1 h1)⟩
        · rw [h, mem_setAdd_iff]
          constructor
          · intro h1
            exact Or.inl (hd.2 h1)
          · rintro (h1 | h1)
            · exact Or.inl (hd.1 h1)
            · right
              rw [h1]
              rfl
      · exact ⟨id, Or.inl⟩
    · exact ⟨id, Or.inl⟩

theorem observing_clears_only_own_callsite_witness :
    ((run (create ⟨[], []⟩) [.call sampleTask, .call sampleTask]).cells 2).callsite ≠
      some ⟨.click, 1⟩ ∧
    ((⟨.click, 1⟩ : Callsite) ∈ (await (run (create ⟨[], []⟩) [.call sampleTask, .call sampleTask])
      (.handle 2)).callsitesWithoutAwait ↔
      (⟨.click, 1⟩ : Callsite) ∈
        (run (create ⟨[], []⟩) [.call sampleTask, .call sampleTask]).callsitesWithoutAwait) :=
  ⟨by decide,
    (observing_clears_only_own_callsite
      (run (create ⟨[], []⟩) [.call sampleTask, .call sampleTask]) 2 ⟨.click, 1⟩
      (by decide)).1⟩

end TestCafe

namespace TestCafe.TestController

open TestCafe

/-- C27. `shouldStop` is a one-shot latch: for the command `debug` it returns true and
leaves `inDebug` as it is, in both states; after `enableDebug` the first call with
another command returns true and clears `inDebug`, the next such call returns false;
with `inDebug` clear (also after `disableDebug`) every other command returns false. -/
theorem shouldStop_is_one_shot_latch (inDebug : Bool) (command next : JsVal)
    (h1 : command ≠ .str "debug") (h2 : next ≠ .str "debug") :
    shouldStop inDebug (.str "debug") = (true, inDebug) ∧
    shouldStop (enableDebug inDebug) command = (true, false) ∧
    shouldStop (shouldStop (enableDebug inDebug) command).2 next = (false, false) ∧
    shouldStop false command = (false, false) ∧
    shouldStop (disableDebug inDebug) command = (false, false) := by
  have e1 : (command == JsVal.str "debug") = false := by simpa using h1
  have e2 : (next == JsVal.str "debug") = false := by simpa using h2
  have n1 : (command != JsVal.str "debug") = true := by simp [bne, e1]
  have n2 : (next != JsVal.str "debug") = true := by simp [bne, e2]
  refine ⟨?_, ?_, ?_, ?_, ?_⟩
  · cases inDebug <;> simp [shouldStop]
  · simp [shouldStop, enableDebug, n1]
  · simp [shouldStop, enableDebug, n1, e2]
  · simp [shouldStop, e1]
  · simp [shouldStop, disableDebug, e1]

theorem shouldStop_is_one_shot_latch_witness :
    (JsVal.str "click" ≠ .str "debug") ∧ (JsVal.str "typeText" ≠ .str "debug") ∧
    shouldStop true (.str "debug") = (true, true) ∧
    shouldStop (enableDebug true) (.str "click") = (true, false) ∧
    shouldStop (shouldStop (enableDebug true) (.str "click")).2 (.str "typeText") =
      (false, false) ∧
    shouldStop false (.str "click") = (false, false) ∧
    shouldStop (disableDebug true) (.str "click") = (false, false) :=
  ⟨by decide, by decide,
    shouldStop_is_one_shot_latch true (.str "click") (.str "typeText") (by decide)
      (by decide)⟩

end TestCafe.TestController

namespace TestCafe.CompilerProcess

open TestCafe

/-- C22 (code bug; the defect of C10). For two tests whose fixture objects are two
copies with id `F1`, both declaring `beforeEachFn`, `getTests` rebinds the hook of the
first copy only: the fixture of the second returned test keeps the value the worker
sent, which is no thunk and sends no `run-test` request. -/
theorem getTests_leaves_hooks_of_second_fixture_copy :
    (getTests sharedIdHeap sharedIdTests).2.map Test.fixture = [0, 1] ∧
    (sharedIdHeap.at 1).beforeEachFn.truthy = true ∧
    ((getTests sharedIdHeap sharedIdTests).1.at 1).beforeEachFn = .declared ∧
    ((getTests sharedIdHeap sharedIdTests).1.at 1).beforeEachFn.call ⟨[]⟩ "run1" (.ok 0) =
      none ∧
    ((getTests sharedIdHeap sharedIdTests).1.at 0).beforeEachFn.call ⟨[]⟩ "run1" (.ok 0) =
      some (.ok 0, ⟨[.runTest ⟨"F1", .fixtures, .beforeEachFn, some "run1"⟩]⟩) :=
  ⟨by decide, by decide, by decide, rfl, rfl⟩

/-- C23 (code bug). The host group of the pattern excludes digits, so a flag whose host
is an IP address does not match at all: `_getDebugInfo` falls back to port `9229` and
keeps the default host, whatever host and port the flag names.  A host without digits
is parsed as the claim says. -/
theorem getDebugInfo_misses_ip_address_host :
    _getDebugInfo ["--inspect=192.168.0.5:9230"] "5000" =
      ⟨"127.0.0.1", "9229", false, false⟩ ∧
    _getDebugInfo ["--inspect-brk=127.0.0.1:9230"] "5000" =
      ⟨"127.0.0.1", "9229", false, true⟩ ∧
    matchInspectFlag "--inspect=192.168.0.5:9230".toList = none ∧
    _getDebugInfo ["--inspect=localhost:9230"] "5000" =
      ⟨"localhost", "9230", false, false⟩ ∧
    _getDebugInfo ["--inspect-brk=localhost:9230"] "5000" =
      ⟨"localhost", "9230", false, true⟩ := by
  decide

end TestCafe.CompilerProcess

namespace TestCafe.ReExecutablePromise

open TestCafe TestCafe.TestController

theorem ensureExecuting_returned (p : ReExecutablePromise) (h : p._executed = false)
    (v : JsVal) (hf : p._fn p.calls = .ok v) :
    _ensureExecuting p = { p with calls := p.calls + 1, _result := v, _error := .null } := by
  unfold _ensureExecuting
  rw [if_neg (by simp [h]), hf]

theorem ensureExecuting_threw (p : ReExecutablePromise) (h : p._executed = false)
    (e : JsVal) (hf : p._fn p.calls = .error e) :
    _ensureExecuting p = { p with calls := p.calls + 1, _result := .null, _error := e } := by
  unfold _ensureExecuting
  rw [if_neg (by simp [h]), hf]

theorem step_facts (p : ReExecutablePromise) (c : Call) (h : p._executed = false) :
    (step p c)._executed = false ∧ (step p c).calls = p.calls + 1 ∧
    (step p c)._fn = p._fn := by
  cases hf : p._fn p.calls with
  | ok v =>
    have he := ensureExecuting_returned p h v hf
    have he2 := ensureExecuting_returned { p with _executed := false } rfl v hf
    cases c <;>
      simp only [step, then_, catch_, _execute, _reExecute, he, he2] <;>
      split <;> simp [h]
  | error e =>
    have he := ensureExecuting_threw p h e hf
    have he2 := ensureExecuting_threw { p with _executed := false } rfl e hf
    cases c <;>
      simp only [step, then_, catch_, _execute, _reExecute, he, he2] <;>
      split <;> simp [h]

theorem run_facts (fn : Nat → Except JsVal JsVal) (calls : List Call) :
    (run (create fn) calls)._executed = false ∧
    (run (create fn) calls).calls = calls.length ∧
    (run (create fn) calls)._fn = fn := by
  have key : ∀ (cs : List Call) (p : ReExecutablePromise), p._executed = false →
      (run p cs)._executed = false ∧ (run p cs).calls = p.calls + cs.length ∧
      (run p cs)._fn = p._fn := by
    intro cs
    induction cs with
    | nil => intro p h; exact ⟨h, rfl, rfl⟩
    | cons c cs ih =>
      intro p h
      obtain ⟨s1, s2, s3⟩ := step_facts p c h
      obtain ⟨r1, r2, r3⟩ := ih (step p c) s1
      refine ⟨r1, ?_, ?_⟩
      · show (run (step p c) cs).calls = _
        rw [r2, s2, List.length_cons]
        omega
      · show (run (step p c) cs)._fn = _
        rw [r3, s3]
  obtain ⟨h1, h2, h3⟩ := key calls (create fn) rfl
  refine ⟨h1, ?_, h3⟩
  rw [h2]
  simp [create]

/-- C24 (as stated) fails: when the executor throws `undefined` or `0`, `_execute`
returns `null` instead of throwing, and `then` invokes `onFulfilled` with `null`. -/
theorem falsy_thrown_value_is_reported_as_success :
    (_execute (create (fun _ => .error .undefined))).1 = .ok .null ∧
    (then_ (create (fun _ => .error .undefined))).1 = .onFulfilled .null ∧
    (_execute (create (fun _ => .error (.num 0)))).1 = .ok .null ∧
    (then_ (create (fun _ => .error (.num 0)))).1 = .onFulfilled .null :=
  ⟨rfl, rfl, rfl, rfl⟩

/-- C24 (as amended). At every point of the life of a promise: `_execute` throws `e`
exactly when this run of the executor throws `e` and `e` is truthy, `then` invokes
`onRejected` with `e` exactly then; when the executor returns `v`, `_execute`
returns `v` and `then` invokes `onFulfilled` with `v`; and when the executor throws a
falsy value, `_execute` returns `null` and `then` invokes `onFulfilled` with `null`. -/
theorem failure_is_reported_iff_executor_throws_truthy (fn : Nat → Except JsVal JsVal)
    (calls : List Call) :
    (∀ e, (_execute (run (create fn) calls)).1 = .error e ↔
      (fn calls.length = .error e ∧ jsTruthy e = true)) ∧
    (∀ e, (then_ (run (create fn) calls)).1 = .onRejected e ↔
      (fn calls.length = .error e ∧ jsTruthy e = true)) ∧
    (∀ v, fn calls.length = .ok v →
      (_execute (run (create fn) calls)).1 = .ok v ∧
      (then_ (run (create fn) calls)).1 = .onFulfilled v) ∧
    (∀ e, fn calls.length = .error e → jsTruthy e = false →
      (_execute (run (create fn) calls)).1 = .ok .null ∧
      (then_ (run (create fn) calls)).1 = .onFulfilled .null) := by
  obtain ⟨h1, h2, h3⟩ := run_facts fn calls
  cases hf : fn calls.length with
  | ok v =>
    have hf2 : (run (create fn) calls)._fn (run (create fn) calls).calls = .ok v := by
      rw [h2, h3]
      exact hf
    have he := ensureExecuting_returned _ h1 v hf2
    refine ⟨?_, ?_, ?_, ?_⟩
    · intro e
      simp [_execute, he, jsTruthy]
    · intro e
      simp [then_, he, jsTruthy]
    · intro v2 hv
      cases hv
      simp [_execute, then_, he, jsTruthy]
    · intro e hv
      cases hv
  | error e2 =>
    have hf2 : (run (create fn) calls)._fn (run (create fn) calls).calls = .error e2 := by
      rw [h2, h3]
      exact hf
    have he := ensureExecuting_threw _ h1 e2 hf2
    refine ⟨?_, ?_, ?_, ?_⟩
    · intro e
      unfold _execute
      simp only [he]
      by_cases ht : jsTruthy e2 = true
      · simp only [ht, if_true]
        constructor
        · intro h
          cases h
          exact ⟨rfl, ht⟩
        · rintro ⟨h, _⟩
          cases h
          rfl
      · simp only [ht]
        constructor
        · intro h
          cases h
        · rintro ⟨h, h4⟩
          cases h
          exact absurd h4 ht
    · intro e
      unfold then_
      simp only [he]
      by_cases ht : jsTruthy e2 = true
      · simp only [ht, if_true]
        constructor
        · intro h
          cases h
          exact ⟨rfl, ht⟩
        · rintro ⟨h, _⟩
          cases h
          rfl
      · simp only [ht]
        constructor
        · intro h
          cases h
        · rintro ⟨h, h4⟩
          cases h
          exact absurd h4 ht
    · intro v hv
      cases hv
    · intro e hv ht
      cases hv
      simp [_execute, then_, he, ht]

/-- C25 (code bug). Nothing ever sets `_executed`, so every `then`, `catch` and
`_execute` call runs the executor again: after any sequence of calls the executor has
run once per call, and two `then` calls on a new promise run it twice. -/
theorem executor_runs_on_every_call (fn : Nat → Except JsVal JsVal) (calls : List Call) :
    (run (create fn) calls).calls = calls.length ∧
    (run (create fn) calls)._executed = false ∧
    (run (create fn) [.then_, .then_]).calls = 2 ∧
    (run (create fn) [.then_, .catch_, ._execute]).calls = 3 :=
  ⟨(run_facts fn calls).2.1, (run_facts fn calls).1, (run_facts fn _).2.1,
    (run_facts fn _).2.1⟩

end TestCafe.ReExecutablePromise

namespace TestCafe.Cli

open TestCafe

theorem exitInv_exitHandler (s : ExitState) (terminationLevel : Nat) (h : ExitInv s) :
    ExitInv (exitHandler s terminationLevel) := by
  obtain ⟨h1, h2, h3, h4⟩ := h
  unfold exitHandler ExitInv
  cases hs : s.showMessageOnExit <;> cases hm : s.exitMessageShown <;>
    cases he : s.exiting <;> by_cases hl : terminationLevel < 2 <;>
    simp only [hl, hs, hm, he, decide_True, decide_False, Bool.not_true, Bool.not_false,
      Bool.and_true, Bool.and_false, Bool.true_and, Bool.false_and, Bool.or_true,
      Bool.or_false, Bool.true_or, Bool.false_or, if_true, if_false, Bool.false_eq_true] <;>
    simp_all

theorem exitInv_run (events : List ExitEvent) :
    ∀ s, ExitInv s → ExitInv (s.run events) := by
  induction events with
  | nil => intro s h; exact h
  | cons e events ih =>
    intro s h
    apply ih
    cases e with
    | terminationLevelIncreased terminationLevel => exact exitInv_exitHandler s _ h
    | clearShowMessage => exact h

theorem run_append (s : ExitState) (pre post : List ExitEvent) :
    s.run (pre ++ post) = (s.run pre).run post := by
  unfold ExitState.run
  rw [List.foldl_append]

theorem written_after_clear (events : List ExitEvent) :
    ∀ s : ExitState, s.showMessageOnExit = false →
      (s.run events).written = s.written := by
  induction events with
  | nil => intro s _; rfl
  | cons e events ih =>
    intro s h
    show ((s.step e).run events).written = s.written
    cases e with
    | terminationLevelIncreased terminationLevel =>
      have h1 : (exitHandler s terminationLevel).showMessageOnExit = false ∧
          (exitHandler s terminationLevel).written = s.written := by
        unfold exitHandler
        simp only [h, Bool.false_and, Bool.false_eq_true, if_false]
        split
        · exact ⟨h, rfl⟩
        · exact ⟨rfl, rfl⟩
      show ((exitHandler s terminationLevel).run events).written = s.written
      rw [ih _ h1.1, h1.2]
    | clearShowMessage =>
      show (({ s with showMessageOnExit := false } : ExitState).run events).written = _
      rw [ih _ rfl]

/-- C28. After every sequence of `exitHandler` calls (and assignments
`showMessageOnExit = false`) from the initial module state: the message was written at
most once and `exit(0)` was called at most once; a call of `exitHandler` that calls
`exit` has a termination level of at least 2; and once `showMessageOnExit` is cleared
no message is written any more. -/
theorem exitHandler_writes_and_exits_at_most_once (events : List ExitEvent) :
    ((ExitState.init.run events).written = [] ∨
      (ExitState.init.run events).written = ["Stopping TestCafe..."]) ∧
    ((ExitState.init.run events).exitCalls = [] ∨
      (ExitState.init.run events).exitCalls = [0]) ∧
    (∀ terminationLevel,
      (ExitState.init.run (events ++ [.terminationLevelIncreased terminationLevel])).exitCalls ≠
        (ExitState.init.run events).exitCalls → 2 ≤ terminationLevel) ∧
    (∀ later, (ExitState.init.run (events ++ .clearShowMessage :: later)).written =
      (ExitState.init.run events).written) := by
  have hinit : ExitInv ExitState.init := by
    unfold ExitInv ExitState.init
    simp
  obtain ⟨_, h2, _, h4⟩ := exitInv_run events _ hinit
  refine ⟨h2, h4, ?_, ?_⟩
  · intro terminationLevel hne
    rw [run_append] at hne
    by_contra hl
    apply hne
    show (exitHandler (ExitState.init.run events) terminationLevel).exitCalls = _
    unfold exitHandler
    have hlt : terminationLevel < 2 := by omega
    simp only [hlt, decide_True, Bool.or_true, if_true]
    split <;> rfl
  · intro later
    rw [run_append]
    show (({ ExitState.init.run events with showMessageOnExit := false } :
      ExitState).run later).written = _
    rw [written_after_clear later _ rfl]

/-- C26 (code bug). With a `browsers` option configured and one CLI browser argument
that resolves, `getBrowsersAndSources` throws a `CompositeError` that carries no
error; it returns only when no argument resolves. -/
theorem getBrowsersAndSources_throws_when_all_resolve :
    getBrowsersAndSources (.obj 0) (fun _ => .ok 1) ["chrome"] ["test.js"] = .error ⟨[]⟩ ∧
    getBrowsersAndSources (.obj 0) (fun _ => .ok 1) ["chrome", "firefox"] [] = .error ⟨[]⟩ ∧
    getBrowsersAndSources (.obj 0) (fun _ => .error ⟨3, none⟩) ["chrome"] ["test.js"] =
      .ok ([], [.browsers ["chrome"], .file "test.js"]) ∧
    getBrowsersAndSources .undefined (fun _ => .ok 1) ["chrome"] ["test.js"] =
      .ok (["chrome"], [.file "test.js"]) :=
  ⟨rfl, rfl, rfl, rfl⟩

end TestCafe.Cli

namespace TestCafe.LiveModeBootstrapper

open TestCafe

/-- C29 (as stated) fails: when the base `_getTests` fails and `compilerHost.cleanUp`
fails too, `_getTests` throws the error of `cleanUp`; it does not return `undefined`,
and no error is recorded through `runner.setBootstrappingError`. -/
theorem getTests_propagates_cleanUp_failure :
    (_getTests ⟨.originalRequire, 0, none⟩ (.error ⟨1, none⟩ : Except Err Nat)
      (some ⟨2, none⟩)).1 = .error ⟨2, none⟩ ∧
    (_getTests ⟨.originalRequire, 0, none⟩ (.error ⟨1, none⟩ : Except Err Nat)
      (some ⟨2, none⟩)).2 = ⟨.originalRequire, 1, none⟩ :=
  ⟨rfl, rfl⟩

/-- C29 (as amended). `Module.prototype.require` is the original function when
`_getTests` completes, in every case.  When the base `_getTests` succeeds, its tests are
returned and nothing else changes.  When it fails, `compilerHost.cleanUp` is called
once; if `cleanUp` completes, the error is recorded through
`runner.setBootstrappingError` and `undefined` is returned; if `cleanUp` fails, its
error is thrown and nothing is recorded.  So `_getTests` throws only an error of
`cleanUp`. -/
theorem getTests_restores_require_and_records_failure (e : Env) (base : Except Err Nat)
    (cleanUp : Option Err) :
    (_getTests e base cleanUp).2.require = .originalRequire ∧
    (∀ tests, base = .ok tests →
      _getTests e base cleanUp = (.ok (some tests), { e with require := .originalRequire })) ∧
    (∀ err, base = .error err →
      (_getTests e base cleanUp).2.cleanUpCalls = e.cleanUpCalls + 1 ∧
      (cleanUp = none →
        (_getTests e base cleanUp).1 = .ok none ∧
        (_getTests e base cleanUp).2.bootstrappingError = some err) ∧
      (∀ err2, cleanUp = some err2 →
        (_getTests e base cleanUp).1 = .error err2 ∧
        (_getTests e base cleanUp).2.bootstrappingError = e.bootstrappingError)) ∧
    (∀ err2, (_getTests e base cleanUp).1 = .error err2 → cleanUp = some err2) := by
  cases base with
  | ok tests =>
    refine ⟨rfl, ?_, ?_, ?_⟩
    · intro t h
      cases h
      rfl
    · intro err h
      cases h
    · intro err2 h
      cases h
  | error err =>
    cases cleanUp with
    | none =>
      refine ⟨rfl, ?_, ?_, ?_⟩
      · intro t h
        cases h
      · intro err1 h
        cases h
        refine ⟨rfl, fun _ => ⟨rfl, rfl⟩, ?_⟩
        intro err2 h2
        cases h2
      · intro err2 h
        cases h
    | some c =>
      refine ⟨rfl, ?_, ?_, ?_⟩
      · intro t h
        cases h
      · intro err1 h
        cases h
        refine ⟨rfl, ?_, ?_⟩
        · intro h2
          cases h2
        · intro err2 h2
          cases h2
          exact ⟨rfl, rfl⟩
      · intro err2 h
        cases h
        rfl

end TestCafe.LiveModeBootstrapper
